import Mathlib

/-!
Verification development for the `rift` HTTP fault-injection proxy
(crate `rift-http-proxy`).

The Rust sources are shallowly embedded:

* strings are modelled as lists of bytes (`Str := List Nat`), matching the
  byte-level operations (`eq_ignore_ascii_case`, `memmem`, byte slicing)
  that the Rust code performs on UTF-8 `str` values;
* the external regex engine (`regex` crate) and the JSON parser
  (`serde_json`) are modelled as an abstract `RegexEngine` record, with the
  properties the code relies on stated as explicit hypotheses;
* time (`std::time::Instant`) is modelled as a `Nat` parameter threaded
  through the operations that read the clock;
* randomness (`rand::thread_rng`) is modelled as an explicit `draw`
  parameter: `gen_range(lo..=hi)` becomes `lo + draw % (hi - lo + 1)`
  (the embedding is stated for `lo ≤ hi`; `gen_range` panics otherwise).

Each definition names the Rust item it embeds (file and symbol).
-/

set_option autoImplicit false

namespace Rift

/-! ## Byte strings and ASCII case helpers -/

/-- A Rust `str` / `String`, viewed as its UTF-8 byte sequence. -/
abbrev Str := List Nat

/-- Rust `u8::to_ascii_lowercase`: fold one ASCII letter byte to lower case. -/
def asciiLowerByte (b : Nat) : Nat :=
  if 65 ≤ b ∧ b ≤ 90 then b + 32 else b

/-- ASCII-lowercase every byte of a byte string
(`str::to_ascii_lowercase` / per-byte folding). -/
def strLowerAscii (s : Str) : Str := s.map asciiLowerByte

/-- Rust `str::eq_ignore_ascii_case` on byte strings: equal length and
bytewise equality after ASCII case folding. -/
def eqIgnoreAsciiCase (a b : Str) : Bool := strLowerAscii a == strLowerAscii b

/-- Executable contiguous-substring test on byte strings: the needle is a
prefix of some suffix of the haystack. -/
def isInfixB : Str → Str → Bool
  | needle, [] => needle.isEmpty
  | needle, b :: rest => needle.isPrefixOf (b :: rest) || isInfixB needle rest

/-- The haystack `hay` contains the needle up to ASCII case: some contiguous
byte run of `hay` equals `needle` after ASCII case folding on both sides. -/
def containsIgnoreAsciiCase (needle hay : Str) : Bool :=
  isInfixB (strLowerAscii needle) (strLowerAscii hay)

/-- Byte-level substring test (`memchr::memmem::Finder::find(..).is_some()`). -/
def strContains (needle hay : Str) : Bool := isInfixB needle hay

/-- Byte-level prefix test (`str::starts_with` with a `str` pattern). -/
def strStartsWith (pat v : Str) : Bool := pat.isPrefixOf v

/-- Byte-level suffix test (`str::ends_with` with a `str` pattern). -/
def strEndsWith (pat v : Str) : Bool := pat.isSuffixOf v

/-! ## Fault decision layer

Embeds `src/fault.rs` together with the fault-configuration types of
`src/config.rs` (`FaultConfig`, `LatencyFault`, `ErrorFault`, `TcpFault`).
The `probability` fields are `f64` in Rust; they are modelled as `Rat`.
Nothing in `decide_fault` reads them, which is what claims C1/C10 probe. -/

/-- `config.rs` `LatencyFault { probability, min_ms, max_ms }`. -/
structure LatencyFault where
  probability : Rat
  min_ms : Nat
  max_ms : Nat
  deriving DecidableEq, Repr

/-- `config.rs` `ErrorFault { probability, status, body, .. }`.
The optional response headers and behaviors do not influence
`decide_fault` (which copies only `status` and `body`); they are carried
as an association list and an opaque flag-free placeholder is omitted. -/
structure ErrorFault where
  probability : Rat
  status : Nat
  body : Option Str
  headers : List (Str × Str)
  deriving DecidableEq, Repr

/-- `config.rs` `TcpFault`. -/
inductive TcpFault where
  | connectionResetByPeer
  | randomDataThenClose
  deriving DecidableEq, Repr

/-- `config.rs` `FaultConfig { latency, error, tcp_fault }`. -/
structure FaultConfig where
  latency : Option LatencyFault
  error : Option ErrorFault
  tcp_fault : Option TcpFault
  deriving DecidableEq, Repr

/-- `fault.rs` `FaultDecision`. -/
inductive FaultDecision where
  | none
  | latency (duration_ms : Nat)
  | error (status : Nat) (body : Option Str)
  deriving DecidableEq, Repr

/-- `fault.rs` `decide_fault`. The single RNG draw used by
`rng.gen_range(min_ms..=max_ms)` is made explicit: `draw` is an arbitrary
natural and the sampled duration is `min_ms + draw % (max_ms - min_ms + 1)`,
which ranges over exactly `[min_ms, max_ms]` when `min_ms ≤ max_ms`
(`gen_range` panics when the range is empty, so the embedding is only
quoted under that hypothesis where the sampled value matters).

Note that the function never consults `latency.probability` or
`error.probability`: the Rust body has no probability test. -/
def decide_fault (draw : Nat) (config : Option FaultConfig) : FaultDecision :=
  match config with
  | Option.none => FaultDecision.none
  | Option.some c =>
    match c.latency with
    | Option.some l =>
        FaultDecision.latency (l.min_ms + draw % (l.max_ms - l.min_ms + 1))
    | Option.none =>
      match c.error with
      | Option.some e => FaultDecision.error e.status e.body
      | Option.none => FaultDecision.none

/-! ## Recording store

Embeds `src/recording.rs`: `ProxyMode`, `RecordedResponse`,
`RequestSignature`, `RecordingStore` and its `record` / `get_recorded` /
`should_proxy` operations.  The `RwLock<HashMap<..>>` becomes an
association list from signatures to response vectors; `HashMap::entry`
with `or_insert_with` / `or_default` becomes lookup-or-append. -/

/-- `recording.rs` `ProxyMode`. -/
inductive ProxyMode where
  | proxyOnce
  | proxyAlways
  | proxyTransparent
  deriving DecidableEq, Repr

/-- `recording.rs` `RecordedResponse`. -/
structure RecordedResponse where
  status : Nat
  headers : List (Str × Str)
  body : Str
  latency_ms : Option Nat
  timestamp_secs : Nat
  deriving DecidableEq, Repr

/-- `recording.rs` `RequestSignature`. -/
structure RequestSignature where
  method : Str
  path : Str
  query : Option Str
  headers : List (Str × Str)
  deriving DecidableEq, Repr

/-- `recording.rs` `RecordingStore`: the recording mode plus the
signature-keyed map of recorded responses. -/
structure RecordingStore where
  responses : List (RequestSignature × List RecordedResponse)
  mode : ProxyMode
  deriving DecidableEq, Repr

namespace RecordingStore

/-- `RecordingStore::new`. -/
def new (mode : ProxyMode) : RecordingStore := ⟨[], mode⟩

/-- Association-list lookup standing in for `HashMap::get`. -/
def lookupSig (sig : RequestSignature) :
    List (RequestSignature × List RecordedResponse) →
    Option (List RecordedResponse)
  | [] => Option.none
  | (k, rs) :: rest => if k = sig then Option.some rs else lookupSig sig rest

/-- The `ProxyOnce` arm of `record`:
`store.entry(signature).or_insert_with(|| vec![response])` inserts the
one-element vector only when the key is absent. -/
def entryOrInsert (sig : RequestSignature) (response : RecordedResponse) :
    List (RequestSignature × List RecordedResponse) →
    List (RequestSignature × List RecordedResponse)
  | [] => [(sig, [response])]
  | (k, rs) :: rest =>
    if k = sig then (k, rs) :: rest
    else (k, rs) :: entryOrInsert sig response rest

/-- The `ProxyAlways` arm of `record`:
`store.entry(signature).or_default().push(response)` appends to the
(possibly fresh) vector for the key. -/
def entryOrDefaultPush (sig : RequestSignature) (response : RecordedResponse) :
    List (RequestSignature × List RecordedResponse) →
    List (RequestSignature × List RecordedResponse)
  | [] => [(sig, [response])]
  | (k, rs) :: rest =>
    if k = sig then (k, rs ++ [response]) :: rest
    else (k, rs) :: entryOrDefaultPush sig response rest

/-- `RecordingStore::record`. -/
def record (store : RecordingStore) (sig : RequestSignature)
    (response : RecordedResponse) : RecordingStore :=
  match store.mode with
  | ProxyMode.proxyOnce =>
      { store with responses := entryOrInsert sig response store.responses }
  | ProxyMode.proxyAlways =>
      { store with responses := entryOrDefaultPush sig response store.responses }
  | ProxyMode.proxyTransparent => store

/-- `RecordingStore::get_recorded`: the first recorded response for the
signature, if any. -/
def get_recorded (store : RecordingStore) (sig : RequestSignature) :
    Option RecordedResponse :=
  match lookupSig sig store.responses with
  | Option.none => Option.none
  | Option.some rs => rs.head?

/-- `RecordingStore::should_proxy`. -/
def should_proxy (store : RecordingStore) (sig : RequestSignature) : Bool :=
  match store.mode with
  | ProxyMode.proxyOnce => (lookupSig sig store.responses).isNone
  | ProxyMode.proxyAlways => true
  | ProxyMode.proxyTransparent => true

end RecordingStore

/-! ## Decision cache

Embeds `src/scripting/decision_cache.rs`: `DecisionCacheConfig`,
`CacheKey`, `CacheEntry`, `CacheMetrics`, `DecisionCache` with `get`,
`insert` and `evict_lru`.  `std::time::Instant` becomes a `Nat` clock
value passed to each operation (`Instant` is monotonic, so `now` is
assumed to be at least every stored timestamp where it matters); the
`RwLock<HashMap<..>>` becomes an association list. `HashMap` iteration
order is unspecified in Rust, so `min_by_key` over it may break ties
arbitrarily; the embedding fixes list order and keeps the first minimal
entry (as `Iterator::min_by_key` does), and the theorems below only rely
on situations with a unique minimum. -/

/-- `decision_cache.rs` `DecisionCacheConfig`. -/
structure DecisionCacheConfig where
  enabled : Bool
  max_size : Nat
  ttl_seconds : Nat
  deriving DecidableEq, Repr

/-- `decision_cache.rs` `CacheKey` (headers stored sorted by
`CacheKey::new`; the sort is irrelevant to the cache claims, so keys are
taken as already-constructed values). -/
structure CacheKey where
  method : Str
  path : Str
  headers : List (Str × Str)
  body_hash : Nat
  rule_id : Str
  deriving DecidableEq, Repr

/-- Modelled from the spec: the scripting-layer fault decision stored in
the decision cache.  Its Rust definition lives in `scripting/mod.rs`,
which is not among the embedded sources; spec section 3 gives the variants
(`None`, `Latency{duration_ms, rule_id}`, `Error{..., rule_id}`,
`TcpFault{kind, rule_id}`), and the unit tests of `decision_cache.rs`
construct exactly these shapes.  The cache never inspects the decision, it
only stores and returns it. -/
inductive ScriptFaultDecision where
  | none
  | latency (duration_ms : Nat) (rule_id : Str)
  | error (status : Nat) (body : Str) (rule_id : Str)
  | tcpFault (kind : TcpFault) (rule_id : Str)
  deriving DecidableEq, Repr

/-- `decision_cache.rs` `CacheEntry`. -/
structure CacheEntry where
  decision : ScriptFaultDecision
  created_at : Nat
  last_accessed : Nat
  access_count : Nat
  deriving DecidableEq, Repr

namespace CacheEntry

/-- `CacheEntry::new` at clock value `now`. -/
def new (decision : ScriptFaultDecision) (now : Nat) : CacheEntry :=
  { decision := decision, created_at := now, last_accessed := now, access_count := 0 }

/-- `CacheEntry::is_expired`: a zero TTL never expires; otherwise the
entry is expired once strictly more than `ttl` has elapsed since creation. -/
def is_expired (e : CacheEntry) (ttl now : Nat) : Bool :=
  if ttl = 0 then false else decide (ttl < now - e.created_at)

/-- `CacheEntry::touch` at clock value `now`. -/
def touch (e : CacheEntry) (now : Nat) : CacheEntry :=
  { e with last_accessed := now, access_count := e.access_count + 1 }

end CacheEntry

/-- `decision_cache.rs` `CacheMetrics`. -/
structure CacheMetrics where
  hits : Nat
  misses : Nat
  inserts : Nat
  evictions : Nat
  expirations : Nat
  size : Nat
  deriving DecidableEq, Repr

/-- The all-zero initial metrics (`CacheMetrics::default`). -/
def CacheMetrics.init : CacheMetrics := ⟨0, 0, 0, 0, 0, 0⟩

/-- `decision_cache.rs` `DecisionCache`. -/
structure DecisionCache where
  config : DecisionCacheConfig
  cache : List (CacheKey × CacheEntry)
  metrics : CacheMetrics
  deriving DecidableEq, Repr

namespace DecisionCache

/-- `DecisionCache::new`. -/
def new (config : DecisionCacheConfig) : DecisionCache :=
  { config := config, cache := [], metrics := CacheMetrics.init }

/-- Association-list lookup standing in for `HashMap::get` / `get_mut`. -/
def lookupKey (key : CacheKey) :
    List (CacheKey × CacheEntry) → Option CacheEntry
  | [] => Option.none
  | (k, e) :: rest => if k = key then Option.some e else lookupKey key rest

/-- Remove the (first) binding of `key` (`HashMap::remove`). -/
def removeKey (key : CacheKey) :
    List (CacheKey × CacheEntry) → List (CacheKey × CacheEntry)
  | [] => []
  | (k, e) :: rest =>
    if k = key then rest else (k, e) :: removeKey key rest

/-- Insert-or-replace a binding (`HashMap::insert`). -/
def putKey (key : CacheKey) (entry : CacheEntry) :
    List (CacheKey × CacheEntry) → List (CacheKey × CacheEntry)
  | [] => [(key, entry)]
  | (k, e) :: rest =>
    if k = key then (k, entry) :: rest else (k, e) :: putKey key entry rest

/-- The binding with minimal `last_accessed`
(`iter().min_by_key(|(_, entry)| entry.last_accessed)`; `min_by_key`
returns the first of several equally minimal elements). -/
def minByLastAccessed : List (CacheKey × CacheEntry) → Option (CacheKey × CacheEntry)
  | [] => Option.none
  | kv :: rest =>
    match minByLastAccessed rest with
    | Option.none => Option.some kv
    | Option.some kv' =>
      if kv'.2.last_accessed < kv.2.last_accessed then Option.some kv'
      else Option.some kv

/-- `DecisionCache::evict_lru`, acting on the raw map and metrics. -/
def evict_lru (cache : List (CacheKey × CacheEntry)) (metrics : CacheMetrics) :
    List (CacheKey × CacheEntry) × CacheMetrics :=
  match minByLastAccessed cache with
  | Option.none => (cache, metrics)
  | Option.some kv =>
    (removeKey kv.1 cache, { metrics with evictions := metrics.evictions + 1 })

/-- `DecisionCache::get` at clock value `now`: the returned decision (if
any) together with the updated cache state. -/
def get (c : DecisionCache) (now : Nat) (key : CacheKey) :
    Option ScriptFaultDecision × DecisionCache :=
  if !c.config.enabled then (Option.none, c)
  else
    let ttl := c.config.ttl_seconds
    match lookupKey key c.cache with
    | Option.some entry =>
      if entry.is_expired ttl now then
        let cache' := removeKey key c.cache
        (Option.none,
          { c with
            cache := cache'
            metrics :=
              { c.metrics with
                misses := c.metrics.misses + 1
                expirations := c.metrics.expirations + 1
                size := cache'.length } })
      else
        (Option.some entry.decision,
          { c with
            cache := putKey key (entry.touch now) c.cache
            metrics := { c.metrics with hits := c.metrics.hits + 1 } })
    | Option.none =>
      (Option.none, { c with metrics := { c.metrics with misses := c.metrics.misses + 1 } })

/-- `DecisionCache::insert` at clock value `now`. -/
def insert (c : DecisionCache) (now : Nat) (key : CacheKey)
    (decision : ScriptFaultDecision) : DecisionCache :=
  if !c.config.enabled then c
  else
    let em :=
      if c.config.max_size ≤ c.cache.length ∧ (lookupKey key c.cache).isNone then
        evict_lru c.cache c.metrics
      else (c.cache, c.metrics)
    let cache2 := putKey key (CacheEntry.new decision now) em.1
    { config := c.config
      cache := cache2
      metrics := { em.2 with inserts := em.2.inserts + 1, size := cache2.length } }

/-- `DecisionCache::size`. -/
def size (c : DecisionCache) : Nat := c.cache.length

end DecisionCache

/-- One client-visible cache operation (an `insert` or a `get`, each at
some clock value), used to state the size invariant of claim C5. -/
inductive CacheOp where
  | insertOp (now : Nat) (key : CacheKey) (decision : ScriptFaultDecision)
  | getOp (now : Nat) (key : CacheKey)
  deriving DecidableEq, Repr

namespace DecisionCache

/-- Run one cache operation, keeping the resulting state. -/
def execOp (c : DecisionCache) : CacheOp → DecisionCache
  | CacheOp.insertOp now key d => c.insert now key d
  | CacheOp.getOp now key => (c.get now key).2

/-- Run a sequence of cache operations. -/
def execOps (c : DecisionCache) : List CacheOp → DecisionCache
  | [] => c
  | o :: rest => execOps (c.execOp o) rest

end DecisionCache

/-! ## JSON values

A minimal JSON value type standing in for `serde_json::Value` (numbers
are modelled as integers; no claim below depends on float behaviour). -/

/-- `serde_json::Value` for the purposes of this development. -/
inductive Json where
  | null
  | bool (b : Bool)
  | num (n : Int)
  | str (s : Str)
  | arr (xs : List Json)
  | obj (kvs : List (Str × Json))

/-- Association lookup in a JSON object (`serde_json::Map::get`). -/
def jsonLookup (key : Str) : List (Str × Json) → Option Json
  | [] => Option.none
  | (k, v) :: rest => if k = key then Option.some v else jsonLookup key rest

mutual

/-- Structural equality of JSON values (`==` on `serde_json::Value`). -/
def Json.beq : Json → Json → Bool
  | Json.null, Json.null => true
  | Json.bool a, Json.bool b => a == b
  | Json.num a, Json.num b => a == b
  | Json.str a, Json.str b => a == b
  | Json.arr xs, Json.arr ys => Json.beqList xs ys
  | Json.obj xs, Json.obj ys => Json.beqObjList xs ys
  | _, _ => false

/-- Elementwise equality of JSON arrays. -/
def Json.beqList : List Json → List Json → Bool
  | [], [] => true
  | a :: moreA, b :: moreB => Json.beq a b && Json.beqList moreA moreB
  | _, _ => false

/-- Entrywise equality of JSON objects (order-sensitive, as
`serde_json`'s preserve-order map compares equal only on equal entries;
no claim below depends on object-key ordering). -/
def Json.beqObjList : List (Str × Json) → List (Str × Json) → Bool
  | [], [] => true
  | (k, v) :: xs, (k2, v2) :: ys => k == k2 && Json.beq v v2 && Json.beqObjList xs ys
  | _, _ => false

end

/-- A JSON value is an object or an array
(`value.is_object() || value.is_array()`). -/
def Json.isObjectValue : Json → Bool
  | Json.obj _ => true
  | Json.arr _ => true
  | _ => false

/-- `value.as_str().unwrap_or("")`. -/
def Json.asStrOrEmpty : Json → Str
  | Json.str s => s
  | _ => []

/-- `value.as_object()`. -/
def Json.asObject : Json → Option (List (Str × Json))
  | Json.obj kvs => Option.some kvs
  | _ => Option.none

/-! ## The external regex / JSON engines

Modelled from the spec: the `regex` crate and `serde_json` are external
collaborators of the predicate engine (spec section 1 scopes them out),
so they are embedded as an abstract record of total functions.  The
properties the code relies on — in particular that an inline-`(?i)`
regex over an escaped literal accepts exactly ASCII-case-insensitive
containment of that literal (spec section 4.1) — are stated as explicit
hypotheses of the theorems that need them, and discharged at witness
time by the concrete `refEngine` below. -/

/-- The abstract regex/JSON engine: pattern compilation success
(`Regex::new` / `RegexSet::new`), regex matching (`Regex::is_match`,
also each member of a `RegexSet`), `Regex::replace_all(value, "")`, and
`serde_json::from_str`. -/
structure RegexEngine where
  compiles : Str → Bool
  rmatch : Str → Str → Bool
  rreplaceAll : Str → Str → Str
  jsonParse : Str → Option Json

/-- The set of regex metacharacters escaped by `regex::escape`
(`\ . + * ? ( ) | [ ] { } ^ $ # & - ~`, as byte values). -/
def regexMetaBytes : List Nat :=
  [92, 46, 43, 42, 63, 40, 41, 124, 91, 93, 123, 125, 94, 36, 35, 38, 45, 126]

/-- `regex::escape`: prefix every metacharacter byte with a backslash. -/
def regexEscape (s : Str) : Str :=
  s.flatMap (fun b => if b ∈ regexMetaBytes then [92, b] else [b])

/-- The pattern `format!("(?i){}", regex::escape(needle))` that the
optimizer emits for a case-insensitive `contains`
(`predicate_optimizer.rs`, `StringPredicateBuilder::build`). -/
def ciContainsPattern (needle : Str) : Str :=
  [40, 63, 105, 41] ++ regexEscape needle

/-- Undo `regexEscape`: drop a backslash that precedes any byte. -/
def regexUnescape : Str → Str
  | [] => []
  | [b] => [b]
  | b :: b2 :: rest =>
    if b = 92 then b2 :: regexUnescape rest
    else b :: regexUnescape (b2 :: rest)

/-- A concrete engine used to discharge the abstract-engine hypotheses in
witnesses: every pattern compiles; a pattern of shape `(?i)…` matches the
ASCII-case-insensitive containment of its unescaped literal; any other
pattern matches plain containment of itself; `replace_all` strips
nothing; nothing parses as JSON. -/
def refEngine : RegexEngine where
  compiles := fun _ => true
  rmatch := fun p v =>
    if p.take 4 = [40, 63, 105, 41] then
      containsIgnoreAsciiCase (regexUnescape (p.drop 4)) v
    else
      strContains p v
  rreplaceAll := fun _ v => v
  jsonParse := fun _ => Option.none

/-- An engine on which the single pattern `"("` fails to compile
(as it does in any real regex engine), used to witness the
compile-failure claims. -/
def failEngine : RegexEngine where
  compiles := fun p => !(p == [40])
  rmatch := fun _ _ => false
  rreplaceAll := fun _ v => v
  jsonParse := fun _ => Option.none

/-! ## Matcher primitives

Embeds `src/imposter/optimized_predicates.rs`: `MaybeSensitiveStr`,
`ContainsMatcher`, `StringPredicate`, `ObjectPredicate`,
`ValuePredicate`, `FieldPredicate`, `OptimizedPredicates`.

`MaybeSensitiveStr::starts_with` / `ends_with` slice the value at the
pattern's byte length in their case-insensitive branch
(`value[..self.s.len()]` / `value[value.len() - self.s.len()..]`), which
panics in Rust when that byte index is not a UTF-8 character boundary of
`value`.  The panicking computation is embedded faithfully as
`starts_with?` / `ends_with?` returning `Option Bool` (`none` = panic);
the total functions `starts_with` / `ends_with` are the same computation
with the boundary check dropped, and agree with the source at every
input where the source returns (claim C9 settles the panic). -/

/-- Rust `str::is_char_boundary` on the byte string `v`: index 0 and the
length are boundaries; an in-range index is a boundary iff the byte there
is not a UTF-8 continuation byte (`0x80..0xBF`); past-the-end indices are
not boundaries. -/
def isCharBoundary (v : Str) (i : Nat) : Bool :=
  i == 0 || i == v.length ||
    (decide (i < v.length) &&
      !(decide (128 ≤ v.getD i 0) && decide (v.getD i 0 < 192)))

/-- `optimized_predicates.rs` `MaybeSensitiveStr`. -/
structure MaybeSensitiveStr where
  s : Str
  ascii_case_sensitive : Bool
  deriving DecidableEq, Repr

namespace MaybeSensitiveStr

/-- `MaybeSensitiveStr::equals`. -/
def equals (m : MaybeSensitiveStr) (value : Str) : Bool :=
  if m.ascii_case_sensitive then value == m.s
  else eqIgnoreAsciiCase value m.s

/-- `MaybeSensitiveStr::starts_with`, with the case-insensitive branch's
byte slice taken totally (`List.take` in place of `value[..len]`). -/
def starts_with (m : MaybeSensitiveStr) (value : Str) : Bool :=
  if m.ascii_case_sensitive then strStartsWith m.s value
  else if value.length < m.s.length then false
  else eqIgnoreAsciiCase (value.take m.s.length) m.s

/-- `MaybeSensitiveStr::ends_with`, with the case-insensitive branch's
byte slice taken totally. -/
def ends_with (m : MaybeSensitiveStr) (value : Str) : Bool :=
  if m.ascii_case_sensitive then strEndsWith m.s value
  else if value.length < m.s.length then false
  else eqIgnoreAsciiCase (value.drop (value.length - m.s.length)) m.s

/-- `MaybeSensitiveStr::starts_with` embedded with Rust's slicing
semantics: `Option.none` models the panic of `value[..self.s.len()]`
when the pattern's byte length is not a character boundary of `value`. -/
def startsWithChecked (m : MaybeSensitiveStr) (value : Str) : Option Bool :=
  if m.ascii_case_sensitive then Option.some (strStartsWith m.s value)
  else if value.length < m.s.length then Option.some false
  else if isCharBoundary value m.s.length then
    Option.some (eqIgnoreAsciiCase (value.take m.s.length) m.s)
  else Option.none

/-- `MaybeSensitiveStr::ends_with` embedded with Rust's slicing
semantics: `Option.none` models the panic of
`value[value.len() - self.s.len()..]` at a non-boundary index. -/
def endsWithChecked (m : MaybeSensitiveStr) (value : Str) : Option Bool :=
  if m.ascii_case_sensitive then Option.some (strEndsWith m.s value)
  else if value.length < m.s.length then Option.some false
  else if isCharBoundary value (value.length - m.s.length) then
    Option.some (eqIgnoreAsciiCase (value.drop (value.length - m.s.length)) m.s)
  else Option.none

end MaybeSensitiveStr

/-- `optimized_predicates.rs` `StringPredicate`.  The `Simple`,
`Regexes` and `Never` variants are embedded from the enum in
`optimized_predicates.rs`; a `ContainsMatcher` is represented by its
needle bytes (the pre-built `memmem` finder is a pure function of the
needle), and a compiled `Regex` / `RegexSet` member by its pattern.  The
`Combined` variant is modelled from the spec (section 3, "Combined string
predicate"): the optimizer (`predicate_optimizer.rs`, in the sources)
constructs `StringPredicate::Combined { simple, regexes,
require_all_regexes }`, but the variant's own definition and `matches`
arm are not among the embedded source files; per the spec it is the AND
of its simple part and its regex set. -/
inductive StringPredicate where
  | Simple (starts_with : Option MaybeSensitiveStr)
      (ends_with : Option MaybeSensitiveStr)
      (contains : List Str)
      (equals : Option MaybeSensitiveStr)
  | Regexes (set : List Str) (require_all : Bool)
  | Combined (simple : StringPredicate) (regexes : List Str)
      (require_all_regexes : Bool)
  | Never

namespace StringPredicate

/-- `StringPredicate::empty_simple`. -/
def empty_simple : StringPredicate := StringPredicate.Simple Option.none Option.none [] Option.none

/-- `StringPredicate::matches`.  The `Simple` arm checks, in source
order: `equals`, `starts_with`, `ends_with`, then every pre-built
`contains` finder.  The `Regexes` arm evaluates the whole set and
requires all (`matched_all`) or any (`matched_any`) pattern.  `Never`
always fails.  The `Combined` arm (modelled from the spec) is the AND of
the simple part and the regex set. -/
def matchesB (E : RegexEngine) : StringPredicate → Str → Bool
  | StringPredicate.Simple sw ew cs eq, value =>
    (match eq with
     | Option.some m => m.equals value
     | Option.none => true) &&
    (match sw with
     | Option.some m => m.starts_with value
     | Option.none => true) &&
    (match ew with
     | Option.some m => m.ends_with value
     | Option.none => true) &&
    cs.all (fun needle => strContains needle value)
  | StringPredicate.Regexes set require_all, value =>
    if require_all then set.all (fun p => E.rmatch p value)
    else set.any (fun p => E.rmatch p value)
  | StringPredicate.Combined simple regexes require_all, value =>
    matchesB E simple value &&
    (if require_all then regexes.all (fun p => E.rmatch p value)
     else regexes.any (fun p => E.rmatch p value))
  | StringPredicate.Never, _ => false

end StringPredicate

/-- `optimized_predicates.rs` `ObjectPredicate` (the `Matches` map is
keyed by field name, each value being a compiled regex represented by
its pattern). -/
inductive ObjectPredicate where
  | Equals (expected : Json)
  | DeepEquals (expected : Json)
  | Contains (expected : Json)
  | Matches (regexes : List (Str × Str))

/-- Membership of a JSON value in a list, up to `Json.beq`. -/
def jsonMemB (x : Json) (xs : List Json) : Bool :=
  xs.any (fun y => Json.beq x y)

mutual

/-- `ObjectPredicate::is_subset`: all object fields of `subset` must
exist in `superset` and be recursively subsets; arrays require each
element of the subset array to occur in the superset array; primitives
compare by equality. -/
def Json.is_subset : Json → Json → Bool
  | Json.obj sub, Json.obj sup => Json.subsetEntries sub sup
  | Json.arr sub, Json.arr sup =>
    decide (sub.length ≤ sup.length) && Json.subsetElems sub sup
  | a, b => Json.beq a b

/-- Each entry of the subset object must match in the superset object. -/
def Json.subsetEntries : List (Str × Json) → List (Str × Json) → Bool
  | [], _ => true
  | (key, sv) :: rest, sup =>
    (match jsonLookup key sup with
     | Option.some supv => Json.is_subset sv supv
     | Option.none => false) && Json.subsetEntries rest sup

/-- Each element of the subset array must occur in the superset array. -/
def Json.subsetElems : List Json → List Json → Bool
  | [], _ => true
  | si :: rest, sup => jsonMemB si sup && Json.subsetElems rest sup

end

/-- `ObjectPredicate::matches`. -/
def ObjectPredicate.matchesB (E : RegexEngine) : ObjectPredicate → Json → Bool
  | ObjectPredicate.Equals expected, value => Json.is_subset expected value
  | ObjectPredicate.DeepEquals expected, value => Json.beq expected value
  | ObjectPredicate.Contains expected, value => Json.is_subset expected value
  | ObjectPredicate.Matches regexes, value =>
    match value with
    | Json.obj obj =>
      regexes.all (fun kp =>
        match jsonLookup kp.1 obj with
        | Option.some (Json.str s) => E.rmatch kp.2 s
        | _ => false)
    | _ => false

/-- `optimized_predicates.rs` `ValuePredicate`. -/
inductive ValuePredicate where
  | String (pred : StringPredicate)
  | Object (pred : ObjectPredicate)

/-- `ValuePredicate::matches_str`: string predicates match directly; an
object predicate first parses the value as JSON and fails on a parse
error. -/
def ValuePredicate.matches_str (E : RegexEngine) : ValuePredicate → Str → Bool
  | ValuePredicate.String pred, value => pred.matchesB E value
  | ValuePredicate.Object pred, value =>
    match E.jsonParse value with
    | Option.some json => pred.matchesB E json
    | Option.none => false

/-- `optimized_predicates.rs` `FieldPredicate`: a value predicate plus an
optional `except` regex (represented by its pattern) stripped from the
value before matching.  Selectors (jsonpath/xpath) are omitted from the
embedding: at match time the source ignores them (extraction is an
unimplemented TODO and the raw value is used), and no claim involves
them; the optimizer's per-selector grouping accordingly collapses to a
single builder per field. -/
structure FieldPredicate where
  predicate : ValuePredicate
  except : Option Str

/-- `FieldPredicate::matches`: apply the `except` pattern
(`Regex::replace_all(value, "")`) if present, then match. -/
def FieldPredicate.matchesB (E : RegexEngine) (fp : FieldPredicate) (value : Str) : Bool :=
  match fp.except with
  | Option.some exceptPat => fp.predicate.matches_str E (E.rreplaceAll exceptPat value)
  | Option.none => fp.predicate.matches_str E value

/-- Association lookup in a string-to-string map (`HashMap::get`). -/
def lookupStr (key : Str) : List (Str × Str) → Option Str
  | [] => Option.none
  | (k, v) :: rest => if k = key then Option.some v else lookupStr key rest

/-- The request-side arguments of `OptimizedPredicates::matches`
(method, path, query map, lowercase-keyed header map, optional body,
optional requestFrom, optional client IP, optional form map), bundled as
one record. -/
structure RequestContext where
  method : Str
  path : Str
  query : List (Str × Str)
  headers : List (Str × Str)
  body : Option Str
  request_from : Option Str
  client_ip : Option Str
  form : Option (List (Str × Str))

/-- `optimized_predicates.rs` `OptimizedPredicates`: per-field predicate
lists, and per-name predicate lists for query parameters, headers
(lowercased names) and form fields. -/
structure OptimizedPredicates where
  method : List FieldPredicate
  path : List FieldPredicate
  body : List FieldPredicate
  query : List (Str × List FieldPredicate)
  headers : List (Str × List FieldPredicate)
  request_from : List FieldPredicate
  ip : List FieldPredicate
  form : List (Str × List FieldPredicate)

/-- The shared shape of the query / headers / form arms of
`OptimizedPredicates::matches`: a present value must satisfy all the
slot's predicates, an absent required entry fails the match. -/
def requireEntry (E : RegexEngine) (o : Option Str) (preds : List FieldPredicate) : Bool :=
  match o with
  | Option.some v => preds.all (fun p => p.matchesB E v)
  | Option.none => false

namespace OptimizedPredicates

/-- `OptimizedPredicates::new`. -/
def new : OptimizedPredicates := ⟨[], [], [], [], [], [], [], []⟩

/-- `OptimizedPredicates::matches`: every predicate of every populated
field slot must match; the body / requestFrom / ip values default to the
empty string when absent; a query parameter, header or form field that
carries predicates but is absent from the request fails the match. -/
def matchesB (E : RegexEngine) (op : OptimizedPredicates) (req : RequestContext) : Bool :=
  op.method.all (fun p => p.matchesB E req.method) &&
  op.path.all (fun p => p.matchesB E req.path) &&
  op.body.all (fun p => p.matchesB E (req.body.getD [])) &&
  op.request_from.all (fun p => p.matchesB E (req.request_from.getD [])) &&
  op.ip.all (fun p => p.matchesB E (req.client_ip.getD [])) &&
  op.query.all (fun nps => requireEntry E (lookupStr nps.1 req.query) nps.2) &&
  op.headers.all (fun nps => requireEntry E (lookupStr nps.1 req.headers) nps.2) &&
  op.form.all (fun nps => requireEntry E (req.form.bind (lookupStr nps.1)) nps.2)

/-- `OptimizedPredicates::is_empty`. -/
def is_empty (op : OptimizedPredicates) : Bool :=
  op.method.isEmpty && op.path.isEmpty && op.body.isEmpty &&
  op.query.isEmpty && op.headers.isEmpty &&
  op.request_from.isEmpty && op.ip.isEmpty && op.form.isEmpty

end OptimizedPredicates

/-- The substring-finder needles of a built string predicate (the
`ContainsMatcher` list of its `Simple` part). -/
def StringPredicate.finderNeedles : StringPredicate → List Str
  | StringPredicate.Simple _ _ cs _ => cs
  | StringPredicate.Combined simple _ _ => finderNeedles simple
  | _ => []

/-- The regex patterns of a built string predicate's regex set. -/
def StringPredicate.regexPatterns : StringPredicate → List Str
  | StringPredicate.Regexes set _ => set
  | StringPredicate.Combined _ regexes _ => regexes
  | _ => []

/-! ## The legacy per-predicate matcher

Embeds the fragment of `src/predicate.rs` cited by claim C3:
`CompiledStringMatcher` and its `matches`.  This is the older,
per-predicate engine (kept for backward compatibility); its
case-insensitive arms lowercase both the pattern (precomputed at compile
time) and the value with `str::to_lowercase` and then compare. -/

/-- Byte-level fragment of Rust `str::to_lowercase` sufficient for this
development: ASCII letters fold to lower case, and U+212A KELVIN SIGN
(bytes `E2 84 AA`) lowercases to `k` per the Unicode tables; all other
byte runs are unchanged. -/
def strToLowercase : Str → Str
  | 226 :: 132 :: 170 :: rest => 107 :: strToLowercase rest
  | b :: rest => asciiLowerByte b :: strToLowercase rest
  | [] => []

/-- `predicate.rs` `CompiledStringMatcher`: each string arm stores the
pattern and its precomputed `to_lowercase` form; `Matches` stores a
compiled regex (represented by its pattern). -/
inductive CompiledStringMatcher where
  | EqualsM (value : Str) (lower : Str)
  | ContainsM (value : Str) (lower : Str)
  | StartsWithM (value : Str) (lower : Str)
  | EndsWithM (value : Str) (lower : Str)
  | MatchesM (pattern : Str)
  | ExistsM (should_exist : Bool)

/-- `CompiledStringMatcher::matches`: `Exists` compares presence; every
other arm fails on an absent value; the case-insensitive string arms
lowercase the value with `to_lowercase` and compare against the
precomputed lowered pattern; regex matching ignores the flag. -/
def CompiledStringMatcher.matchesB (E : RegexEngine) :
    CompiledStringMatcher → Option Str → Bool → Bool
  | CompiledStringMatcher.ExistsM should_exist, v, _ => should_exist == v.isSome
  | _, Option.none, _ => false
  | CompiledStringMatcher.EqualsM pattern _lower, Option.some v, true => v == pattern
  | CompiledStringMatcher.EqualsM _pattern lower, Option.some v, false =>
    strToLowercase v == lower
  | CompiledStringMatcher.ContainsM pattern _lower, Option.some v, true =>
    strContains pattern v
  | CompiledStringMatcher.ContainsM _pattern lower, Option.some v, false =>
    strContains lower (strToLowercase v)
  | CompiledStringMatcher.StartsWithM pattern _lower, Option.some v, true =>
    strStartsWith pattern v
  | CompiledStringMatcher.StartsWithM _pattern lower, Option.some v, false =>
    strStartsWith lower (strToLowercase v)
  | CompiledStringMatcher.EndsWithM pattern _lower, Option.some v, true =>
    strEndsWith pattern v
  | CompiledStringMatcher.EndsWithM _pattern lower, Option.some v, false =>
    strEndsWith lower (strToLowercase v)
  | CompiledStringMatcher.MatchesM pattern, Option.some v, _ => E.rmatch pattern v

/-! ## User predicates

The user-facing predicate type consumed by the optimizer.  Its Rust
definition lives in `imposter/types.rs`, which is not among the embedded
sources; its shape is fixed by the optimizer's exhaustive match in
`predicate_optimizer.rs` (`process_predicate_operation`) and by the unit
tests: a `Predicate` carries `parameters` (`case_sensitive :
Option<bool>`, `except : String` — empty meaning unset — and a selector,
omitted here) and an `operation`; the operations are `Equals`,
`Contains`, `StartsWith`, `EndsWith`, `Matches`, `DeepEquals`, `Exists`
over a field-name → JSON-value map, plus `And`, `Or`, `Not`. -/

mutual

/-- `types.rs` `PredicateOperation` (shape per the optimizer's match). -/
inductive PredOp where
  | equalsOp (fields : List (Str × Json))
  | containsOp (fields : List (Str × Json))
  | startsWithOp (fields : List (Str × Json))
  | endsWithOp (fields : List (Str × Json))
  | matchesOp (fields : List (Str × Json))
  | deepEqualsOp (fields : List (Str × Json))
  | existsOp (fields : List (Str × Json))
  | andOp (children : List Predicate)
  | orOp (children : List Predicate)
  | notOp (inner : Predicate)

/-- `types.rs` `Predicate`: parameters plus operation. -/
inductive Predicate where
  | mk (caseSensitive : Option Bool) (exceptStr : Str) (op : PredOp)

end

/-- The `case_sensitive` parameter of a predicate. -/
def Predicate.caseSensitive : Predicate → Option Bool
  | Predicate.mk cs _ _ => cs

/-- The `except` parameter of a predicate (empty string = unset). -/
def Predicate.exceptStr : Predicate → Str
  | Predicate.mk _ e _ => e

/-- The operation of a predicate. -/
def Predicate.op : Predicate → PredOp
  | Predicate.mk _ _ o => o

/-! ## Predicate optimizer (build path)

Embeds `src/imposter/predicate_optimizer.rs`: `StringPredicateBuilder`,
`FieldPredicateBuilder`, `FieldBuilders`, `process_predicate_operation`,
`process_fields`, `add_object_to_builder` and `optimize_predicates`.
With selectors omitted (see `FieldPredicate`), each per-field
`HashMap<SelectorKey, FieldPredicateBuilder>` collapses to the single
`NoSelector` builder, and the per-name maps for query / headers / form
become association lists updated through the `HashMap::entry` API. -/

/-- `predicate_optimizer.rs` `StringPredicateBuilder`: per-operator
buckets, each pattern paired with its resolved case-sensitivity flag. -/
structure StringPredicateBuilder where
  starts_with : Option (Str × Bool)
  ends_with : Option (Str × Bool)
  contains : List (Str × Bool)
  equals : Option (Str × Bool)
  regexes : List Str

namespace StringPredicateBuilder

/-- `StringPredicateBuilder::new` / `default`. -/
def empty : StringPredicateBuilder := ⟨Option.none, Option.none, [], Option.none, []⟩

/-- `add_starts_with` (replaces any previous pattern). -/
def add_starts_with (b : StringPredicateBuilder) (pattern : Str) (cs : Bool) :
    StringPredicateBuilder := { b with starts_with := Option.some (pattern, cs) }

/-- `add_ends_with` (replaces any previous pattern). -/
def add_ends_with (b : StringPredicateBuilder) (pattern : Str) (cs : Bool) :
    StringPredicateBuilder := { b with ends_with := Option.some (pattern, cs) }

/-- `add_contains` (pushes). -/
def add_contains (b : StringPredicateBuilder) (pattern : Str) (cs : Bool) :
    StringPredicateBuilder := { b with contains := b.contains ++ [(pattern, cs)] }

/-- `add_equals` (replaces any previous pattern). -/
def add_equals (b : StringPredicateBuilder) (pattern : Str) (cs : Bool) :
    StringPredicateBuilder := { b with equals := Option.some (pattern, cs) }

/-- `add_regex` (pushes). -/
def add_regex (b : StringPredicateBuilder) (pattern : Str) :
    StringPredicateBuilder := { b with regexes := b.regexes ++ [pattern] }

/-- The case-sensitive `contains` needles, in insertion order. -/
def csNeedles (b : StringPredicateBuilder) : List Str :=
  (b.contains.filter (fun pc => pc.2)).map (fun pc => pc.1)

/-- The case-insensitive `contains` needles converted to inline-`(?i)`
escaped regexes, in insertion order. -/
def ciRegexes (b : StringPredicateBuilder) : List Str :=
  (b.contains.filter (fun pc => !pc.2)).map (fun pc => ciContainsPattern pc.1)

/-- All regex patterns the builder will compile: explicit `matches`
patterns first, then the converted case-insensitive `contains`. -/
def allRegexes (b : StringPredicateBuilder) : List Str :=
  b.regexes ++ b.ciRegexes

/-- The `Simple` predicate assembled from the builder's simple buckets
(the chained `with_starts_with` / `with_ends_with` / `with_contains` /
`with_equals` calls of the source). -/
def simplePart (b : StringPredicateBuilder) : StringPredicate :=
  StringPredicate.Simple
    (b.starts_with.map (fun pc => ⟨pc.1, pc.2⟩))
    (b.ends_with.map (fun pc => ⟨pc.1, pc.2⟩))
    b.csNeedles
    (b.equals.map (fun pc => ⟨pc.1, pc.2⟩))

/-- `StringPredicateBuilder::build`: split `contains` by case
sensitivity, convert the case-insensitive ones to `(?i)` regexes, then
choose the tightest representation; `RegexSet::new` failure (some
pattern does not compile) collapses to `Never`. -/
def build (E : RegexEngine) (b : StringPredicateBuilder) : StringPredicate :=
  let has_simple := b.starts_with.isSome || b.ends_with.isSome ||
    !b.csNeedles.isEmpty || b.equals.isSome
  let has_regexes := !b.allRegexes.isEmpty
  match has_simple, has_regexes with
  | false, false => StringPredicate.empty_simple
  | true, false => b.simplePart
  | false, true =>
    if b.allRegexes.all E.compiles then StringPredicate.Regexes b.allRegexes true
    else StringPredicate.Never
  | true, true =>
    if b.allRegexes.all E.compiles then
      StringPredicate.Combined b.simplePart b.allRegexes true
    else StringPredicate.Never

end StringPredicateBuilder

/-- `predicate_optimizer.rs` `FieldPredicateBuilder` (selector omitted,
see `FieldPredicate`). -/
structure FieldPredicateBuilder where
  string_pred : StringPredicateBuilder
  object_pred : Option ObjectPredicate
  except_pattern : Option Str

namespace FieldPredicateBuilder

/-- `FieldPredicateBuilder::default`. -/
def empty : FieldPredicateBuilder := ⟨StringPredicateBuilder.empty, Option.none, Option.none⟩

/-- `FieldPredicateBuilder::build`: an installed object predicate takes
the place of the string predicate; a non-compiling `except` pattern
collapses the whole field predicate to `Never`. -/
def build (E : RegexEngine) (b : FieldPredicateBuilder) : FieldPredicate :=
  let value_pred :=
    match b.object_pred with
    | Option.some obj => ValuePredicate.Object obj
    | Option.none => ValuePredicate.String (b.string_pred.build E)
  match b.except_pattern with
  | Option.some pattern =>
    if E.compiles pattern then ⟨value_pred, Option.some pattern⟩
    else ⟨ValuePredicate.String StringPredicate.Never, Option.none⟩
  | Option.none => ⟨value_pred, Option.none⟩

/-- `FieldPredicateBuilder::is_empty`. -/
def is_empty (b : FieldPredicateBuilder) : Bool :=
  b.string_pred.starts_with.isNone && b.string_pred.ends_with.isNone &&
  b.string_pred.contains.isEmpty && b.string_pred.equals.isNone &&
  b.string_pred.regexes.isEmpty && b.object_pred.isNone &&
  b.except_pattern.isNone

end FieldPredicateBuilder

/-- `predicate_optimizer.rs` `PredicateOperationType`. -/
inductive PredicateOperationType where
  | Equals
  | DeepEquals
  | Contains
  | StartsWith
  | EndsWith
  | Matches
  deriving DecidableEq, Repr

/-- Dispatch of the per-operation `add_string_to_builder` closures that
`process_predicate_operation` passes to `process_fields`
(`add_equals` / `add_contains` / `add_starts_with` / `add_ends_with` /
`add_regex`; `DeepEquals` never reaches the string path because
`process_predicate_operation` skips it). -/
def addStringOp (opType : PredicateOperationType)
    (b : StringPredicateBuilder) (value : Str) (cs : Bool) :
    StringPredicateBuilder :=
  match opType with
  | PredicateOperationType.Equals => b.add_equals value cs
  | PredicateOperationType.Contains => b.add_contains value cs
  | PredicateOperationType.StartsWith => b.add_starts_with value cs
  | PredicateOperationType.EndsWith => b.add_ends_with value cs
  | PredicateOperationType.Matches => b.add_regex value
  | PredicateOperationType.DeepEquals => b

/-- The regex map collected by `add_object_to_builder` for an
object-valued `matches`: string-valued entries whose patterns compile;
non-compiling patterns are skipped with a warning. -/
def objectMatchesRegexes (E : RegexEngine) (obj : List (Str × Json)) :
    List (Str × Str) :=
  obj.filterMap (fun kv =>
    match kv.2 with
    | Json.str pattern =>
      if E.compiles pattern then Option.some (kv.1, pattern) else Option.none
    | _ => Option.none)

/-- `predicate_optimizer.rs` `add_object_to_builder`. -/
def add_object_to_builder (E : RegexEngine) (b : FieldPredicateBuilder)
    (value : Json) (opType : PredicateOperationType) : FieldPredicateBuilder :=
  match opType with
  | PredicateOperationType.Equals =>
    { b with object_pred := Option.some (ObjectPredicate.Equals value) }
  | PredicateOperationType.DeepEquals =>
    { b with object_pred := Option.some (ObjectPredicate.DeepEquals value) }
  | PredicateOperationType.Contains =>
    { b with object_pred := Option.some (ObjectPredicate.Contains value) }
  | PredicateOperationType.Matches =>
    match value with
    | Json.obj obj =>
      { b with object_pred := Option.some (ObjectPredicate.Matches (objectMatchesRegexes E obj)) }
    | _ => b
  | _ => b

/-- The per-field update that `process_fields` performs on one builder:
install the inherited `except` pattern (when the predicate carries one),
then route the value to the object path or the string path. -/
def processField (E : RegexEngine) (cs : Bool) (excPat : Option Str)
    (opType : PredicateOperationType) (value : Json)
    (b : FieldPredicateBuilder) : FieldPredicateBuilder :=
  let b1 :=
    match excPat with
    | Option.some e => { b with except_pattern := Option.some e }
    | Option.none => b
  if value.isObjectValue then add_object_to_builder E b1 value opType
  else { b1 with string_pred := addStringOp opType b1.string_pred value.asStrOrEmpty cs }

/-- `HashMap::entry(name).or_default()` followed by a builder update, on
an association list. -/
def updateEntry (name : Str) (f : FieldPredicateBuilder → FieldPredicateBuilder) :
    List (Str × FieldPredicateBuilder) → List (Str × FieldPredicateBuilder)
  | [] => [(name, f FieldPredicateBuilder.empty)]
  | (k, b) :: rest =>
    if k = name then (k, f b) :: rest else (k, b) :: updateEntry name f rest

/-- `predicate_optimizer.rs` `FieldBuilders` (selector grouping collapsed,
see above). -/
structure FieldBuilders where
  method : FieldPredicateBuilder
  path : FieldPredicateBuilder
  body : FieldPredicateBuilder
  query : List (Str × FieldPredicateBuilder)
  headers : List (Str × FieldPredicateBuilder)
  request_from : FieldPredicateBuilder
  ip : FieldPredicateBuilder
  form : List (Str × FieldPredicateBuilder)

/-- `FieldBuilders::default`. -/
def FieldBuilders.empty : FieldBuilders :=
  ⟨FieldPredicateBuilder.empty, FieldPredicateBuilder.empty, FieldPredicateBuilder.empty,
   [], [], FieldPredicateBuilder.empty, FieldPredicateBuilder.empty, []⟩

/-- The recognized field name `"method"` as bytes. -/
def fieldMethod : Str := [109, 101, 116, 104, 111, 100]
/-- The recognized field name `"path"` as bytes. -/
def fieldPath : Str := [112, 97, 116, 104]
/-- The recognized field name `"body"` as bytes. -/
def fieldBody : Str := [98, 111, 100, 121]
/-- The recognized field name `"requestFrom"` as bytes. -/
def fieldRequestFrom : Str := [114, 101, 113, 117, 101, 115, 116, 70, 114, 111, 109]
/-- The recognized field name `"ip"` as bytes. -/
def fieldIp : Str := [105, 112]
/-- The recognized field name `"query"` as bytes. -/
def fieldQuery : Str := [113, 117, 101, 114, 121]
/-- The recognized field name `"headers"` as bytes. -/
def fieldHeaders : Str := [104, 101, 97, 100, 101, 114, 115]
/-- The recognized field name `"form"` as bytes. -/
def fieldForm : Str := [102, 111, 114, 109]

/-- The map-field arms of `process_fields`: iterate the object's
entries, updating the per-name builder for each (header names are
lowercased; the embedding lowercases ASCII letters, the fragment of
`str::to_lowercase` relevant to HTTP header names). -/
def processMapEntries (E : RegexEngine) (cs : Bool) (excPat : Option Str)
    (opType : PredicateOperationType) (lowerName : Bool)
    (entries : List (Str × Json)) (m : List (Str × FieldPredicateBuilder)) :
    List (Str × FieldPredicateBuilder) :=
  entries.foldl
    (fun m kv =>
      updateEntry (if lowerName then strLowerAscii kv.1 else kv.1)
        (processField E cs excPat opType kv.2) m)
    m

/-- One iteration of the `process_fields` loop: route a single
`(field_name, value)` pair to its per-field builder; `query`, `headers`
and `form` expect object values (silently skipped otherwise); unknown
field names are silently ignored. -/
def processFieldsStep (E : RegexEngine) (cs : Bool) (excPat : Option Str)
    (opType : PredicateOperationType) (B : FieldBuilders) (fv : Str × Json) :
    FieldBuilders :=
  if fv.1 = fieldMethod then
    { B with method := processField E cs excPat opType fv.2 B.method }
  else if fv.1 = fieldPath then
    { B with path := processField E cs excPat opType fv.2 B.path }
  else if fv.1 = fieldBody then
    { B with body := processField E cs excPat opType fv.2 B.body }
  else if fv.1 = fieldRequestFrom then
    { B with request_from := processField E cs excPat opType fv.2 B.request_from }
  else if fv.1 = fieldIp then
    { B with ip := processField E cs excPat opType fv.2 B.ip }
  else if fv.1 = fieldQuery then
    match fv.2.asObject with
    | Option.some obj =>
      { B with query := processMapEntries E cs excPat opType false obj B.query }
    | Option.none => B
  else if fv.1 = fieldHeaders then
    match fv.2.asObject with
    | Option.some obj =>
      { B with headers := processMapEntries E cs excPat opType true obj B.headers }
    | Option.none => B
  else if fv.1 = fieldForm then
    match fv.2.asObject with
    | Option.some obj =>
      { B with form := processMapEntries E cs excPat opType false obj B.form }
    | Option.none => B
  else B

/-- `predicate_optimizer.rs` `process_fields`. -/
def process_fields (E : RegexEngine) (fields : List (Str × Json)) (cs : Bool)
    (excPat : Option Str) (opType : PredicateOperationType)
    (B : FieldBuilders) : FieldBuilders :=
  fields.foldl (processFieldsStep E cs excPat opType) B

/-- Resolve a child predicate's `except` against the inherited one
(`if child.parameters.except.is_empty() { parent } else { child }`). -/
def resolveExcept (childExc : Str) (parentExc : Option Str) : Option Str :=
  if childExc.isEmpty then parentExc else Option.some childExc

mutual

/-- `predicate_optimizer.rs` `process_predicate_operation`: leaf
operators route to `process_fields` with their bucket; `And` descends
with parameter inheritance; `Or`, `Not`, `DeepEquals` and `Exists` are
skipped (not optimized). -/
def process_predicate_operation (E : RegexEngine) (cs : Bool)
    (excPat : Option Str) : PredOp → FieldBuilders → FieldBuilders
  | PredOp.equalsOp fields, B =>
    process_fields E fields cs excPat PredicateOperationType.Equals B
  | PredOp.containsOp fields, B =>
    process_fields E fields cs excPat PredicateOperationType.Contains B
  | PredOp.startsWithOp fields, B =>
    process_fields E fields cs excPat PredicateOperationType.StartsWith B
  | PredOp.endsWithOp fields, B =>
    process_fields E fields cs excPat PredicateOperationType.EndsWith B
  | PredOp.matchesOp fields, B =>
    process_fields E fields cs excPat PredicateOperationType.Matches B
  | PredOp.andOp children, B => processChildren E cs excPat children B
  | PredOp.orOp _, B => B
  | PredOp.notOp _, B => B
  | PredOp.deepEqualsOp _, B => B
  | PredOp.existsOp _, B => B

/-- The `And` arm's loop over children, inheriting `case_sensitive` and
`except` unless the child overrides them. -/
def processChildren (E : RegexEngine) (cs : Bool) (excPat : Option Str) :
    List Predicate → FieldBuilders → FieldBuilders
  | [], B => B
  | p :: rest, B => processChildren E cs excPat rest (processChild E cs excPat p B)

/-- One child of an `And` node, resolving its `case_sensitive` and
`except` parameters against the inherited ones. -/
def processChild (E : RegexEngine) (cs : Bool) (excPat : Option Str) :
    Predicate → FieldBuilders → FieldBuilders
  | Predicate.mk ccs cexc cop, B =>
    process_predicate_operation E (ccs.getD cs) (resolveExcept cexc excPat) cop B

end

/-- Build one map field of `OptimizedPredicates` from its per-name
builders: build each non-empty builder, drop names whose predicate list
ends up empty. -/
def buildMapField (E : RegexEngine) (m : List (Str × FieldPredicateBuilder)) :
    List (Str × List FieldPredicate) :=
  (m.map (fun kv => (kv.1, if kv.2.is_empty then [] else [kv.2.build E]))).filter
    (fun kv => !kv.2.isEmpty)

/-- Build one scalar field of `OptimizedPredicates` from its (single,
selector-collapsed) builder. -/
def buildScalarField (E : RegexEngine) (b : FieldPredicateBuilder) :
    List FieldPredicate :=
  if b.is_empty then [] else [b.build E]

/-- `predicate_optimizer.rs` `optimize_predicates`: process every
predicate (resolving `case_sensitive` with default `false` and an empty
`except` to unset), then build the per-field representation. -/
def optimize_predicates (E : RegexEngine) (predicates : List Predicate) :
    OptimizedPredicates :=
  let B := predicates.foldl
    (fun B p =>
      process_predicate_operation E (p.caseSensitive.getD false)
        (if p.exceptStr.isEmpty then Option.none else Option.some p.exceptStr)
        p.op B)
    FieldBuilders.empty
  { method := buildScalarField E B.method
    path := buildScalarField E B.path
    body := buildScalarField E B.body
    query := buildMapField E B.query
    headers := buildMapField E B.headers
    request_from := buildScalarField E B.request_from
    ip := buildScalarField E B.ip
    form := buildMapField E B.form }

/-! ## Naive per-predicate evaluation (reference semantics)

Modelled from the spec: the naive evaluation of a list of user
predicates evaluates each predicate individually against the request and
requires all of them to match (spec section 8, "the naive per-predicate
loop").  Each operator carries its reference semantics (spec sections
3, 4.1 and the glossary): `equals` is byte equality with optional ASCII
case folding, `contains` substring containment (up to ASCII case when
requested), `startsWith` / `endsWith` byte prefix/suffix with optional
ASCII folding, `matches` delegates to the regex engine (the
case-sensitivity flag does not affect regexes).  A predicate naming
several fields requires all of them; `query` / `headers` / `form`
predicates name entries of the respective request maps and an absent
named entry fails (spec section 4.2); header names are lowercased;
`method` / `path` match the request's values and `body` / `requestFrom`
/ `ip` default to the empty string when absent, as in the optimized
evaluator; unknown field names are silently ignored (spec section 4.3);
`and` requires all children (inheriting case sensitivity), `or` any,
`not` negates.  Outside the equivalence fragment of claim C2 the
following conventions are fixed: object-valued leaves (JSON
object/array values) fail conservatively, non-object values on `query` /
`headers` / `form` install no constraint, `deepEquals` on the string
fragment is equality, `exists` installs no constraint, and the `except`
parameter (excluded by the fragment) is not applied. -/

/-- The five leaf operators the optimizer handles. -/
inductive LeafOp where
  | eqL
  | containsL
  | swL
  | ewL
  | matchesL
  deriving DecidableEq, Repr

/-- Reference semantics of one leaf operator applied to one request
value. -/
def leafOpSat (E : RegexEngine) (op : LeafOp) (pat : Str) (cs : Bool)
    (v : Str) : Bool :=
  match op with
  | LeafOp.eqL => if cs then v == pat else eqIgnoreAsciiCase v pat
  | LeafOp.containsL =>
    if cs then strContains pat v else containsIgnoreAsciiCase pat v
  | LeafOp.swL =>
    if cs then strStartsWith pat v
    else decide (pat.length ≤ v.length) &&
      eqIgnoreAsciiCase (v.take pat.length) pat
  | LeafOp.ewL =>
    if cs then strEndsWith pat v
    else decide (pat.length ≤ v.length) &&
      eqIgnoreAsciiCase (v.drop (v.length - pat.length)) pat
  | LeafOp.matchesL => E.rmatch pat v

/-- A request slot a leaf constraint attaches to: one of the five scalar
fields, or a named query parameter / header (lowercased) / form field. -/
inductive Slot where
  | methodS
  | pathS
  | bodyS
  | requestFromS
  | ipS
  | queryS (name : Str)
  | headersS (name : Str)
  | formS (name : Str)
  deriving DecidableEq, Repr

/-- The request value a slot evaluates against (`none` = the named map
entry is absent). -/
def slotValue (req : RequestContext) : Slot → Option Str
  | Slot.methodS => Option.some req.method
  | Slot.pathS => Option.some req.path
  | Slot.bodyS => Option.some (req.body.getD [])
  | Slot.requestFromS => Option.some (req.request_from.getD [])
  | Slot.ipS => Option.some (req.client_ip.getD [])
  | Slot.queryS name => lookupStr name req.query
  | Slot.headersS name => lookupStr name req.headers
  | Slot.formS name => req.form.bind (lookupStr name)

/-- One flattened leaf constraint: an operator, a slot, a pattern and a
resolved case-sensitivity flag. -/
structure Leaf where
  op : LeafOp
  slot : Slot
  pattern : Str
  cs : Bool
  deriving DecidableEq, Repr

/-- Satisfaction of one leaf on a request (an absent named entry fails). -/
def leafSat (E : RegexEngine) (req : RequestContext) (l : Leaf) : Bool :=
  match slotValue req l.slot with
  | Option.some v => leafOpSat E l.op l.pattern l.cs v
  | Option.none => false

/-- Naive satisfaction of one leaf operator on one scalar request field. -/
def naiveScalarFieldSat (E : RegexEngine) (req : RequestContext)
    (op : LeafOp) (cs : Bool) (s : Slot) (value : Json) : Bool :=
  if value.isObjectValue then false
  else
    match slotValue req s with
    | Option.some v => leafOpSat E op value.asStrOrEmpty cs v
    | Option.none => false

/-- Naive satisfaction of one leaf operator on one map-valued request
field (`query` / `headers` / `form`): every named entry must be present
and satisfy the operator. -/
def naiveMapFieldSat (E : RegexEngine) (req : RequestContext) (op : LeafOp)
    (cs : Bool) (mk : Str → Slot) (lowerName : Bool) (value : Json) : Bool :=
  match value.asObject with
  | Option.some obj =>
    obj.all (fun kv =>
      if kv.2.isObjectValue then false
      else
        match slotValue req (mk (if lowerName then strLowerAscii kv.1 else kv.1)) with
        | Option.some v => leafOpSat E op kv.2.asStrOrEmpty cs v
        | Option.none => false)
  | Option.none => true

/-- Naive satisfaction of one leaf operator on one `(field_name, value)`
pair of a predicate (unknown field names are ignored). -/
def naiveFieldSat (E : RegexEngine) (req : RequestContext) (op : LeafOp)
    (cs : Bool) (fv : Str × Json) : Bool :=
  if fv.1 = fieldMethod then naiveScalarFieldSat E req op cs Slot.methodS fv.2
  else if fv.1 = fieldPath then naiveScalarFieldSat E req op cs Slot.pathS fv.2
  else if fv.1 = fieldBody then naiveScalarFieldSat E req op cs Slot.bodyS fv.2
  else if fv.1 = fieldRequestFrom then
    naiveScalarFieldSat E req op cs Slot.requestFromS fv.2
  else if fv.1 = fieldIp then naiveScalarFieldSat E req op cs Slot.ipS fv.2
  else if fv.1 = fieldQuery then
    naiveMapFieldSat E req op cs Slot.queryS false fv.2
  else if fv.1 = fieldHeaders then
    naiveMapFieldSat E req op cs Slot.headersS true fv.2
  else if fv.1 = fieldForm then
    naiveMapFieldSat E req op cs Slot.formS false fv.2
  else true

mutual

/-- Naive evaluation of one predicate operation against a request. -/
def naiveOpMatches (E : RegexEngine) (req : RequestContext) (cs : Bool) :
    PredOp → Bool
  | PredOp.equalsOp fields => fields.all (naiveFieldSat E req LeafOp.eqL cs)
  | PredOp.containsOp fields => fields.all (naiveFieldSat E req LeafOp.containsL cs)
  | PredOp.startsWithOp fields => fields.all (naiveFieldSat E req LeafOp.swL cs)
  | PredOp.endsWithOp fields => fields.all (naiveFieldSat E req LeafOp.ewL cs)
  | PredOp.matchesOp fields => fields.all (naiveFieldSat E req LeafOp.matchesL cs)
  | PredOp.deepEqualsOp fields => fields.all (naiveFieldSat E req LeafOp.eqL cs)
  | PredOp.existsOp _ => true
  | PredOp.andOp children => naiveChildrenAll E req cs children
  | PredOp.orOp children => naiveChildrenAny E req cs children
  | PredOp.notOp inner => !(naivePredMatches E req cs inner)

/-- All children match (the `and` arm), each child resolving its own
case-sensitivity against the inherited one. -/
def naiveChildrenAll (E : RegexEngine) (req : RequestContext) (cs : Bool) :
    List Predicate → Bool
  | [] => true
  | p :: rest => naivePredMatches E req cs p && naiveChildrenAll E req cs rest

/-- Any child matches (the `or` arm). -/
def naiveChildrenAny (E : RegexEngine) (req : RequestContext) (cs : Bool) :
    List Predicate → Bool
  | [] => false
  | p :: rest => naivePredMatches E req cs p || naiveChildrenAny E req cs rest

/-- Naive evaluation of one predicate, resolving its case-sensitivity
parameter against the inherited default. -/
def naivePredMatches (E : RegexEngine) (req : RequestContext)
    (parentCs : Bool) : Predicate → Bool
  | Predicate.mk ccs _ op => naiveOpMatches E req (ccs.getD parentCs) op

end

/-- The naive per-predicate loop over a predicate list: every predicate
must match, each resolving `case_sensitive` with default `false` (the
same default the optimizer applies). -/
def naiveMatches (E : RegexEngine) (ps : List Predicate)
    (req : RequestContext) : Bool :=
  ps.all (fun p => naiveOpMatches E req (p.caseSensitive.getD false) p.op)

/-! ## Leaf flattening and the well-formed fragment of claim C2 -/

/-- The leaves contributed by one `(field_name, value)` pair: a string
leaf on the corresponding scalar slot, or one leaf per non-object entry
of a map-valued field; object values and unknown names contribute no
leaf. -/
def fieldLeaves (op : LeafOp) (cs : Bool) (fv : Str × Json) : List Leaf :=
  let scalarLeaf := fun (s : Slot) =>
    if fv.2.isObjectValue then ([] : List Leaf)
    else [⟨op, s, fv.2.asStrOrEmpty, cs⟩]
  let mapLeaves := fun (mk : Str → Slot) (lowerName : Bool) =>
    match fv.2.asObject with
    | Option.some obj =>
      obj.filterMap (fun kv =>
        if kv.2.isObjectValue then Option.none
        else Option.some
          ⟨op, mk (if lowerName then strLowerAscii kv.1 else kv.1),
            kv.2.asStrOrEmpty, cs⟩)
    | Option.none => []
  if fv.1 = fieldMethod then scalarLeaf Slot.methodS
  else if fv.1 = fieldPath then scalarLeaf Slot.pathS
  else if fv.1 = fieldBody then scalarLeaf Slot.bodyS
  else if fv.1 = fieldRequestFrom then scalarLeaf Slot.requestFromS
  else if fv.1 = fieldIp then scalarLeaf Slot.ipS
  else if fv.1 = fieldQuery then mapLeaves Slot.queryS false
  else if fv.1 = fieldHeaders then mapLeaves Slot.headersS true
  else if fv.1 = fieldForm then mapLeaves Slot.formS false
  else []

mutual

/-- The flattened leaves of one predicate operation (with resolved case
sensitivity); `or` / `not` / `deepEquals` / `exists` contribute none,
matching the optimizer's skip. -/
def leavesOfOp (cs : Bool) : PredOp → List Leaf
  | PredOp.equalsOp fields => fields.flatMap (fieldLeaves LeafOp.eqL cs)
  | PredOp.containsOp fields => fields.flatMap (fieldLeaves LeafOp.containsL cs)
  | PredOp.startsWithOp fields => fields.flatMap (fieldLeaves LeafOp.swL cs)
  | PredOp.endsWithOp fields => fields.flatMap (fieldLeaves LeafOp.ewL cs)
  | PredOp.matchesOp fields => fields.flatMap (fieldLeaves LeafOp.matchesL cs)
  | PredOp.andOp children => leavesOfChildren cs children
  | PredOp.orOp _ => []
  | PredOp.notOp _ => []
  | PredOp.deepEqualsOp _ => []
  | PredOp.existsOp _ => []

/-- The flattened leaves of an `and` node's children, in order. -/
def leavesOfChildren (cs : Bool) : List Predicate → List Leaf
  | [] => []
  | p :: rest => leavesOfPred cs p ++ leavesOfChildren cs rest

/-- The flattened leaves of one child predicate, with its resolved case
sensitivity. -/
def leavesOfPred (cs : Bool) : Predicate → List Leaf
  | Predicate.mk ccs _ cop => leavesOfOp (ccs.getD cs) cop

end

/-- The flattened leaves of a whole predicate list. -/
def leavesOfList (ps : List Predicate) : List Leaf :=
  ps.flatMap (fun p => leavesOfOp (p.caseSensitive.getD false) p.op)

/-- A recognized scalar field name. -/
def isScalarField (name : Str) : Bool :=
  name = fieldMethod || name = fieldPath || name = fieldBody ||
  name = fieldRequestFrom || name = fieldIp

/-- A recognized map-valued field name. -/
def isMapField (name : Str) : Bool :=
  name = fieldQuery || name = fieldHeaders || name = fieldForm

/-- One `(field_name, value)` pair is inside the equivalence fragment:
no object value on a scalar field, no object-valued entries inside a
map-valued field. -/
def fieldClean (fv : Str × Json) : Bool :=
  if isScalarField fv.1 then !fv.2.isObjectValue
  else if isMapField fv.1 then
    match fv.2.asObject with
    | Option.some obj => obj.all (fun kv => !kv.2.isObjectValue)
    | Option.none => true
  else true

mutual

/-- A predicate operation lies in the equivalence fragment: only the
five handled leaf operators and `and`-composition, with clean fields. -/
def opClean : PredOp → Bool
  | PredOp.equalsOp fields => fields.all fieldClean
  | PredOp.containsOp fields => fields.all fieldClean
  | PredOp.startsWithOp fields => fields.all fieldClean
  | PredOp.endsWithOp fields => fields.all fieldClean
  | PredOp.matchesOp fields => fields.all fieldClean
  | PredOp.andOp children => childrenClean children
  | PredOp.orOp _ => false
  | PredOp.notOp _ => false
  | PredOp.deepEqualsOp _ => false
  | PredOp.existsOp _ => false

/-- Every child is in the fragment and carries no `except` parameter. -/
def childrenClean : List Predicate → Bool
  | [] => true
  | p :: rest => predClean p && childrenClean rest

/-- One child predicate is in the fragment and carries no `except`. -/
def predClean : Predicate → Bool
  | Predicate.mk _ cexc cop => cexc.isEmpty && opClean cop

end

/-- A predicate list lies in the equivalence fragment: no `except`
parameters and clean operations throughout. -/
def predsClean (ps : List Predicate) : Bool :=
  ps.all (fun p => p.exceptStr.isEmpty && opClean p.op)

/-- How many leaves of the list target a given slot with a given
operator. -/
def slotOpCount (ls : List Leaf) (s : Slot) (op : LeafOp) : Nat :=
  (ls.filter (fun l => l.slot = s ∧ l.op = op)).length

/-- The replacement-bucket condition of the amended claim C2: no slot
receives more than one `equals`, more than one `startsWith`, or more
than one `endsWith` leaf (the builder keeps only the last of each). -/
def atMostOneReplacing (ls : List Leaf) : Bool :=
  ls.all (fun l =>
    if l.op = LeafOp.eqL ∨ l.op = LeafOp.swL ∨ l.op = LeafOp.ewL then
      decide (slotOpCount ls l.slot l.op ≤ 1)
    else true)

/-! ## The leaf-insertion view of the optimizer -/

/-- The leaf operator a string-path operation type corresponds to
(`DeepEquals` has no string path: the optimizer skips it). -/
def leafOfOpType : PredicateOperationType → Option LeafOp
  | PredicateOperationType.Equals => Option.some LeafOp.eqL
  | PredicateOperationType.Contains => Option.some LeafOp.containsL
  | PredicateOperationType.StartsWith => Option.some LeafOp.swL
  | PredicateOperationType.EndsWith => Option.some LeafOp.ewL
  | PredicateOperationType.Matches => Option.some LeafOp.matchesL
  | PredicateOperationType.DeepEquals => Option.none

/-- The builder update of one leaf (the `add_*` call its operator maps
to). -/
def insertLeafSPB (op : LeafOp) (pat : Str) (cs : Bool)
    (b : StringPredicateBuilder) : StringPredicateBuilder :=
  match op with
  | LeafOp.eqL => b.add_equals pat cs
  | LeafOp.containsL => b.add_contains pat cs
  | LeafOp.swL => b.add_starts_with pat cs
  | LeafOp.ewL => b.add_ends_with pat cs
  | LeafOp.matchesL => b.add_regex pat

/-- The field-builder update of one leaf (string path, no `except`). -/
def insertLeafFPB (l : Leaf) (fb : FieldPredicateBuilder) :
    FieldPredicateBuilder :=
  { fb with string_pred := insertLeafSPB l.op l.pattern l.cs fb.string_pred }

/-- Insert one leaf into the per-field builders (the effect of one clean
`process_fields` step on the slot the leaf targets). -/
def insertLeaf (B : FieldBuilders) (l : Leaf) : FieldBuilders :=
  match l.slot with
  | Slot.methodS => { B with method := insertLeafFPB l B.method }
  | Slot.pathS => { B with path := insertLeafFPB l B.path }
  | Slot.bodyS => { B with body := insertLeafFPB l B.body }
  | Slot.requestFromS => { B with request_from := insertLeafFPB l B.request_from }
  | Slot.ipS => { B with ip := insertLeafFPB l B.ip }
  | Slot.queryS name => { B with query := updateEntry name (insertLeafFPB l) B.query }
  | Slot.headersS name => { B with headers := updateEntry name (insertLeafFPB l) B.headers }
  | Slot.formS name => { B with form := updateEntry name (insertLeafFPB l) B.form }

/-- Association lookup among per-name field builders. -/
def lookupFPB (name : Str) : List (Str × FieldPredicateBuilder) →
    Option FieldPredicateBuilder
  | [] => Option.none
  | (k, b) :: rest => if k = name then Option.some b else lookupFPB name rest

/-- The builder a slot designates inside `FieldBuilders` (per-name slots
default to the empty builder when absent). -/
def builderAtSlot (B : FieldBuilders) : Slot → FieldPredicateBuilder
  | Slot.methodS => B.method
  | Slot.pathS => B.path
  | Slot.bodyS => B.body
  | Slot.requestFromS => B.request_from
  | Slot.ipS => B.ip
  | Slot.queryS name => (lookupFPB name B.query).getD FieldPredicateBuilder.empty
  | Slot.headersS name => (lookupFPB name B.headers).getD FieldPredicateBuilder.empty
  | Slot.formS name => (lookupFPB name B.form).getD FieldPredicateBuilder.empty

/-- Conjunction-form semantics of a string-predicate builder: every
recorded bucket entry, under the reference leaf semantics. -/
def builderSem (E : RegexEngine) (spb : StringPredicateBuilder) (v : Str) : Bool :=
  (match spb.equals with
   | Option.some pc => leafOpSat E LeafOp.eqL pc.1 pc.2 v
   | Option.none => true) &&
  (match spb.starts_with with
   | Option.some pc => leafOpSat E LeafOp.swL pc.1 pc.2 v
   | Option.none => true) &&
  (match spb.ends_with with
   | Option.some pc => leafOpSat E LeafOp.ewL pc.1 pc.2 v
   | Option.none => true) &&
  spb.contains.all (fun pc => leafOpSat E LeafOp.containsL pc.1 pc.2 v) &&
  spb.regexes.all (fun p => leafOpSat E LeafOp.matchesL p true v)

/-- The query-parameter name of a slot (`none` for other slots). -/
def Slot.queryName : Slot → Option Str
  | Slot.queryS n => Option.some n
  | _ => Option.none

/-- The header name of a slot (`none` for other slots). -/
def Slot.headersName : Slot → Option Str
  | Slot.headersS n => Option.some n
  | _ => Option.none

/-- The form-field name of a slot (`none` for other slots). -/
def Slot.formName : Slot → Option Str
  | Slot.formS n => Option.some n
  | _ => Option.none

/-! ## Supporting lemmas for the recording store -/

namespace RecordingStore

theorem entryOrInsert_of_fresh (s : RequestSignature) (r : RecordedResponse)
    (m : List (RequestSignature × List RecordedResponse))
    (h : lookupSig s m = Option.none) :
    entryOrInsert s r m = m ++ [(s, [r])] := by
  induction m with
  | nil => simp [entryOrInsert]
  | cons kv rest ih =>
    obtain ⟨k, rs⟩ := kv
    by_cases hk : k = s
    · simp [lookupSig, hk] at h
    · simp only [lookupSig, hk, if_false] at h
      simp [entryOrInsert, hk, ih h]

theorem entryOrInsert_of_present (s : RequestSignature) (r : RecordedResponse)
    (m : List (RequestSignature × List RecordedResponse))
    (h : lookupSig s m ≠ Option.none) :
    entryOrInsert s r m = m := by
  induction m with
  | nil => simp [lookupSig] at h
  | cons kv rest ih =>
    obtain ⟨k, rs⟩ := kv
    by_cases hk : k = s
    · simp [entryOrInsert, hk]
    · simp only [lookupSig, hk, if_false] at h
      simp [entryOrInsert, hk, ih h]

theorem lookupSig_append_self (s : RequestSignature)
    (rs : List RecordedResponse)
    (m : List (RequestSignature × List RecordedResponse))
    (h : lookupSig s m = Option.none) :
    lookupSig s (m ++ [(s, rs)]) = Option.some rs := by
  induction m with
  | nil => simp [lookupSig]
  | cons kv rest ih =>
    obtain ⟨k, rs'⟩ := kv
    by_cases hk : k = s
    · simp [lookupSig, hk] at h
    · simp only [lookupSig, hk, if_false] at h
      simp [lookupSig, hk, ih h]

theorem lookupSig_entryOrInsert_ne_none (s : RequestSignature)
    (r : RecordedResponse)
    (m : List (RequestSignature × List RecordedResponse)) :
    lookupSig s (entryOrInsert s r m) ≠ Option.none := by
  induction m with
  | nil => simp [entryOrInsert, lookupSig]
  | cons kv rest ih =>
    obtain ⟨k, rs⟩ := kv
    by_cases hk : k = s
    · simp [entryOrInsert, lookupSig, hk]
    · simp [entryOrInsert, lookupSig, hk, ih]

end RecordingStore

/-! ## Supporting lemmas for the decision cache -/

namespace DecisionCache

theorem lookupKey_putKey_self (k : CacheKey) (e : CacheEntry)
    (l : List (CacheKey × CacheEntry)) :
    lookupKey k (putKey k e l) = Option.some e := by
  induction l with
  | nil => simp [putKey, lookupKey]
  | cons kv rest ih =>
    obtain ⟨k', e'⟩ := kv
    by_cases hk : k' = k
    · simp [putKey, lookupKey, hk]
    · simp [putKey, lookupKey, hk, ih]

theorem lookupKey_putKey_ne (k k' : CacheKey) (e : CacheEntry)
    (l : List (CacheKey × CacheEntry)) (h : k' ≠ k) :
    lookupKey k' (putKey k e l) = lookupKey k' l := by
  induction l with
  | nil => simp [putKey, lookupKey, Ne.symm h]
  | cons kv rest ih =>
    obtain ⟨k1, e1⟩ := kv
    by_cases hk : k1 = k
    · subst hk
      simp [putKey, lookupKey, Ne.symm h]
    · simp [putKey, lookupKey, hk, ih]

theorem putKey_fresh (k : CacheKey) (e : CacheEntry)
    (l : List (CacheKey × CacheEntry)) (h : lookupKey k l = Option.none) :
    putKey k e l = l ++ [(k, e)] := by
  induction l with
  | nil => simp [putKey]
  | cons kv rest ih =>
    obtain ⟨k1, e1⟩ := kv
    by_cases hk : k1 = k
    · simp [lookupKey, hk] at h
    · simp only [lookupKey, hk, if_false] at h
      simp [putKey, hk, ih h]

theorem length_putKey_present (k : CacheKey) (e : CacheEntry)
    (l : List (CacheKey × CacheEntry)) (h : lookupKey k l ≠ Option.none) :
    (putKey k e l).length = l.length := by
  induction l with
  | nil => simp [lookupKey] at h
  | cons kv rest ih =>
    obtain ⟨k1, e1⟩ := kv
    by_cases hk : k1 = k
    · simp [putKey, hk]
    · simp only [lookupKey, hk, if_false] at h
      simp [putKey, hk, ih h]

theorem length_putKey_le (k : CacheKey) (e : CacheEntry)
    (l : List (CacheKey × CacheEntry)) :
    (putKey k e l).length ≤ l.length + 1 := by
  induction l with
  | nil => simp [putKey]
  | cons kv rest ih =>
    obtain ⟨k1, e1⟩ := kv
    by_cases hk : k1 = k
    · simp [putKey, hk]
    · simpa [putKey, hk] using ih

theorem lookupKey_ne_none_of_mem (kv : CacheKey × CacheEntry)
    (l : List (CacheKey × CacheEntry)) (h : kv ∈ l) :
    lookupKey kv.1 l ≠ Option.none := by
  induction l with
  | nil => simp at h
  | cons kv' rest ih =>
    obtain ⟨k1, e1⟩ := kv'
    rcases List.mem_cons.mp h with h1 | h1
    · subst h1
      simp [lookupKey]
    · by_cases hk : k1 = kv.1
      · simp [lookupKey, hk]
      · simp [lookupKey, hk, ih h1]

theorem mem_of_lookupKey_eq_some (k : CacheKey) (e : CacheEntry)
    (l : List (CacheKey × CacheEntry)) (h : lookupKey k l = Option.some e) :
    (k, e) ∈ l := by
  induction l with
  | nil => simp [lookupKey] at h
  | cons kv rest ih =>
    obtain ⟨k1, e1⟩ := kv
    by_cases hk : k1 = k
    · subst hk
      simp only [lookupKey, eq_self_iff_true, if_true, Option.some.injEq] at h
      subst h
      exact List.mem_cons_self _ _
    · simp only [lookupKey, hk, if_false] at h
      exact List.mem_cons_of_mem _ (ih h)

theorem lookupKey_eq_some_of_mem_nodup (k : CacheKey) (e : CacheEntry)
    (l : List (CacheKey × CacheEntry)) (hnodup : (l.map Prod.fst).Nodup)
    (h : (k, e) ∈ l) :
    lookupKey k l = Option.some e := by
  induction l with
  | nil => simp at h
  | cons kv rest ih =>
    obtain ⟨k1, e1⟩ := kv
    simp only [List.map_cons, List.nodup_cons] at hnodup
    rcases List.mem_cons.mp h with h1 | h1
    · rw [Prod.mk.injEq] at h1
      obtain ⟨rfl, rfl⟩ := h1
      simp [lookupKey]
    · have hk1 : k1 ≠ k := by
        intro hk
        exact hnodup.1 (hk ▸ (List.mem_map.mpr ⟨(k, e), h1, rfl⟩))
      simp [lookupKey, hk1, ih hnodup.2 h1]

theorem lookupKey_removeKey_ne (k k' : CacheKey)
    (l : List (CacheKey × CacheEntry)) (h : k' ≠ k) :
    lookupKey k' (removeKey k l) = lookupKey k' l := by
  induction l with
  | nil => simp [removeKey]
  | cons kv rest ih =>
    obtain ⟨k1, e1⟩ := kv
    by_cases hk : k1 = k
    · subst hk
      simp [removeKey, lookupKey, Ne.symm h]
    · simp [removeKey, lookupKey, hk, ih]

theorem lookupKey_removeKey_self_of_nodup (k : CacheKey)
    (l : List (CacheKey × CacheEntry)) (hnodup : (l.map Prod.fst).Nodup) :
    lookupKey k (removeKey k l) = Option.none := by
  induction l with
  | nil => simp [removeKey, lookupKey]
  | cons kv rest ih =>
    obtain ⟨k1, e1⟩ := kv
    simp only [List.map_cons, List.nodup_cons] at hnodup
    by_cases hk : k1 = k
    · subst hk
      cases hl : lookupKey k1 rest with
      | none => simp [removeKey, hl]
      | some e =>
        exact absurd
          (List.mem_map.mpr ⟨(k1, e), mem_of_lookupKey_eq_some k1 e rest hl, rfl⟩)
          hnodup.1
    · simp [removeKey, lookupKey, hk, ih hnodup.2]

theorem lookupKey_removeKey_none (k k' : CacheKey)
    (l : List (CacheKey × CacheEntry)) (h : lookupKey k' l = Option.none) :
    lookupKey k' (removeKey k l) = Option.none := by
  induction l with
  | nil => simp [removeKey, lookupKey]
  | cons kv rest ih =>
    obtain ⟨k1, e1⟩ := kv
    by_cases hk1 : k1 = k'
    · simp [lookupKey, hk1] at h
    · simp only [lookupKey, hk1, if_false] at h
      by_cases hk : k1 = k
      · simp only [removeKey, hk, if_pos rfl]
        exact h
      · simp [removeKey, lookupKey, hk, hk1, ih h]

theorem length_removeKey_present (k : CacheKey)
    (l : List (CacheKey × CacheEntry)) (h : lookupKey k l ≠ Option.none) :
    (removeKey k l).length + 1 = l.length := by
  induction l with
  | nil => simp [lookupKey] at h
  | cons kv rest ih =>
    obtain ⟨k1, e1⟩ := kv
    by_cases hk : k1 = k
    · simp [removeKey, hk]
    · simp only [lookupKey, hk, if_false] at h
      simp [removeKey, hk, ih h]

theorem length_removeKey_le (k : CacheKey)
    (l : List (CacheKey × CacheEntry)) :
    (removeKey k l).length ≤ l.length := by
  induction l with
  | nil => simp [removeKey]
  | cons kv rest ih =>
    obtain ⟨k1, e1⟩ := kv
    by_cases hk : k1 = k
    · simp [removeKey, hk]
    · simpa [removeKey, hk] using ih

theorem minByLastAccessed_mem (l : List (CacheKey × CacheEntry))
    (m : CacheKey × CacheEntry) (h : minByLastAccessed l = Option.some m) :
    m ∈ l := by
  induction l generalizing m with
  | nil => simp [minByLastAccessed] at h
  | cons kv rest ih =>
    cases hr : minByLastAccessed rest with
    | none =>
      simp only [minByLastAccessed, hr, Option.some.injEq] at h
      simp [h.symm]
    | some m' =>
      by_cases hlt : m'.2.last_accessed < kv.2.last_accessed
      · simp only [minByLastAccessed, hr, if_pos hlt, Option.some.injEq] at h
        exact List.mem_cons_of_mem _ (h ▸ ih m' hr)
      · simp only [minByLastAccessed, hr, if_neg hlt, Option.some.injEq] at h
        simp [h.symm]

theorem minByLastAccessed_unique (k₀ : CacheKey) (e₀ : CacheEntry)
    (l : List (CacheKey × CacheEntry)) (hnodup : (l.map Prod.fst).Nodup)
    (hmem : (k₀, e₀) ∈ l)
    (hmin : ∀ kv ∈ l, kv.1 ≠ k₀ → e₀.last_accessed < kv.2.last_accessed) :
    minByLastAccessed l = Option.some (k₀, e₀) := by
  induction l with
  | nil => simp at hmem
  | cons kv rest ih =>
    obtain ⟨k1, e1⟩ := kv
    simp only [List.map_cons, List.nodup_cons] at hnodup
    rcases List.mem_cons.mp hmem with h1 | h1
    · rw [Prod.mk.injEq] at h1
      obtain ⟨rfl, rfl⟩ := h1
      cases hr : minByLastAccessed rest with
      | none => simp [minByLastAccessed, hr]
      | some m =>
        have hmmem := minByLastAccessed_mem rest m hr
        have hne : m.1 ≠ k₀ := by
          intro h
          exact hnodup.1 (h ▸ (List.mem_map.mpr ⟨m, hmmem, rfl⟩))
        have hlt := hmin m (List.mem_cons_of_mem _ hmmem) hne
        simp only [minByLastAccessed, hr]
        rw [if_neg (by omega)]
    · have hne : k1 ≠ k₀ := by
        intro h
        exact hnodup.1 (h ▸ (List.mem_map.mpr ⟨(k₀, e₀), h1, rfl⟩))
      have hrec := ih hnodup.2 h1
        (fun kv hkv h => hmin kv (List.mem_cons_of_mem _ hkv) h)
      have hlt := hmin (k1, e1) (List.mem_cons_self _ _) hne
      simp only [minByLastAccessed, hrec]
      rw [if_pos hlt]

theorem minByLastAccessed_ne_none (kv : CacheKey × CacheEntry)
    (rest : List (CacheKey × CacheEntry)) :
    minByLastAccessed (kv :: rest) ≠ Option.none := by
  cases hr : minByLastAccessed rest with
  | none => simp [minByLastAccessed, hr]
  | some m =>
    by_cases hlt : m.2.last_accessed < kv.2.last_accessed <;>
      simp [minByLastAccessed, hr, hlt]

theorem get_config (c : DecisionCache) (now : Nat) (k : CacheKey) :
    ((c.get now k).2).config = c.config := by
  cases hE : c.config.enabled with
  | false => simp [get, hE]
  | true =>
    cases hl : lookupKey k c.cache with
    | none => simp [get, hE, hl]
    | some e =>
      by_cases hexp : e.is_expired c.config.ttl_seconds now <;>
        simp [get, hE, hl, hexp]

theorem insert_config (c : DecisionCache) (now : Nat) (k : CacheKey)
    (v : ScriptFaultDecision) : (c.insert now k v).config = c.config := by
  cases hE : c.config.enabled with
  | false => simp [insert, hE]
  | true => simp [insert, hE]

theorem get_length_le (c : DecisionCache) (now : Nat) (k : CacheKey) :
    ((c.get now k).2).cache.length ≤ c.cache.length := by
  cases hE : c.config.enabled with
  | false => simp [get, hE]
  | true =>
    cases hl : lookupKey k c.cache with
    | none => simp [get, hE, hl]
    | some e =>
      by_cases hexp : e.is_expired c.config.ttl_seconds now
      · simpa [get, hE, hl, hexp] using length_removeKey_le k c.cache
      · simp [get, hE, hl, hexp,
          length_putKey_present k (e.touch now) c.cache (by simp [hl])]

theorem insert_length_le (c : DecisionCache) (now : Nat) (k : CacheKey)
    (v : ScriptFaultDecision)
    (hmax : 1 ≤ c.config.max_size)
    (hlen : c.cache.length ≤ c.config.max_size) :
    (c.insert now k v).cache.length ≤ c.config.max_size := by
  cases hE : c.config.enabled with
  | false => simpa [insert, hE] using hlen
  | true =>
    by_cases hcond : c.config.max_size ≤ c.cache.length ∧
        (lookupKey k c.cache).isNone
    · obtain ⟨hfull, hfreshb⟩ := hcond
      have hfresh : lookupKey k c.cache = Option.none :=
        Option.isNone_iff_eq_none.mp hfreshb
      have hlen_eq : c.cache.length = c.config.max_size := Nat.le_antisymm hlen hfull
      cases hm : minByLastAccessed c.cache with
      | none =>
        cases hcc : c.cache with
        | nil =>
          rw [hcc] at hlen_eq
          simp at hlen_eq
          omega
        | cons kv0 rest0 =>
          rw [hcc] at hm
          exact absurd hm (minByLastAccessed_ne_none kv0 rest0)
      | some kv =>
        have hmem := minByLastAccessed_mem c.cache kv hm
        have hlka := lookupKey_ne_none_of_mem kv c.cache hmem
        have hrem := length_removeKey_present kv.1 c.cache hlka
        have hfresh' : lookupKey k (removeKey kv.1 c.cache) = Option.none :=
          lookupKey_removeKey_none kv.1 k c.cache hfresh
        have hc1 : (c.insert now k v).cache
            = putKey k (CacheEntry.new v now) (removeKey kv.1 c.cache) := by
          simp [insert, hE, evict_lru, hm, hfull, hfresh]
        rw [hc1, putKey_fresh k (CacheEntry.new v now) _ hfresh']
        simp only [List.length_append, List.length_cons, List.length_nil]
        omega
    · have hcond' : ¬(c.config.max_size ≤ c.cache.length ∧
          lookupKey k c.cache = Option.none) := by
        simpa using hcond
      have hc1 : (c.insert now k v).cache = putKey k (CacheEntry.new v now) c.cache := by
        simp [insert, hE, hcond']
      rw [hc1]
      rcases Decidable.not_and_iff_or_not.mp hcond with hlt | hpres
      · have : c.cache.length < c.config.max_size := by omega
        calc (putKey k (CacheEntry.new v now) c.cache).length
            ≤ c.cache.length + 1 := length_putKey_le _ _ _
          _ ≤ c.config.max_size := by omega
      · have hsome : lookupKey k c.cache ≠ Option.none := by
          intro h
          rw [h] at hpres
          simp at hpres
        rw [length_putKey_present k (CacheEntry.new v now) c.cache hsome]
        exact hlen

theorem execOps_length_le (ops : List CacheOp) (c : DecisionCache)
    (hmax : 1 ≤ c.config.max_size)
    (hlen : c.cache.length ≤ c.config.max_size) :
    (c.execOps ops).cache.length ≤ c.config.max_size := by
  induction ops generalizing c with
  | nil => simpa [execOps] using hlen
  | cons o rest ih =>
    have hcfg : (c.execOp o).config = c.config := by
      cases o with
      | insertOp now key d => exact insert_config c now key d
      | getOp now key => exact get_config c now key
    have hstep : (c.execOp o).cache.length ≤ c.config.max_size := by
      cases o with
      | insertOp now key d => exact insert_length_le c now key d hmax hlen
      | getOp now key => exact Nat.le_trans (get_length_le c now key) hlen
    have hrec := ih (c.execOp o) (by rw [hcfg]; exact hmax) (by rw [hcfg]; exact hstep)
    rw [hcfg] at hrec
    simpa [execOps] using hrec

end DecisionCache

/-! ## Claim theorems: fault decision layer (C1, C10) -/

/-- C1: the claim says that for a rule whose fault carries a probability,
the decision layer draws a uniform sample and skips the rule when the draw
is at least the probability — in particular a fault with probability `0`
is never injected.  The code contradicts this: `decide_fault` never reads
`probability`, so a latency fault with `probability = 0` fires on every
draw.  This theorem evaluates the code at that failing input. -/
theorem C1_probability_never_sampled :
    ∀ draw : Nat,
      decide_fault draw
        (Option.some
          { latency := Option.some { probability := 0, min_ms := 100, max_ms := 100 }
            error := Option.none
            tcp_fault := Option.none })
        = FaultDecision.latency 100 := by
  intro draw
  simp [decide_fault, Nat.mod_one]

/-- C10: `decide_fault` gives latency faults precedence over error faults
(an error fault is returned only when no latency fault is configured), and
returns `None` when neither is configured (whatever `tcp_fault` holds) or
when there is no fault config at all.  The latency conjunct is stated for
`min_ms ≤ max_ms`, the condition under which `gen_range(min..=max)` does
not panic. -/
theorem C10_latency_takes_precedence (draw : Nat) (c : FaultConfig) :
    (∀ l : LatencyFault, c.latency = Option.some l → l.min_ms ≤ l.max_ms →
        decide_fault draw (Option.some c)
          = FaultDecision.latency (l.min_ms + draw % (l.max_ms - l.min_ms + 1))) ∧
    (c.latency = Option.none → ∀ e : ErrorFault, c.error = Option.some e →
        decide_fault draw (Option.some c) = FaultDecision.error e.status e.body) ∧
    (c.latency = Option.none → c.error = Option.none →
        decide_fault draw (Option.some c) = FaultDecision.none) ∧
    decide_fault draw Option.none = FaultDecision.none := by
  refine ⟨?_, ?_, ?_, rfl⟩
  · intro l hl _
    simp [decide_fault, hl]
  · intro hl e he
    simp [decide_fault, hl, he]
  · intro hl he
    simp [decide_fault, hl, he]

/-- Witness for C10 at a concrete config carrying both a latency and an
error fault: the decision is the latency fault. -/
theorem C10_witness :
    decide_fault 3
      (Option.some
        { latency := Option.some { probability := (1 : Rat) / 2, min_ms := 100, max_ms := 109 }
          error := Option.some
            { probability := 1, status := 502, body := Option.none, headers := [] }
          tcp_fault := Option.none })
      = FaultDecision.latency 103 := by
  have h :=
    (C10_latency_takes_precedence 3
      { latency := Option.some { probability := (1 : Rat) / 2, min_ms := 100, max_ms := 109 }
        error := Option.some
          { probability := 1, status := 502, body := Option.none, headers := [] }
        tcp_fault := Option.none }).1
      { probability := (1 : Rat) / 2, min_ms := 100, max_ms := 109 } rfl (by decide)
  simpa using h

/-! ## Claim theorems: recording store (C4) -/

/-- C4: under `ProxyOnce`, recording is an idempotent insert.  If the
signature is fresh, then after `record(s, r1); record(s, r2)` the replay
`get_recorded(s)` yields `r1`; and the second `record` is a no-op on the
store state (an entry already exists after the first record). -/
theorem C4_proxy_once_record_idempotent (store : RecordingStore)
    (s : RequestSignature) (r1 r2 : RecordedResponse)
    (hmode : store.mode = ProxyMode.proxyOnce) :
    (RecordingStore.lookupSig s store.responses = Option.none →
      ((store.record s r1).record s r2).get_recorded s = Option.some r1) ∧
    ((store.record s r1).record s r2 = store.record s r1) := by
  have hrec1 : store.record s r1
      = { store with responses := RecordingStore.entryOrInsert s r1 store.responses } := by
    simp [RecordingStore.record, hmode]
  have hpresent := RecordingStore.lookupSig_entryOrInsert_ne_none s r1 store.responses
  have hrec2 : (store.record s r1).record s r2 = store.record s r1 := by
    rw [hrec1]
    simp [RecordingStore.record, hmode,
      RecordingStore.entryOrInsert_of_present s r2 _ hpresent]
  refine ⟨?_, hrec2⟩
  intro hfresh
  rw [hrec2, hrec1]
  simp [RecordingStore.get_recorded,
    RecordingStore.entryOrInsert_of_fresh s r1 _ hfresh,
    RecordingStore.lookupSig_append_self s [r1] _ hfresh]

/-! ## Claim theorems: optimized predicate matching (C7, C9) -/

theorem requireEntry_eq_true (E : RegexEngine) (o : Option Str)
    (preds : List FieldPredicate) :
    requireEntry E o preds = true ↔
      ∃ v, o = Option.some v ∧ ∀ p ∈ preds, p.matchesB E v = true := by
  cases o <;> simp [requireEntry, List.all_eq_true]

/-- C7: `OptimizedPredicates::matches` returns true iff every per-field
slot that holds predicates is satisfied: each method / path / body /
requestFrom / ip predicate matches its (defaulted-to-empty) value, and
every query parameter, header and form field named in the predicate set
is present in the request with all its predicates matching — so a named
but absent entry fails the match, while a request field with no
installed predicates imposes no constraint (its universally quantified
conjunct is vacuous). -/
theorem C7_matches_iff_every_slot_satisfied (E : RegexEngine)
    (op : OptimizedPredicates) (req : RequestContext) :
    op.matchesB E req = true ↔
      ((∀ p ∈ op.method, p.matchesB E req.method = true) ∧
       (∀ p ∈ op.path, p.matchesB E req.path = true) ∧
       (∀ p ∈ op.body, p.matchesB E (req.body.getD []) = true) ∧
       (∀ p ∈ op.request_from, p.matchesB E (req.request_from.getD []) = true) ∧
       (∀ p ∈ op.ip, p.matchesB E (req.client_ip.getD []) = true) ∧
       (∀ nps ∈ op.query, ∃ v, lookupStr nps.1 req.query = Option.some v ∧
          ∀ p ∈ nps.2, p.matchesB E v = true) ∧
       (∀ nps ∈ op.headers, ∃ v, lookupStr nps.1 req.headers = Option.some v ∧
          ∀ p ∈ nps.2, p.matchesB E v = true) ∧
       (∀ nps ∈ op.form, ∃ v, req.form.bind (lookupStr nps.1) = Option.some v ∧
          ∀ p ∈ nps.2, p.matchesB E v = true)) := by
  simp only [OptimizedPredicates.matchesB, Bool.and_eq_true, List.all_eq_true,
    requireEntry_eq_true, and_assoc]

/-- C9: the claim says `starts_with` / `ends_with` are total and return a
boolean on every UTF-8 input.  The code's case-insensitive branches slice
the value at the pattern's byte length, which panics when that index is
not a character boundary: with pattern `"a"` (case-insensitive) and value
`"é"` (bytes `C3 A9`), `value[..1]` (resp. `value[1..]`) panics.  The
first two conjuncts evaluate the embedded panicking computation to `none`
(= panic) at that failing input; the last two show the same primitives
returning normally on a boundary-respecting input and in the
case-sensitive mode. -/
theorem C9_ci_prefix_suffix_panic_on_non_boundary :
    MaybeSensitiveStr.startsWithChecked ⟨[97], false⟩ [195, 169] = Option.none ∧
    MaybeSensitiveStr.endsWithChecked ⟨[97], false⟩ [195, 169] = Option.none ∧
    MaybeSensitiveStr.startsWithChecked ⟨[97], false⟩ [65, 98, 99] = Option.some true ∧
    MaybeSensitiveStr.endsWithChecked ⟨[97], true⟩ [195, 169] = Option.some false := by
  decide

/-! ## Supporting lemmas for the regex-escape round trip and `refEngine` -/

theorem regexEscape_eq_nil (r : Str) (h : regexEscape r = []) : r = [] := by
  cases r with
  | nil => rfl
  | cons b rest =>
    by_cases hb : b ∈ regexMetaBytes <;> simp [regexEscape, hb] at h

theorem regexUnescape_regexEscape (s : Str) :
    regexUnescape (regexEscape s) = s := by
  induction s with
  | nil => rfl
  | cons b rest ih =>
    by_cases hb : b ∈ regexMetaBytes
    · have h1 : regexEscape (b :: rest) = 92 :: b :: regexEscape rest := by
        simp [regexEscape, hb]
      rw [h1]
      simp [regexUnescape, ih]
    · have hb92 : b ≠ 92 := by
        intro h
        subst h
        exact hb (by decide)
      have h1 : regexEscape (b :: rest) = b :: regexEscape rest := by
        simp [regexEscape, hb]
      rw [h1]
      cases hr : regexEscape rest with
      | nil =>
        rw [regexEscape_eq_nil rest hr]
        rfl
      | cons e1 es =>
        have : regexUnescape (b :: e1 :: es) = b :: regexUnescape (e1 :: es) := by
          simp [regexUnescape, hb92]
        rw [this, ← hr, ih]

theorem refEngine_ciContains_compiles (m : Str) :
    refEngine.compiles (ciContainsPattern m) = true := rfl

theorem refEngine_ciContains_matches (m w : Str) :
    refEngine.rmatch (ciContainsPattern m) w = containsIgnoreAsciiCase m w := by
  have htake : (ciContainsPattern m).take 4 = [40, 63, 105, 41] := by
    simp [ciContainsPattern]
  have hdrop : (ciContainsPattern m).drop 4 = regexEscape m := by
    simp [ciContainsPattern]
  simp only [refEngine, ciContainsPattern] at htake hdrop ⊢
  rw [htake, hdrop, if_pos rfl, regexUnescape_regexEscape]

/-! ## Claim theorems: build-time error policy (C8) and
case-insensitive contains compilation (C3) -/

/-- C8: regex-compilation failure during build collapses the affected
field to `Never` instead of failing the rule: a `matches` pattern that
does not compile makes `StringPredicateBuilder::build` return
`StringPredicate::Never` (build still returns a predicate — the rule as
a whole survives), an `except` pattern that does not compile makes
`FieldPredicateBuilder::build` return a field predicate that is `Never`,
and `Never` matches no input. -/
theorem C8_compile_failure_collapses_to_never (E : RegexEngine) :
    (∀ (b : StringPredicateBuilder) (p : Str), p ∈ b.regexes →
      E.compiles p = false → b.build E = StringPredicate.Never) ∧
    (∀ (fb : FieldPredicateBuilder) (q : Str),
      fb.except_pattern = Option.some q → E.compiles q = false →
      fb.build E = ⟨ValuePredicate.String StringPredicate.Never, Option.none⟩) ∧
    (∀ v : Str, StringPredicate.Never.matchesB E v = false) := by
  refine ⟨?_, ?_, fun v => rfl⟩
  · intro b p hp hpc
    have hmem : p ∈ b.allRegexes := List.mem_append_left _ hp
    have hall : b.allRegexes.all E.compiles = false := by
      rw [Bool.eq_false_iff]
      intro hcontra
      have := List.all_eq_true.mp hcontra p hmem
      rw [hpc] at this
      exact Bool.false_ne_true this
    have hne : b.allRegexes.isEmpty = false := by
      cases hh : b.allRegexes with
      | nil =>
        rw [hh] at hmem
        simp at hmem
      | cons x xs => rfl
    unfold StringPredicateBuilder.build
    rw [hne]
    cases hs : (b.starts_with.isSome || b.ends_with.isSome ||
        !b.csNeedles.isEmpty || b.equals.isSome) <;>
      simp [hall]
  · intro fb q hq hqc
    unfold FieldPredicateBuilder.build
    rw [hq]
    simp [hqc]

/-- Witness for C8: on an engine where the pattern `"("` fails to
compile, a builder holding that `matches` pattern builds to `Never`, a
field builder holding it as `except` builds to the `Never` field
predicate, and `Never` rejects a sample input. -/
theorem C8_witness :
    (StringPredicateBuilder.empty.add_regex [40]).build failEngine
      = StringPredicate.Never ∧
    (FieldPredicateBuilder.mk StringPredicateBuilder.empty Option.none
      (Option.some [40])).build failEngine
      = ⟨ValuePredicate.String StringPredicate.Never, Option.none⟩ ∧
    StringPredicate.Never.matchesB failEngine [97] = false := by
  have h := C8_compile_failure_collapses_to_never failEngine
  exact ⟨h.1 _ [40] (by decide) (by decide), h.2.1 _ [40] rfl (by decide),
    h.2.2 [97]⟩

/-- C3, counterexample to the claim as stated: the repository's legacy
per-predicate engine (`predicate.rs`, `CompiledStringMatcher::matches`,
cited by the claim) evaluates a case-insensitive `contains` by
lowercasing both the needle and the haystack with `str::to_lowercase`
and then searching — not through a `(?i)` regex.  At needle U+212A
KELVIN SIGN (bytes `E2 84 AA`) and haystack `"k"`, that evaluation
accepts, although the haystack does not contain the needle up to ASCII
case — so "every case-insensitive contains predicate … accepts exactly
the haystacks that contain the needle up to ASCII case" is false on the
code. -/
theorem C3_counterexample_legacy_lowercases :
    CompiledStringMatcher.matchesB refEngine
      (CompiledStringMatcher.ContainsM [226, 132, 170]
        (strToLowercase [226, 132, 170]))
      (Option.some [107]) false = true ∧
    containsIgnoreAsciiCase [226, 132, 170] [107] = false := by
  decide

/-- C3, amended to the optimized predicate engine (the engine the spec's
invariant describes): `StringPredicateBuilder::build` routes every
case-insensitive `contains` needle into the regex set as the inline
`(?i)` regex-escaped pattern and never into the substring-finder list —
structurally, the built predicate's finder needles are exactly the
case-sensitive needles and its regex patterns are the explicit `matches`
patterns followed by the converted `(?i)` patterns — and, on an engine
whose `(?i)`-literal patterns accept exactly ASCII-case-insensitive
containment, a case-insensitive `contains` predicate built alone matches
exactly the haystacks that contain the needle up to ASCII case. -/
theorem C3_ci_contains_compiled_to_inline_regex (E : RegexEngine)
    (b : StringPredicateBuilder) (n v : Str)
    (hcompiles : b.regexes.all E.compiles = true)
    (hciC : ∀ m : Str, E.compiles (ciContainsPattern m) = true)
    (hciM : ∀ m w : Str, E.rmatch (ciContainsPattern m) w
      = containsIgnoreAsciiCase m w) :
    ((b.build E).finderNeedles = b.csNeedles ∧
     (b.build E).regexPatterns = b.allRegexes) ∧
    ((StringPredicateBuilder.empty.add_contains n false).build E).matchesB E v
      = containsIgnoreAsciiCase n v := by
  have hciAll : b.ciRegexes.all E.compiles = true := by
    rw [List.all_eq_true]
    intro p hp
    obtain ⟨pc, _, rfl⟩ := List.mem_map.mp hp
    exact hciC pc.1
  have hallC : b.allRegexes.all E.compiles = true := by
    rw [StringPredicateBuilder.allRegexes, List.all_append, hcompiles, hciAll]
    rfl
  constructor
  · unfold StringPredicateBuilder.build
    cases hs : (b.starts_with.isSome || b.ends_with.isSome ||
        !b.csNeedles.isEmpty || b.equals.isSome) with
    | false =>
      have hcs : b.csNeedles = [] := by
        cases hcc : b.csNeedles with
        | nil => rfl
        | cons x xs => rw [hcc] at hs; simp at hs
      cases hre : b.allRegexes.isEmpty with
      | true =>
        have h0 : b.allRegexes = [] := by
          cases hh : b.allRegexes with
          | nil => rfl
          | cons x xs => rw [hh] at hre; simp at hre
        simp [StringPredicate.finderNeedles, StringPredicate.regexPatterns,
          StringPredicate.empty_simple, hcs, h0]
      | false =>
        simp [hallC, StringPredicate.finderNeedles,
          StringPredicate.regexPatterns, hcs]
    | true =>
      cases hre : b.allRegexes.isEmpty with
      | true =>
        have h0 : b.allRegexes = [] := by
          cases hh : b.allRegexes with
          | nil => rfl
          | cons x xs => rw [hh] at hre; simp at hre
        simp [StringPredicateBuilder.simplePart, StringPredicate.finderNeedles,
          StringPredicate.regexPatterns, h0]
      | false =>
        simp [hallC, StringPredicateBuilder.simplePart,
          StringPredicate.finderNeedles, StringPredicate.regexPatterns]
  · have hbuild : (StringPredicateBuilder.empty.add_contains n false).build E
        = StringPredicate.Regexes [ciContainsPattern n] true := by
      unfold StringPredicateBuilder.build
      simp [StringPredicateBuilder.empty, StringPredicateBuilder.add_contains,
        StringPredicateBuilder.csNeedles, StringPredicateBuilder.allRegexes,
        StringPredicateBuilder.ciRegexes, hciC]
    rw [hbuild]
    simp [StringPredicate.matchesB, hciM]

/-- Witness for the amended C3, on the concrete `refEngine` (whose
`(?i)`-literal patterns are proved to accept exactly
ASCII-case-insensitive containment): a builder holding a case-sensitive
needle `"x"`, a case-insensitive needle `"aB"` and a `matches` pattern
keeps exactly `"x"` as a finder and gains the `(?i)` pattern, and the
lone case-insensitive `contains` accepts `"zAb"` . -/
theorem C3_witness :
    StringPredicate.finderNeedles
      ((((StringPredicateBuilder.empty.add_contains [120] true).add_contains
        [97, 66] false).add_regex [46]).build refEngine) = [[120]] ∧
    StringPredicate.regexPatterns
      ((((StringPredicateBuilder.empty.add_contains [120] true).add_contains
        [97, 66] false).add_regex [46]).build refEngine)
      = [[46], ciContainsPattern [97, 66]] ∧
    ((StringPredicateBuilder.empty.add_contains [97, 66] false).build
        refEngine).matchesB refEngine [122, 65, 98] = true := by
  have h := C3_ci_contains_compiled_to_inline_regex refEngine
    (((StringPredicateBuilder.empty.add_contains [120] true).add_contains
        [97, 66] false).add_regex [46])
    [97, 66] [122, 65, 98]
    (by decide) refEngine_ciContains_compiles refEngine_ciContains_matches
  refine ⟨?_, ?_, ?_⟩
  · rw [h.1.1]
    decide
  · rw [h.1.2]
    decide
  · rw [h.2]
    decide

/-! ## Claim theorems: decision cache (C5, C6) -/

/-- C5: for an enabled cache at its maximum size `N ≥ 1` with distinct
keys, inserting a fresh key evicts exactly the entry with the (unique)
oldest `last_accessed`: afterwards that key and only that key (among the
previously present ones) is absent, and the size is still `N`.  Moreover
the size never exceeds the configured maximum over any sequence of
`insert` / `get` operations started within the bound. -/
theorem C5_lru_eviction (c : DecisionCache) (now : Nat) (k k₀ : CacheKey)
    (e₀ : CacheEntry) (v : ScriptFaultDecision) (N : Nat)
    (henabled : c.config.enabled = true)
    (hmax : c.config.max_size = N)
    (hlen : c.cache.length = N)
    (hN : 1 ≤ N)
    (hnodup : (c.cache.map Prod.fst).Nodup)
    (hfresh : DecisionCache.lookupKey k c.cache = Option.none)
    (hmem : (k₀, e₀) ∈ c.cache)
    (hmin : ∀ kv ∈ c.cache, kv.1 ≠ k₀ → e₀.last_accessed < kv.2.last_accessed) :
    (DecisionCache.lookupKey k₀ (c.insert now k v).cache = Option.none) ∧
    (∀ kv ∈ c.cache,
      (DecisionCache.lookupKey kv.1 (c.insert now k v).cache = Option.none ↔ kv.1 = k₀)) ∧
    ((c.insert now k v).cache.length = N) ∧
    (∀ (c₀ : DecisionCache) (ops : List CacheOp),
      1 ≤ c₀.config.max_size → c₀.cache.length ≤ c₀.config.max_size →
      (c₀.execOps ops).cache.length ≤ c₀.config.max_size) := by
  have hmineq := DecisionCache.minByLastAccessed_unique k₀ e₀ c.cache hnodup hmem hmin
  have hfull : c.config.max_size ≤ c.cache.length := by omega
  have hc1 : (c.insert now k v).cache
      = DecisionCache.putKey k (CacheEntry.new v now)
          (DecisionCache.removeKey k₀ c.cache) := by
    simp [DecisionCache.insert, henabled, DecisionCache.evict_lru, hmineq, hfull, hfresh]
  have hk₀k : k₀ ≠ k := by
    intro h
    exact DecisionCache.lookupKey_ne_none_of_mem (k₀, e₀) c.cache hmem
      (by simpa [h] using hfresh)
  have habsent : DecisionCache.lookupKey k₀ (c.insert now k v).cache = Option.none := by
    rw [hc1, DecisionCache.lookupKey_putKey_ne k k₀ _ _ hk₀k]
    exact DecisionCache.lookupKey_removeKey_self_of_nodup k₀ c.cache hnodup
  refine ⟨habsent, ?_, ?_, ?_⟩
  · intro kv hkv
    constructor
    · intro hnone
      by_contra hne
      have hkvk : kv.1 ≠ k := by
        intro h
        exact DecisionCache.lookupKey_ne_none_of_mem kv c.cache hkv
          (by rw [h]; exact hfresh)
      rw [hc1, DecisionCache.lookupKey_putKey_ne k kv.1 _ _ hkvk,
          DecisionCache.lookupKey_removeKey_ne k₀ kv.1 _ hne] at hnone
      exact DecisionCache.lookupKey_ne_none_of_mem kv c.cache hkv hnone
    · intro h
      rw [h]
      exact habsent
  · rw [hc1, DecisionCache.putKey_fresh _ _ _
      (DecisionCache.lookupKey_removeKey_none k₀ k c.cache hfresh)]
    have hsome : DecisionCache.lookupKey k₀ c.cache = Option.some e₀ :=
      DecisionCache.lookupKey_eq_some_of_mem_nodup k₀ e₀ c.cache hnodup hmem
    have hrem := DecisionCache.length_removeKey_present k₀ c.cache (by simp [hsome])
    simp only [List.length_append, List.length_cons, List.length_nil]
    omega
  · intro c₀ ops h1 h2
    exact DecisionCache.execOps_length_le ops c₀ h1 h2

/-- Witness for C5: a size-2 cache holding two entries, the older one
with `last_accessed = 1`; inserting a third, fresh key evicts exactly the
older entry and the size stays 2. -/
theorem C5_witness :
    (DecisionCache.lookupKey ⟨[], [], [], 0, [98]⟩
      ((DecisionCache.mk ⟨true, 2, 0⟩
        [(⟨[], [], [], 0, [97]⟩, ⟨ScriptFaultDecision.none, 0, 5, 0⟩),
         (⟨[], [], [], 0, [98]⟩, ⟨ScriptFaultDecision.none, 0, 1, 0⟩)]
        CacheMetrics.init).insert 10 ⟨[], [], [], 0, [99]⟩
          ScriptFaultDecision.none).cache = Option.none) ∧
    (((DecisionCache.mk ⟨true, 2, 0⟩
        [(⟨[], [], [], 0, [97]⟩, ⟨ScriptFaultDecision.none, 0, 5, 0⟩),
         (⟨[], [], [], 0, [98]⟩, ⟨ScriptFaultDecision.none, 0, 1, 0⟩)]
        CacheMetrics.init).insert 10 ⟨[], [], [], 0, [99]⟩
          ScriptFaultDecision.none).cache.length = 2) := by
  have h := C5_lru_eviction
    (DecisionCache.mk ⟨true, 2, 0⟩
      [(⟨[], [], [], 0, [97]⟩, ⟨ScriptFaultDecision.none, 0, 5, 0⟩),
       (⟨[], [], [], 0, [98]⟩, ⟨ScriptFaultDecision.none, 0, 1, 0⟩)]
      CacheMetrics.init)
    10 ⟨[], [], [], 0, [99]⟩ ⟨[], [], [], 0, [98]⟩
    ⟨ScriptFaultDecision.none, 0, 1, 0⟩ ScriptFaultDecision.none 2
    rfl rfl rfl (by decide) (by decide) (by decide) (by decide) (by decide)
  exact ⟨h.1, h.2.2.1⟩

/-- C6: cache soundness with TTL.  For an enabled cache whose map binds
`k` to an entry `e` (keys distinct): while the TTL has not elapsed since
`e.created_at` (or the TTL is zero, meaning no expiry), `get` returns the
stored decision; once strictly more than the TTL has elapsed, `get`
returns `None` and removes the entry; and `insert(k, v)` installs a fresh
entry whose decision is `v` and whose `created_at` is the insertion time. -/
theorem C6_cache_ttl_soundness (c : DecisionCache) (k : CacheKey)
    (e : CacheEntry) (now : Nat)
    (henabled : c.config.enabled = true)
    (hnodup : (c.cache.map Prod.fst).Nodup)
    (hlook : DecisionCache.lookupKey k c.cache = Option.some e) :
    ((c.config.ttl_seconds = 0 ∨ now - e.created_at ≤ c.config.ttl_seconds) →
      (c.get now k).1 = Option.some e.decision) ∧
    ((c.config.ttl_seconds ≠ 0 → c.config.ttl_seconds < now - e.created_at →
      (c.get now k).1 = Option.none ∧
      DecisionCache.lookupKey k ((c.get now k).2).cache = Option.none)) ∧
    (∀ (v : ScriptFaultDecision) (t : Nat),
      DecisionCache.lookupKey k ((c.insert t k v)).cache
        = Option.some (CacheEntry.new v t)) := by
  refine ⟨?_, ?_, ?_⟩
  · intro hok
    have hexp : e.is_expired c.config.ttl_seconds now = false := by
      unfold CacheEntry.is_expired
      rcases hok with h0 | hle
      · simp [h0]
      · by_cases h0 : c.config.ttl_seconds = 0
        · simp [h0]
        · simp only [h0, if_false, decide_eq_false_iff_not]
          omega
    simp [DecisionCache.get, henabled, hlook, hexp]
  · intro hne hgt
    have hexp : e.is_expired c.config.ttl_seconds now = true := by
      unfold CacheEntry.is_expired
      simp only [hne, if_false, decide_eq_true_eq]
      exact hgt
    constructor
    · simp [DecisionCache.get, henabled, hlook, hexp]
    · have hrem : ((c.get now k).2).cache = DecisionCache.removeKey k c.cache := by
        simp [DecisionCache.get, henabled, hlook, hexp]
      rw [hrem]
      exact DecisionCache.lookupKey_removeKey_self_of_nodup k c.cache hnodup
  · intro v t
    have hcond' : ¬(c.config.max_size ≤ c.cache.length ∧
        DecisionCache.lookupKey k c.cache = Option.none) := by
      simp [hlook]
    have hc1 : (c.insert t k v).cache
        = DecisionCache.putKey k (CacheEntry.new v t) c.cache := by
      simp [DecisionCache.insert, henabled, hcond']
    rw [hc1]
    exact DecisionCache.lookupKey_putKey_self k _ c.cache

/-- Witness for C6: one entry with TTL 10 created at time 0.  Reading at
time 10 (exactly the TTL) still yields the decision; reading at time 11
yields `None`. -/
theorem C6_witness :
    ((DecisionCache.mk ⟨true, 10, 10⟩
        [(⟨[], [], [], 0, []⟩, ⟨ScriptFaultDecision.latency 5 [114], 0, 0, 0⟩)]
        CacheMetrics.init).get 10 ⟨[], [], [], 0, []⟩).1
      = Option.some (ScriptFaultDecision.latency 5 [114]) ∧
    ((DecisionCache.mk ⟨true, 10, 10⟩
        [(⟨[], [], [], 0, []⟩, ⟨ScriptFaultDecision.latency 5 [114], 0, 0, 0⟩)]
        CacheMetrics.init).get 11 ⟨[], [], [], 0, []⟩).1
      = Option.none := by
  have h1 := (C6_cache_ttl_soundness
    (DecisionCache.mk ⟨true, 10, 10⟩
      [(⟨[], [], [], 0, []⟩, ⟨ScriptFaultDecision.latency 5 [114], 0, 0, 0⟩)]
      CacheMetrics.init)
    ⟨[], [], [], 0, []⟩ ⟨ScriptFaultDecision.latency 5 [114], 0, 0, 0⟩ 10
    rfl (by decide) (by decide)).1 (Or.inr (by decide))
  have h2 := ((C6_cache_ttl_soundness
    (DecisionCache.mk ⟨true, 10, 10⟩
      [(⟨[], [], [], 0, []⟩, ⟨ScriptFaultDecision.latency 5 [114], 0, 0, 0⟩)]
      CacheMetrics.init)
    ⟨[], [], [], 0, []⟩ ⟨ScriptFaultDecision.latency 5 [114], 0, 0, 0⟩ 11
    rfl (by decide) (by decide)).2.1 (by decide) (by decide)).1
  exact ⟨h1, h2⟩

/-- Witness for C4: a fresh store in `ProxyOnce` mode, one signature, two
distinct responses; replay yields the first. -/
theorem C4_witness :
    ((((RecordingStore.new ProxyMode.proxyOnce).record
        { method := [71, 69, 84], path := [47], query := Option.none, headers := [] }
        { status := 200, headers := [], body := [102], latency_ms := Option.none,
          timestamp_secs := 0 }).record
        { method := [71, 69, 84], path := [47], query := Option.none, headers := [] }
        { status := 201, headers := [], body := [115], latency_ms := Option.none,
          timestamp_secs := 0 }).get_recorded
        { method := [71, 69, 84], path := [47], query := Option.none, headers := [] })
      = Option.some
        { status := 200, headers := [], body := [102], latency_ms := Option.none,
          timestamp_secs := 0 } :=
  (C4_proxy_once_record_idempotent (RecordingStore.new ProxyMode.proxyOnce) _ _ _ rfl).1 rfl

/-! ## Supporting lemmas for the optimizer equivalence (C2):
association lists of per-name builders -/

theorem lookupFPB_updateEntry_self (name : Str)
    (f : FieldPredicateBuilder → FieldPredicateBuilder)
    (m : List (Str × FieldPredicateBuilder)) :
    lookupFPB name (updateEntry name f m)
      = Option.some (f ((lookupFPB name m).getD FieldPredicateBuilder.empty)) := by
  induction m with
  | nil => simp [updateEntry, lookupFPB]
  | cons kb rest ih =>
    obtain ⟨k, b⟩ := kb
    by_cases hk : k = name
    · simp [updateEntry, lookupFPB, hk]
    · simp [updateEntry, lookupFPB, hk, ih]

theorem lookupFPB_updateEntry_ne (name n' : Str)
    (f : FieldPredicateBuilder → FieldPredicateBuilder)
    (m : List (Str × FieldPredicateBuilder)) (h : n' ≠ name) :
    lookupFPB n' (updateEntry name f m) = lookupFPB n' m := by
  induction m with
  | nil => simp [updateEntry, lookupFPB, Ne.symm h]
  | cons kb rest ih =>
    obtain ⟨k, b⟩ := kb
    by_cases hk : k = name
    · subst hk
      simp [updateEntry, lookupFPB, Ne.symm h]
    · simp [updateEntry, lookupFPB, hk, ih]

theorem mem_of_lookupFPB_eq_some (name : Str) (fb : FieldPredicateBuilder)
    (m : List (Str × FieldPredicateBuilder))
    (h : lookupFPB name m = Option.some fb) : (name, fb) ∈ m := by
  induction m with
  | nil => simp [lookupFPB] at h
  | cons kb rest ih =>
    obtain ⟨k, b⟩ := kb
    by_cases hk : k = name
    · subst hk
      simp only [lookupFPB, eq_self_iff_true, if_true, Option.some.injEq] at h
      subst h
      exact List.mem_cons_self _ _
    · simp only [lookupFPB, hk, if_false] at h
      exact List.mem_cons_of_mem _ (ih h)

theorem lookupFPB_eq_some_of_mem_nodup (name : Str) (fb : FieldPredicateBuilder)
    (m : List (Str × FieldPredicateBuilder))
    (hnodup : (m.map Prod.fst).Nodup) (h : (name, fb) ∈ m) :
    lookupFPB name m = Option.some fb := by
  induction m with
  | nil => simp at h
  | cons kb rest ih =>
    obtain ⟨k, b⟩ := kb
    simp only [List.map_cons, List.nodup_cons] at hnodup
    rcases List.mem_cons.mp h with h1 | h1
    · rw [Prod.mk.injEq] at h1
      obtain ⟨rfl, rfl⟩ := h1
      simp [lookupFPB]
    · have hk : k ≠ name := by
        intro hk
        exact hnodup.1 (hk ▸ (List.mem_map.mpr ⟨(name, fb), h1, rfl⟩))
      simp [lookupFPB, hk, ih hnodup.2 h1]

theorem updateEntry_map_fst (name : Str)
    (f : FieldPredicateBuilder → FieldPredicateBuilder)
    (m : List (Str × FieldPredicateBuilder)) :
    (updateEntry name f m).map Prod.fst
      = if (lookupFPB name m).isSome then m.map Prod.fst
        else m.map Prod.fst ++ [name] := by
  induction m with
  | nil => simp [updateEntry, lookupFPB]
  | cons kb rest ih =>
    obtain ⟨k, b⟩ := kb
    by_cases hk : k = name
    · simp [updateEntry, lookupFPB, hk]
    · simp only [updateEntry, lookupFPB, hk, if_false, List.map_cons, ih]
      by_cases hs : (lookupFPB name rest).isSome <;> simp [hs]

theorem lookupFPB_none_iff_not_mem_keys (name : Str)
    (m : List (Str × FieldPredicateBuilder)) :
    lookupFPB name m = Option.none ↔ name ∉ m.map Prod.fst := by
  induction m with
  | nil => simp [lookupFPB]
  | cons kb rest ih =>
    obtain ⟨k, b⟩ := kb
    by_cases hk : k = name
    · subst hk
      simp [lookupFPB]
    · simp [lookupFPB, hk, ih, Ne.symm hk]

theorem updateEntry_keys_nodup (name : Str)
    (f : FieldPredicateBuilder → FieldPredicateBuilder)
    (m : List (Str × FieldPredicateBuilder))
    (hnodup : (m.map Prod.fst).Nodup) :
    ((updateEntry name f m).map Prod.fst).Nodup := by
  rw [updateEntry_map_fst]
  by_cases hs : (lookupFPB name m).isSome
  · simpa [hs] using hnodup
  · have hiss : (lookupFPB name m).isSome = false := by
      cases hl : lookupFPB name m
      · rfl
      · rw [hl] at hs
        simp at hs
    have hnm : name ∉ m.map Prod.fst := by
      rw [← lookupFPB_none_iff_not_mem_keys]
      cases hl : lookupFPB name m
      · rfl
      · rw [hl] at hiss
        simp at hiss
    rw [hiss, if_neg (by simp), List.nodup_append]
    exact ⟨hnodup, List.nodup_singleton name, by simpa using hnm⟩

/-! ## Supporting lemmas for C2: slot projections of leaf insertion -/

theorem builderAtSlot_insertLeaf (B : FieldBuilders) (l : Leaf) (s : Slot) :
    builderAtSlot (insertLeaf B l) s
      = if l.slot = s then insertLeafFPB l (builderAtSlot B s)
        else builderAtSlot B s := by
  cases hls : l.slot <;> cases s <;>
    simp_all [insertLeaf, builderAtSlot, lookupFPB_updateEntry_self,
      lookupFPB_updateEntry_ne]
  all_goals
    (rename_i n1 n2
     by_cases hn : n1 = n2
     · subst hn
       simp [lookupFPB_updateEntry_self]
     · simp [hn, lookupFPB_updateEntry_ne _ _ _ _ (Ne.symm hn)])

theorem builderAtSlot_foldl (ls : List Leaf) (B : FieldBuilders) (s : Slot) :
    builderAtSlot (ls.foldl insertLeaf B) s
      = (ls.filter (fun l => decide (l.slot = s))).foldl
          (fun fb l => insertLeafFPB l fb) (builderAtSlot B s) := by
  induction ls generalizing B with
  | nil => rfl
  | cons l rest ih =>
    simp only [List.foldl_cons, List.filter_cons, ih, builderAtSlot_insertLeaf]
    by_cases hs : l.slot = s <;> simp [hs]

theorem builderAtSlot_empty (s : Slot) :
    builderAtSlot FieldBuilders.empty s = FieldPredicateBuilder.empty := by
  cases s <;> rfl

/-! ## Supporting lemmas for C2: presence of per-name entries -/

theorem query_isSome_insertLeaf (B : FieldBuilders) (l : Leaf) (n : Str) :
    (lookupFPB n (insertLeaf B l).query).isSome = true ↔
      ((lookupFPB n B.query).isSome = true ∨ l.slot = Slot.queryS n) := by
  cases hls : l.slot <;>
    simp_all [insertLeaf]
  rename_i m
  by_cases hn : m = n
  · subst hn
    simp [lookupFPB_updateEntry_self]
  · simp [lookupFPB_updateEntry_ne _ _ _ _ (Ne.symm hn), hn]

theorem headers_isSome_insertLeaf (B : FieldBuilders) (l : Leaf) (n : Str) :
    (lookupFPB n (insertLeaf B l).headers).isSome = true ↔
      ((lookupFPB n B.headers).isSome = true ∨ l.slot = Slot.headersS n) := by
  cases hls : l.slot <;>
    simp_all [insertLeaf]
  rename_i m
  by_cases hn : m = n
  · subst hn
    simp [lookupFPB_updateEntry_self]
  · simp [lookupFPB_updateEntry_ne _ _ _ _ (Ne.symm hn), hn]

theorem form_isSome_insertLeaf (B : FieldBuilders) (l : Leaf) (n : Str) :
    (lookupFPB n (insertLeaf B l).form).isSome = true ↔
      ((lookupFPB n B.form).isSome = true ∨ l.slot = Slot.formS n) := by
  cases hls : l.slot <;>
    simp_all [insertLeaf]
  rename_i m
  by_cases hn : m = n
  · subst hn
    simp [lookupFPB_updateEntry_self]
  · simp [lookupFPB_updateEntry_ne _ _ _ _ (Ne.symm hn), hn]

theorem query_isSome_foldl (ls : List Leaf) (B : FieldBuilders) (n : Str) :
    (lookupFPB n ((ls.foldl insertLeaf B).query)).isSome = true ↔
      ((lookupFPB n B.query).isSome = true ∨ ∃ l ∈ ls, l.slot = Slot.queryS n) := by
  induction ls generalizing B with
  | nil => simp
  | cons l rest ih =>
    simp only [List.foldl_cons]
    rw [ih, query_isSome_insertLeaf]
    constructor
    · rintro ((h | h) | ⟨l', hl', hs⟩)
      · exact Or.inl h
      · exact Or.inr ⟨l, List.mem_cons_self _ _, h⟩
      · exact Or.inr ⟨l', List.mem_cons_of_mem _ hl', hs⟩
    · rintro (h | ⟨l', hl', hs⟩)
      · exact Or.inl (Or.inl h)
      · rcases List.mem_cons.mp hl' with rfl | hmem
        · exact Or.inl (Or.inr hs)
        · exact Or.inr ⟨l', hmem, hs⟩

theorem headers_isSome_foldl (ls : List Leaf) (B : FieldBuilders) (n : Str) :
    (lookupFPB n ((ls.foldl insertLeaf B).headers)).isSome = true ↔
      ((lookupFPB n B.headers).isSome = true ∨ ∃ l ∈ ls, l.slot = Slot.headersS n) := by
  induction ls generalizing B with
  | nil => simp
  | cons l rest ih =>
    simp only [List.foldl_cons]
    rw [ih, headers_isSome_insertLeaf]
    constructor
    · rintro ((h | h) | ⟨l', hl', hs⟩)
      · exact Or.inl h
      · exact Or.inr ⟨l, List.mem_cons_self _ _, h⟩
      · exact Or.inr ⟨l', List.mem_cons_of_mem _ hl', hs⟩
    · rintro (h | ⟨l', hl', hs⟩)
      · exact Or.inl (Or.inl h)
      · rcases List.mem_cons.mp hl' with rfl | hmem
        · exact Or.inl (Or.inr hs)
        · exact Or.inr ⟨l', hmem, hs⟩

theorem form_isSome_foldl (ls : List Leaf) (B : FieldBuilders) (n : Str) :
    (lookupFPB n ((ls.foldl insertLeaf B).form)).isSome = true ↔
      ((lookupFPB n B.form).isSome = true ∨ ∃ l ∈ ls, l.slot = Slot.formS n) := by
  induction ls generalizing B with
  | nil => simp
  | cons l rest ih =>
    simp only [List.foldl_cons]
    rw [ih, form_isSome_insertLeaf]
    constructor
    · rintro ((h | h) | ⟨l', hl', hs⟩)
      · exact Or.inl h
      · exact Or.inr ⟨l, List.mem_cons_self _ _, h⟩
      · exact Or.inr ⟨l', List.mem_cons_of_mem _ hl', hs⟩
    · rintro (h | ⟨l', hl', hs⟩)
      · exact Or.inl (Or.inl h)
      · rcases List.mem_cons.mp hl' with rfl | hmem
        · exact Or.inl (Or.inr hs)
        · exact Or.inr ⟨l', hmem, hs⟩

theorem query_keys_nodup_foldl (ls : List Leaf) (B : FieldBuilders)
    (h : (B.query.map Prod.fst).Nodup) :
    (((ls.foldl insertLeaf B).query).map Prod.fst).Nodup := by
  induction ls generalizing B with
  | nil => exact h
  | cons l rest ih =>
    refine List.foldl_cons .. ▸ ih _ ?_
    cases hls : l.slot <;>
      simp [insertLeaf, hls, h, updateEntry_keys_nodup _ _ _ h]

theorem headers_keys_nodup_foldl (ls : List Leaf) (B : FieldBuilders)
    (h : (B.headers.map Prod.fst).Nodup) :
    (((ls.foldl insertLeaf B).headers).map Prod.fst).Nodup := by
  induction ls generalizing B with
  | nil => exact h
  | cons l rest ih =>
    refine List.foldl_cons .. ▸ ih _ ?_
    cases hls : l.slot <;>
      simp [insertLeaf, hls, h, updateEntry_keys_nodup _ _ _ h]

theorem form_keys_nodup_foldl (ls : List Leaf) (B : FieldBuilders)
    (h : (B.form.map Prod.fst).Nodup) :
    (((ls.foldl insertLeaf B).form).map Prod.fst).Nodup := by
  induction ls generalizing B with
  | nil => exact h
  | cons l rest ih =>
    refine List.foldl_cons .. ▸ ih _ ?_
    cases hls : l.slot <;>
      simp [insertLeaf, hls, h, updateEntry_keys_nodup _ _ _ h]

/-! ## Supporting lemmas for C2: contents of folded builders -/

theorem foldFPB_object_pred (ls : List Leaf) (fb : FieldPredicateBuilder) :
    ((ls.foldl (fun fb l => insertLeafFPB l fb) fb).object_pred)
      = fb.object_pred := by
  induction ls generalizing fb with
  | nil => rfl
  | cons l rest ih =>
    rw [List.foldl_cons, ih]
    simp [insertLeafFPB]

theorem foldFPB_except_pattern (ls : List Leaf) (fb : FieldPredicateBuilder) :
    ((ls.foldl (fun fb l => insertLeafFPB l fb) fb).except_pattern)
      = fb.except_pattern := by
  induction ls generalizing fb with
  | nil => rfl
  | cons l rest ih =>
    rw [List.foldl_cons, ih]
    simp [insertLeafFPB]

theorem foldFPB_string_pred (ls : List Leaf) (fb : FieldPredicateBuilder) :
    ((ls.foldl (fun fb l => insertLeafFPB l fb) fb).string_pred)
      = ls.foldl (fun b l => insertLeafSPB l.op l.pattern l.cs b) fb.string_pred := by
  induction ls generalizing fb with
  | nil => rfl
  | cons l rest ih =>
    rw [List.foldl_cons, ih]
    simp [insertLeafFPB]

theorem foldSPB_equals (ls : List Leaf) (b : StringPredicateBuilder) :
    (ls.foldl (fun b l => insertLeafSPB l.op l.pattern l.cs b) b).equals
      = (ls.filter (fun l => decide (l.op = LeafOp.eqL))).foldl
          (fun _ l => Option.some (l.pattern, l.cs)) b.equals := by
  induction ls generalizing b with
  | nil => rfl
  | cons l rest ih =>
    rw [List.foldl_cons, ih]
    obtain ⟨lop, lslot, lpat, lcs⟩ := l
    cases lop <;>
      simp [List.filter_cons, insertLeafSPB,
        StringPredicateBuilder.add_equals, StringPredicateBuilder.add_contains,
        StringPredicateBuilder.add_starts_with,
        StringPredicateBuilder.add_ends_with, StringPredicateBuilder.add_regex]

theorem foldSPB_starts_with (ls : List Leaf) (b : StringPredicateBuilder) :
    (ls.foldl (fun b l => insertLeafSPB l.op l.pattern l.cs b) b).starts_with
      = (ls.filter (fun l => decide (l.op = LeafOp.swL))).foldl
          (fun _ l => Option.some (l.pattern, l.cs)) b.starts_with := by
  induction ls generalizing b with
  | nil => rfl
  | cons l rest ih =>
    rw [List.foldl_cons, ih]
    obtain ⟨lop, lslot, lpat, lcs⟩ := l
    cases lop <;>
      simp [List.filter_cons, insertLeafSPB,
        StringPredicateBuilder.add_equals, StringPredicateBuilder.add_contains,
        StringPredicateBuilder.add_starts_with,
        StringPredicateBuilder.add_ends_with, StringPredicateBuilder.add_regex]

theorem foldSPB_ends_with (ls : List Leaf) (b : StringPredicateBuilder) :
    (ls.foldl (fun b l => insertLeafSPB l.op l.pattern l.cs b) b).ends_with
      = (ls.filter (fun l => decide (l.op = LeafOp.ewL))).foldl
          (fun _ l => Option.some (l.pattern, l.cs)) b.ends_with := by
  induction ls generalizing b with
  | nil => rfl
  | cons l rest ih =>
    rw [List.foldl_cons, ih]
    obtain ⟨lop, lslot, lpat, lcs⟩ := l
    cases lop <;>
      simp [List.filter_cons, insertLeafSPB,
        StringPredicateBuilder.add_equals, StringPredicateBuilder.add_contains,
        StringPredicateBuilder.add_starts_with,
        StringPredicateBuilder.add_ends_with, StringPredicateBuilder.add_regex]

theorem foldSPB_contains (ls : List Leaf) (b : StringPredicateBuilder) :
    (ls.foldl (fun b l => insertLeafSPB l.op l.pattern l.cs b) b).contains
      = b.contains ++ (ls.filter (fun l => decide (l.op = LeafOp.containsL))).map
          (fun l => (l.pattern, l.cs)) := by
  induction ls generalizing b with
  | nil => simp
  | cons l rest ih =>
    rw [List.foldl_cons, ih]
    obtain ⟨lop, lslot, lpat, lcs⟩ := l
    cases lop <;>
      simp [List.filter_cons, insertLeafSPB,
        StringPredicateBuilder.add_equals, StringPredicateBuilder.add_contains,
        StringPredicateBuilder.add_starts_with,
        StringPredicateBuilder.add_ends_with, StringPredicateBuilder.add_regex]

theorem foldSPB_regexes (ls : List Leaf) (b : StringPredicateBuilder) :
    (ls.foldl (fun b l => insertLeafSPB l.op l.pattern l.cs b) b).regexes
      = b.regexes ++ (ls.filter (fun l => decide (l.op = LeafOp.matchesL))).map
          (fun l => l.pattern) := by
  induction ls generalizing b with
  | nil => simp
  | cons l rest ih =>
    rw [List.foldl_cons, ih]
    obtain ⟨lop, lslot, lpat, lcs⟩ := l
    cases lop <;>
      simp [List.filter_cons, insertLeafSPB,
        StringPredicateBuilder.add_equals, StringPredicateBuilder.add_contains,
        StringPredicateBuilder.add_starts_with,
        StringPredicateBuilder.add_ends_with, StringPredicateBuilder.add_regex]

theorem foldl_const_some_isSome {α β : Type} (g : α → β) (xs : List α)
    (y : β) :
    (xs.foldl (fun _ x => Option.some (g x)) (Option.some y)).isSome = true := by
  induction xs generalizing y with
  | nil => rfl
  | cons x rest ih => simpa [List.foldl_cons] using ih (g x)

theorem foldl_const_some_ne_none {α β : Type} (g : α → β) (x : α)
    (xs : List α) (init : Option β) :
    (((x :: xs).foldl (fun _ x => Option.some (g x)) init)).isSome = true := by
  simpa [List.foldl_cons] using foldl_const_some_isSome g xs (g x)

theorem foldl_const_some_from_some_isNone {α β : Type} (g : α → β)
    (xs : List α) (y : β) :
    (xs.foldl (fun _ x => Option.some (g x)) (Option.some y)).isNone = false := by
  induction xs generalizing y with
  | nil => rfl
  | cons x rest ih => simpa [List.foldl_cons] using ih (g x)

theorem foldFPB_is_empty_iff (ls : List Leaf) :
    ((ls.foldl (fun fb l => insertLeafFPB l fb)
      FieldPredicateBuilder.empty).is_empty) = true ↔ ls = [] := by
  cases ls with
  | nil => simp [FieldPredicateBuilder.is_empty, FieldPredicateBuilder.empty,
      StringPredicateBuilder.empty]
  | cons l rest =>
    constructor
    · intro h
      exfalso
      simp only [FieldPredicateBuilder.is_empty, foldFPB_object_pred,
        foldFPB_except_pattern, foldFPB_string_pred, foldSPB_equals,
        foldSPB_starts_with, foldSPB_ends_with, foldSPB_contains,
        foldSPB_regexes, FieldPredicateBuilder.empty,
        StringPredicateBuilder.empty, Bool.and_eq_true, and_assoc] at h
      obtain ⟨hsw, hew, hct, heq, hrg, _, _⟩ := h
      cases hop : l.op
      · simp [List.filter_cons, hop, List.foldl_cons,
          foldl_const_some_from_some_isNone] at heq
      · simp [List.filter_cons, hop] at hct
      · simp [List.filter_cons, hop, List.foldl_cons,
          foldl_const_some_from_some_isNone] at hsw
      · simp [List.filter_cons, hop, List.foldl_cons,
          foldl_const_some_from_some_isNone] at hew
      · simp [List.filter_cons, hop] at hrg
    · intro h
      exact absurd h (List.cons_ne_nil l rest)

/-! ## Supporting lemmas for C2: leaf operators versus the matcher
primitives -/

theorem leafOpSat_eq_equals (E : RegexEngine) (pat : Str) (cs : Bool)
    (v : Str) :
    leafOpSat E LeafOp.eqL pat cs v = MaybeSensitiveStr.equals ⟨pat, cs⟩ v := by
  cases cs <;> rfl

theorem leafOpSat_eq_starts_with (E : RegexEngine) (pat : Str) (cs : Bool)
    (v : Str) :
    leafOpSat E LeafOp.swL pat cs v
      = MaybeSensitiveStr.starts_with ⟨pat, cs⟩ v := by
  cases cs with
  | true => rfl
  | false =>
    by_cases h : v.length < pat.length
    · simp [leafOpSat, MaybeSensitiveStr.starts_with, h, Nat.not_le.mpr h]
    · simp [leafOpSat, MaybeSensitiveStr.starts_with, h, Nat.not_lt.mp h]

theorem leafOpSat_eq_ends_with (E : RegexEngine) (pat : Str) (cs : Bool)
    (v : Str) :
    leafOpSat E LeafOp.ewL pat cs v
      = MaybeSensitiveStr.ends_with ⟨pat, cs⟩ v := by
  cases cs with
  | true => rfl
  | false =>
    by_cases h : v.length < pat.length
    · simp [leafOpSat, MaybeSensitiveStr.ends_with, h, Nat.not_le.mpr h]
    · simp [leafOpSat, MaybeSensitiveStr.ends_with, h, Nat.not_lt.mp h]

theorem all_leafContains_split (E : RegexEngine) (v : Str)
    (hciM : ∀ m w : Str, E.rmatch (ciContainsPattern m) w
      = containsIgnoreAsciiCase m w)
    (l : List (Str × Bool)) :
    l.all (fun pc => leafOpSat E LeafOp.containsL pc.1 pc.2 v)
      = (((l.filter (fun pc => pc.2)).map (fun pc => pc.1)).all
          (fun n => strContains n v)
        && ((l.filter (fun pc => !pc.2)).map
            (fun pc => ciContainsPattern pc.1)).all
          (fun p => E.rmatch p v)) := by
  induction l with
  | nil => rfl
  | cons pc rest ih =>
    rw [List.all_cons, ih]
    cases h2 : pc.2 with
    | true =>
      simp [List.filter_cons, h2, leafOpSat, Bool.and_assoc]
    | false =>
      simp [List.filter_cons, h2, leafOpSat, hciM, Bool.and_assoc,
        Bool.and_left_comm]

theorem builder_contains_split (E : RegexEngine) (v : Str)
    (b : StringPredicateBuilder)
    (hciM : ∀ m w : Str, E.rmatch (ciContainsPattern m) w
      = containsIgnoreAsciiCase m w) :
    b.contains.all (fun pc => leafOpSat E LeafOp.containsL pc.1 pc.2 v)
      = (b.csNeedles.all (fun n => strContains n v)
        && b.ciRegexes.all (fun p => E.rmatch p v)) :=
  all_leafContains_split E v hciM b.contains

theorem build_matchesB_eq_builderSem (E : RegexEngine)
    (b : StringPredicateBuilder) (v : Str)
    (hcompiles : b.regexes.all E.compiles = true)
    (hciC : ∀ m : Str, E.compiles (ciContainsPattern m) = true)
    (hciM : ∀ m w : Str, E.rmatch (ciContainsPattern m) w
      = containsIgnoreAsciiCase m w) :
    (b.build E).matchesB E v = builderSem E b v := by
  have hciAll : b.ciRegexes.all E.compiles = true := by
    rw [List.all_eq_true]
    intro p hp
    obtain ⟨pc, _, rfl⟩ := List.mem_map.mp hp
    exact hciC pc.1
  have hallC : b.allRegexes.all E.compiles = true := by
    rw [StringPredicateBuilder.allRegexes, List.all_append, hcompiles, hciAll]
    rfl
  have hsem : builderSem E b v =
      ((match b.equals with
       | Option.some pc => leafOpSat E LeafOp.eqL pc.1 pc.2 v
       | Option.none => true) &&
      (match b.starts_with with
       | Option.some pc => leafOpSat E LeafOp.swL pc.1 pc.2 v
       | Option.none => true) &&
      (match b.ends_with with
       | Option.some pc => leafOpSat E LeafOp.ewL pc.1 pc.2 v
       | Option.none => true) &&
      (b.csNeedles.all (fun n => strContains n v)
        && b.ciRegexes.all (fun p => E.rmatch p v)) &&
      b.regexes.all (fun p => E.rmatch p v)) := by
    rw [builderSem, builder_contains_split E v b hciM]
    simp only [leafOpSat]
  rw [hsem]
  unfold StringPredicateBuilder.build
  cases hs : (b.starts_with.isSome || b.ends_with.isSome ||
      !b.csNeedles.isEmpty || b.equals.isSome) with
  | false =>
    have hswn : b.starts_with = Option.none := by
      cases h : b.starts_with with
      | none => rfl
      | some x => rw [h] at hs; simp at hs
    have hewn : b.ends_with = Option.none := by
      cases h : b.ends_with with
      | none => rfl
      | some x => rw [h] at hs; simp at hs
    have heqn : b.equals = Option.none := by
      cases h : b.equals with
      | none => rfl
      | some x => rw [h] at hs; simp at hs
    have hcsn : b.csNeedles = [] := by
      cases h : b.csNeedles with
      | nil => rfl
      | cons x xs => rw [h] at hs; simp at hs
    cases hre : b.allRegexes.isEmpty with
    | true =>
      have h0 : b.allRegexes = [] := by
        cases hh : b.allRegexes with
        | nil => rfl
        | cons x xs => rw [hh] at hre; simp at hre
      simp only [StringPredicateBuilder.allRegexes] at h0
      have hr0 := List.append_eq_nil.mp h0
      simp [StringPredicate.matchesB, StringPredicate.empty_simple,
        hswn, hewn, heqn, hcsn, hr0.1, hr0.2]
    | false =>
      simp only [Bool.not_false, hallC, eq_self_iff_true, if_true,
        StringPredicate.matchesB]
      simp [hswn, hewn, heqn, hcsn, StringPredicateBuilder.allRegexes,
        List.all_append, Bool.and_comm]
  | true =>
    cases hre : b.allRegexes.isEmpty with
    | true =>
      have h0 : b.allRegexes = [] := by
        cases hh : b.allRegexes with
        | nil => rfl
        | cons x xs => rw [hh] at hre; simp at hre
      simp only [StringPredicateBuilder.allRegexes] at h0
      have hr0 := List.append_eq_nil.mp h0
      simp only [StringPredicateBuilder.simplePart, StringPredicate.matchesB,
        hr0.1, hr0.2, List.all_nil, Bool.and_true]
      cases hbe : b.equals <;> cases hbs : b.starts_with <;>
        cases hbw : b.ends_with <;>
        simp [leafOpSat_eq_equals, leafOpSat_eq_starts_with,
          leafOpSat_eq_ends_with]
    | false =>
      simp only [Bool.not_false, hallC, eq_self_iff_true, if_true]
      simp only [StringPredicate.matchesB, StringPredicateBuilder.simplePart,
        StringPredicateBuilder.allRegexes, List.all_append]
      cases hbe : b.equals <;> cases hbs : b.starts_with <;>
        cases hbw : b.ends_with <;>
        simp [leafOpSat_eq_equals, leafOpSat_eq_starts_with,
          leafOpSat_eq_ends_with, Bool.and_assoc, Bool.and_comm,
          Bool.and_left_comm]

theorem fpbBuild_matchesB_eq_builderSem (E : RegexEngine)
    (fb : FieldPredicateBuilder) (v : Str)
    (hobj : fb.object_pred = Option.none)
    (hexc : fb.except_pattern = Option.none)
    (hcompiles : fb.string_pred.regexes.all E.compiles = true)
    (hciC : ∀ m : Str, E.compiles (ciContainsPattern m) = true)
    (hciM : ∀ m w : Str, E.rmatch (ciContainsPattern m) w
      = containsIgnoreAsciiCase m w) :
    (fb.build E).matchesB E v = builderSem E fb.string_pred v := by
  simp [FieldPredicateBuilder.build, hobj, hexc, FieldPredicate.matchesB,
    ValuePredicate.matches_str,
    build_matchesB_eq_builderSem E fb.string_pred v hcompiles hciC hciM]

/-! ## Supporting lemmas for C2: list partitions and congruence -/

theorem all_congr_mem {α : Type} (xs : List α) (f g : α → Bool)
    (h : ∀ x ∈ xs, f x = g x) : xs.all f = xs.all g := by
  induction xs with
  | nil => rfl
  | cons y ys ih =>
    rw [List.all_cons, List.all_cons, h y (List.mem_cons_self y ys),
      ih (fun x hx => h x (List.mem_cons_of_mem y hx))]

theorem all_flatMap {α β : Type} (l : List α) (g : α → List β)
    (f : β → Bool) :
    (l.flatMap g).all f = l.all (fun x => (g x).all f) := by
  induction l with
  | nil => rfl
  | cons x rest ih => simp [ih, List.all_append]

theorem all_partition_by_op (ls : List Leaf) (f : Leaf → Bool) :
    ls.all f
      = ((ls.filter (fun l => decide (l.op = LeafOp.eqL))).all f
        && (ls.filter (fun l => decide (l.op = LeafOp.swL))).all f
        && (ls.filter (fun l => decide (l.op = LeafOp.ewL))).all f
        && (ls.filter (fun l => decide (l.op = LeafOp.containsL))).all f
        && (ls.filter (fun l => decide (l.op = LeafOp.matchesL))).all f) := by
  induction ls with
  | nil => rfl
  | cons l rest ih =>
    rw [List.all_cons, ih]
    cases hop : l.op <;>
      simp [List.filter_cons, hop, Bool.and_assoc, Bool.and_comm,
        Bool.and_left_comm]

theorem replacing_bound (L : List Leaf) (h : atMostOneReplacing L = true)
    (s : Slot) (op : LeafOp)
    (hop : op = LeafOp.eqL ∨ op = LeafOp.swL ∨ op = LeafOp.ewL) :
    ((L.filter (fun l => decide (l.slot = s))).filter
      (fun l => decide (l.op = op))).length ≤ 1 := by
  have hcomb : ((L.filter (fun l => decide (l.slot = s))).filter
      (fun l => decide (l.op = op)))
      = L.filter (fun l => decide (l.slot = s ∧ l.op = op)) := by
    rw [List.filter_filter]
    refine List.filter_congr ?_
    intro a _
    simp [Bool.and_comm]
  rw [hcomb]
  cases hE : L.filter (fun l => decide (l.slot = s ∧ l.op = op)) with
  | nil => simp
  | cons l0 tail =>
    have hm : l0 ∈ L.filter (fun l => decide (l.slot = s ∧ l.op = op)) := by
      rw [hE]
      exact List.mem_cons_self _ _
    have h2 := List.mem_filter.mp hm
    have hprops := of_decide_eq_true h2.2
    have hcond : l0.op = LeafOp.eqL ∨ l0.op = LeafOp.swL ∨
        l0.op = LeafOp.ewL := by
      rw [hprops.2]
      exact hop
    rw [atMostOneReplacing, List.all_eq_true] at h
    have hcount := h l0 h2.1
    rw [if_pos hcond] at hcount
    have hle : slotOpCount L l0.slot l0.op ≤ 1 := of_decide_eq_true hcount
    rw [hprops.1, hprops.2] at hle
    have hlen : (L.filter (fun l => decide (l.slot = s ∧ l.op = op))).length ≤ 1 := hle
    rw [hE] at hlen
    exact hlen

theorem all_map_beta {α β : Type} (xs : List α) (g : α → β)
    (f : β → Bool) :
    (xs.map g).all f = xs.all (fun x => f (g x)) := by
  induction xs with
  | nil => rfl
  | cons y ys ih => simp [ih]

theorem builderSem_foldSPB (E : RegexEngine) (v : Str) (ls : List Leaf)
    (heq1 : (ls.filter (fun l => decide (l.op = LeafOp.eqL))).length ≤ 1)
    (hsw1 : (ls.filter (fun l => decide (l.op = LeafOp.swL))).length ≤ 1)
    (hew1 : (ls.filter (fun l => decide (l.op = LeafOp.ewL))).length ≤ 1) :
    builderSem E
      (ls.foldl (fun b l => insertLeafSPB l.op l.pattern l.cs b)
        StringPredicateBuilder.empty) v
      = ls.all (fun l => leafOpSat E l.op l.pattern l.cs v) := by
  have harm : ∀ (op' : LeafOp) (fl : List Leaf),
      fl = ls.filter (fun l => decide (l.op = op')) → fl.length ≤ 1 →
      (match fl.foldl (fun _ l => Option.some (l.pattern, l.cs))
          Option.none with
       | Option.some pc => leafOpSat E op' pc.1 pc.2 v
       | Option.none => true)
        = fl.all (fun l => leafOpSat E l.op l.pattern l.cs v) := by
    intro op' fl hfl hlen
    cases fl with
    | nil => rfl
    | cons l0 tail =>
      cases tail with
      | cons l1 t2 => simp at hlen
      | nil =>
        have hop0 : l0.op = op' := by
          have hm : l0 ∈ ls.filter (fun l => decide (l.op = op')) := by
            rw [← hfl]
            exact List.mem_cons_self _ _
          exact of_decide_eq_true (List.mem_filter.mp hm).2
        simp [hop0]
  have harm2 : ∀ op' : LeafOp,
      (ls.filter (fun l => decide (l.op = op'))).all
        (fun l => leafOpSat E op' l.pattern l.cs v)
      = (ls.filter (fun l => decide (l.op = op'))).all
        (fun l => leafOpSat E l.op l.pattern l.cs v) := by
    intro op'
    refine all_congr_mem _ _ _ ?_
    intro a ha
    rw [of_decide_eq_true (List.mem_filter.mp ha).2]
  have harm3 :
      (ls.filter (fun l => decide (l.op = LeafOp.matchesL))).all
        (fun l => leafOpSat E LeafOp.matchesL l.pattern true v)
      = (ls.filter (fun l => decide (l.op = LeafOp.matchesL))).all
        (fun l => leafOpSat E l.op l.pattern l.cs v) := by
    refine all_congr_mem _ _ _ ?_
    intro a ha
    rw [of_decide_eq_true (List.mem_filter.mp ha).2]
    rfl
  rw [builderSem, foldSPB_equals, foldSPB_starts_with, foldSPB_ends_with,
    foldSPB_contains, foldSPB_regexes]
  simp only [StringPredicateBuilder.empty, List.nil_append]
  rw [harm LeafOp.eqL _ rfl heq1, harm LeafOp.swL _ rfl hsw1,
    harm LeafOp.ewL _ rfl hew1, all_partition_by_op ls
      (fun l => leafOpSat E l.op l.pattern l.cs v)]
  simp only [all_map_beta]
  rw [← harm2 LeafOp.containsL, ← harm3]

/-! ## Supporting lemmas for C2: the optimizer as a fold over leaves -/

theorem addStringOp_eq_insertLeafSPB (opType : PredicateOperationType)
    (lop : LeafOp) (hop : leafOfOpType opType = Option.some lop)
    (b : StringPredicateBuilder) (pat : Str) (cs : Bool) :
    addStringOp opType b pat cs = insertLeafSPB lop pat cs b := by
  cases opType <;> simp [leafOfOpType] at hop <;> subst hop <;> rfl

theorem processField_eq_insertLeafFPB (E : RegexEngine) (cs : Bool)
    (opType : PredicateOperationType) (lop : LeafOp)
    (hop : leafOfOpType opType = Option.some lop) (value : Json)
    (hv : value.isObjectValue = false) (s : Slot)
    (b : FieldPredicateBuilder) :
    processField E cs Option.none opType value b
      = insertLeafFPB ⟨lop, s, value.asStrOrEmpty, cs⟩ b := by
  simp [processField, hv, insertLeafFPB,
    addStringOp_eq_insertLeafSPB opType lop hop]

theorem mapEntries_fold_query (E : RegexEngine) (cs : Bool)
    (opType : PredicateOperationType) (lop : LeafOp)
    (hop : leafOfOpType opType = Option.some lop)
    (entries : List (Str × Json)) (B : FieldBuilders)
    (h : entries.all (fun kv => !kv.2.isObjectValue) = true) :
    { B with query := (processMapEntries E cs Option.none opType false
        entries B.query) }
      = (entries.filterMap (fun kv =>
          if kv.2.isObjectValue then Option.none
          else Option.some
            (⟨lop, Slot.queryS kv.1, kv.2.asStrOrEmpty, cs⟩ : Leaf))).foldl
          insertLeaf B := by
  induction entries generalizing B with
  | nil => rfl
  | cons kv rest ih =>
    rw [List.all_cons, Bool.and_eq_true] at h
    have hkv : kv.2.isObjectValue = false := by
      cases hx : kv.2.isObjectValue
      · rfl
      · rw [hx] at h
        simp at h
    have hfn : processField E cs Option.none opType kv.2
        = insertLeafFPB ⟨lop, Slot.queryS kv.1, kv.2.asStrOrEmpty, cs⟩ := by
      funext b
      exact processField_eq_insertLeafFPB E cs opType lop hop kv.2 hkv _ b
    have hstep : processMapEntries E cs Option.none opType false
        (kv :: rest) B.query
        = processMapEntries E cs Option.none opType false rest
            (updateEntry kv.1
              (insertLeafFPB ⟨lop, Slot.queryS kv.1, kv.2.asStrOrEmpty, cs⟩)
              B.query) := by
      simp [processMapEntries, hfn]
    have hcons : (kv :: rest).filterMap (fun kv =>
        if kv.2.isObjectValue then Option.none
        else Option.some
          (⟨lop, Slot.queryS kv.1, kv.2.asStrOrEmpty, cs⟩ : Leaf))
        = (⟨lop, Slot.queryS kv.1, kv.2.asStrOrEmpty, cs⟩ : Leaf)
          :: rest.filterMap (fun kv =>
            if kv.2.isObjectValue then Option.none
            else Option.some
              (⟨lop, Slot.queryS kv.1, kv.2.asStrOrEmpty, cs⟩ : Leaf)) := by
      simp [hkv]
    rw [hstep, hcons, List.foldl_cons]
    exact ih (insertLeaf B ⟨lop, Slot.queryS kv.1, kv.2.asStrOrEmpty, cs⟩) h.2

theorem mapEntries_fold_headers (E : RegexEngine) (cs : Bool)
    (opType : PredicateOperationType) (lop : LeafOp)
    (hop : leafOfOpType opType = Option.some lop)
    (entries : List (Str × Json)) (B : FieldBuilders)
    (h : entries.all (fun kv => !kv.2.isObjectValue) = true) :
    { B with headers := (processMapEntries E cs Option.none opType true
        entries B.headers) }
      = (entries.filterMap (fun kv =>
          if kv.2.isObjectValue then Option.none
          else Option.some
            (⟨lop, Slot.headersS (strLowerAscii kv.1),
              kv.2.asStrOrEmpty, cs⟩ : Leaf))).foldl
          insertLeaf B := by
  induction entries generalizing B with
  | nil => rfl
  | cons kv rest ih =>
    rw [List.all_cons, Bool.and_eq_true] at h
    have hkv : kv.2.isObjectValue = false := by
      cases hx : kv.2.isObjectValue
      · rfl
      · rw [hx] at h
        simp at h
    have hfn : processField E cs Option.none opType kv.2
        = insertLeafFPB ⟨lop, Slot.headersS (strLowerAscii kv.1),
            kv.2.asStrOrEmpty, cs⟩ := by
      funext b
      exact processField_eq_insertLeafFPB E cs opType lop hop kv.2 hkv _ b
    have hstep : processMapEntries E cs Option.none opType true
        (kv :: rest) B.headers
        = processMapEntries E cs Option.none opType true rest
            (updateEntry (strLowerAscii kv.1)
              (insertLeafFPB ⟨lop, Slot.headersS (strLowerAscii kv.1),
                kv.2.asStrOrEmpty, cs⟩)
              B.headers) := by
      simp [processMapEntries, hfn]
    have hcons : (kv :: rest).filterMap (fun kv =>
        if kv.2.isObjectValue then Option.none
        else Option.some
          (⟨lop, Slot.headersS (strLowerAscii kv.1),
            kv.2.asStrOrEmpty, cs⟩ : Leaf))
        = (⟨lop, Slot.headersS (strLowerAscii kv.1),
            kv.2.asStrOrEmpty, cs⟩ : Leaf)
          :: rest.filterMap (fun kv =>
            if kv.2.isObjectValue then Option.none
            else Option.some
              (⟨lop, Slot.headersS (strLowerAscii kv.1),
                kv.2.asStrOrEmpty, cs⟩ : Leaf)) := by
      simp [hkv]
    rw [hstep, hcons, List.foldl_cons]
    exact ih (insertLeaf B ⟨lop, Slot.headersS (strLowerAscii kv.1), kv.2.asStrOrEmpty, cs⟩) h.2

theorem mapEntries_fold_form (E : RegexEngine) (cs : Bool)
    (opType : PredicateOperationType) (lop : LeafOp)
    (hop : leafOfOpType opType = Option.some lop)
    (entries : List (Str × Json)) (B : FieldBuilders)
    (h : entries.all (fun kv => !kv.2.isObjectValue) = true) :
    { B with form := (processMapEntries E cs Option.none opType false
        entries B.form) }
      = (entries.filterMap (fun kv =>
          if kv.2.isObjectValue then Option.none
          else Option.some
            (⟨lop, Slot.formS kv.1, kv.2.asStrOrEmpty, cs⟩ : Leaf))).foldl
          insertLeaf B := by
  induction entries generalizing B with
  | nil => rfl
  | cons kv rest ih =>
    rw [List.all_cons, Bool.and_eq_true] at h
    have hkv : kv.2.isObjectValue = false := by
      cases hx : kv.2.isObjectValue
      · rfl
      · rw [hx] at h
        simp at h
    have hfn : processField E cs Option.none opType kv.2
        = insertLeafFPB ⟨lop, Slot.formS kv.1, kv.2.asStrOrEmpty, cs⟩ := by
      funext b
      exact processField_eq_insertLeafFPB E cs opType lop hop kv.2 hkv _ b
    have hstep : processMapEntries E cs Option.none opType false
        (kv :: rest) B.form
        = processMapEntries E cs Option.none opType false rest
            (updateEntry kv.1
              (insertLeafFPB ⟨lop, Slot.formS kv.1, kv.2.asStrOrEmpty, cs⟩)
              B.form) := by
      simp [processMapEntries, hfn]
    have hcons : (kv :: rest).filterMap (fun kv =>
        if kv.2.isObjectValue then Option.none
        else Option.some
          (⟨lop, Slot.formS kv.1, kv.2.asStrOrEmpty, cs⟩ : Leaf))
        = (⟨lop, Slot.formS kv.1, kv.2.asStrOrEmpty, cs⟩ : Leaf)
          :: rest.filterMap (fun kv =>
            if kv.2.isObjectValue then Option.none
            else Option.some
              (⟨lop, Slot.formS kv.1, kv.2.asStrOrEmpty, cs⟩ : Leaf)) := by
      simp [hkv]
    rw [hstep, hcons, List.foldl_cons]
    exact ih (insertLeaf B ⟨lop, Slot.formS kv.1, kv.2.asStrOrEmpty, cs⟩) h.2

theorem processFieldsStep_eq_fold (E : RegexEngine) (cs : Bool)
    (opType : PredicateOperationType) (lop : LeafOp)
    (hop : leafOfOpType opType = Option.some lop) (B : FieldBuilders)
    (fv : Str × Json) (h : fieldClean fv = true) :
    processFieldsStep E cs Option.none opType B fv
      = (fieldLeaves lop cs fv).foldl insertLeaf B := by
  by_cases h1 : fv.1 = fieldMethod
  · have hobj : fv.2.isObjectValue = false := by
      have hsc : isScalarField fv.1 = true := by rw [h1]; decide
      simpa [fieldClean, hsc] using h
    simp [processFieldsStep, fieldMethod, fieldPath, fieldBody, fieldRequestFrom, fieldIp, fieldQuery, fieldHeaders, fieldForm, h1, fieldLeaves, hobj, insertLeaf,
      processField_eq_insertLeafFPB E cs opType lop hop fv.2 hobj
        Slot.methodS]
  by_cases h2 : fv.1 = fieldPath
  · have hobj : fv.2.isObjectValue = false := by
      have hsc : isScalarField fv.1 = true := by rw [h2]; decide
      simpa [fieldClean, hsc] using h
    simp [processFieldsStep, fieldMethod, fieldPath, fieldBody, fieldRequestFrom, fieldIp, fieldQuery, fieldHeaders, fieldForm, h1, h2, fieldLeaves, hobj, insertLeaf,
      processField_eq_insertLeafFPB E cs opType lop hop fv.2 hobj Slot.pathS]
  by_cases h3 : fv.1 = fieldBody
  · have hobj : fv.2.isObjectValue = false := by
      have hsc : isScalarField fv.1 = true := by rw [h3]; decide
      simpa [fieldClean, hsc] using h
    simp [processFieldsStep, fieldMethod, fieldPath, fieldBody, fieldRequestFrom, fieldIp, fieldQuery, fieldHeaders, fieldForm, h1, h2, h3, fieldLeaves, hobj, insertLeaf,
      processField_eq_insertLeafFPB E cs opType lop hop fv.2 hobj Slot.bodyS]
  by_cases h4 : fv.1 = fieldRequestFrom
  · have hobj : fv.2.isObjectValue = false := by
      have hsc : isScalarField fv.1 = true := by rw [h4]; decide
      simpa [fieldClean, hsc] using h
    simp [processFieldsStep, fieldMethod, fieldPath, fieldBody, fieldRequestFrom, fieldIp, fieldQuery, fieldHeaders, fieldForm, h1, h2, h3, h4, fieldLeaves, hobj, insertLeaf,
      processField_eq_insertLeafFPB E cs opType lop hop fv.2 hobj
        Slot.requestFromS]
  by_cases h5 : fv.1 = fieldIp
  · have hobj : fv.2.isObjectValue = false := by
      have hsc : isScalarField fv.1 = true := by rw [h5]; decide
      simpa [fieldClean, hsc] using h
    simp [processFieldsStep, fieldMethod, fieldPath, fieldBody, fieldRequestFrom, fieldIp, fieldQuery, fieldHeaders, fieldForm, h1, h2, h3, h4, h5, fieldLeaves, hobj,
      insertLeaf,
      processField_eq_insertLeafFPB E cs opType lop hop fv.2 hobj Slot.ipS]
  by_cases h6 : fv.1 = fieldQuery
  · have hsc : isScalarField fv.1 = false := by rw [h6]; decide
    have hmp : isMapField fv.1 = true := by rw [h6]; decide
    cases hA : fv.2.asObject with
    | none => simp [processFieldsStep, fieldMethod, fieldPath, fieldBody, fieldRequestFrom, fieldIp, fieldQuery, fieldHeaders, fieldForm, h1, h2, h3, h4, h5, h6, hA,
        fieldLeaves]
    | some obj =>
      have hall : obj.all (fun kv => !kv.2.isObjectValue) = true := by
        simpa [fieldClean, hsc, hmp, hA] using h
      have hmain := mapEntries_fold_query E cs opType lop hop obj B hall
      simp only [processFieldsStep, fieldMethod, fieldPath, fieldBody, fieldRequestFrom, fieldIp, fieldQuery, fieldHeaders, fieldForm, h1, h2, h3, h4, h5, h6, hA,
        fieldLeaves, if_false, if_true, eq_self_iff_true, if_neg, if_pos]
      simpa [fieldMethod, fieldPath, fieldBody, fieldRequestFrom, fieldIp, fieldQuery, fieldHeaders, fieldForm] using hmain
  by_cases h7 : fv.1 = fieldHeaders
  · have hsc : isScalarField fv.1 = false := by rw [h7]; decide
    have hmp : isMapField fv.1 = true := by rw [h7]; decide
    cases hA : fv.2.asObject with
    | none => simp [processFieldsStep, fieldMethod, fieldPath, fieldBody, fieldRequestFrom, fieldIp, fieldQuery, fieldHeaders, fieldForm, h1, h2, h3, h4, h5, h6, h7, hA,
        fieldLeaves]
    | some obj =>
      have hall : obj.all (fun kv => !kv.2.isObjectValue) = true := by
        simpa [fieldClean, hsc, hmp, hA] using h
      have hmain := mapEntries_fold_headers E cs opType lop hop obj B hall
      simp only [processFieldsStep, fieldMethod, fieldPath, fieldBody, fieldRequestFrom, fieldIp, fieldQuery, fieldHeaders, fieldForm, h1, h2, h3, h4, h5, h6, h7, hA,
        fieldLeaves, if_false, if_true, eq_self_iff_true, if_neg, if_pos]
      simpa [fieldMethod, fieldPath, fieldBody, fieldRequestFrom, fieldIp, fieldQuery, fieldHeaders, fieldForm] using hmain
  by_cases h8 : fv.1 = fieldForm
  · have hsc : isScalarField fv.1 = false := by rw [h8]; decide
    have hmp : isMapField fv.1 = true := by rw [h8]; decide
    cases hA : fv.2.asObject with
    | none => simp [processFieldsStep, fieldMethod, fieldPath, fieldBody, fieldRequestFrom, fieldIp, fieldQuery, fieldHeaders, fieldForm, h1, h2, h3, h4, h5, h6, h7, h8, hA,
        fieldLeaves]
    | some obj =>
      have hall : obj.all (fun kv => !kv.2.isObjectValue) = true := by
        simpa [fieldClean, hsc, hmp, hA] using h
      have hmain := mapEntries_fold_form E cs opType lop hop obj B hall
      simp only [processFieldsStep, fieldMethod, fieldPath, fieldBody, fieldRequestFrom, fieldIp, fieldQuery, fieldHeaders, fieldForm, h1, h2, h3, h4, h5, h6, h7, h8, hA,
        fieldLeaves, if_false, if_true, eq_self_iff_true, if_neg, if_pos]
      simpa [fieldMethod, fieldPath, fieldBody, fieldRequestFrom, fieldIp, fieldQuery, fieldHeaders, fieldForm] using hmain
  simp [processFieldsStep, h1, h2, h3, h4, h5, h6, h7, h8, fieldLeaves]

theorem process_fields_eq_fold (E : RegexEngine) (cs : Bool)
    (opType : PredicateOperationType) (lop : LeafOp)
    (hop : leafOfOpType opType = Option.some lop)
    (fields : List (Str × Json)) (B : FieldBuilders)
    (h : fields.all fieldClean = true) :
    process_fields E fields cs Option.none opType B
      = (fields.flatMap (fieldLeaves lop cs)).foldl insertLeaf B := by
  induction fields generalizing B with
  | nil => rfl
  | cons fv rest ih =>
    rw [List.all_cons, Bool.and_eq_true] at h
    have hstep : process_fields E (fv :: rest) cs Option.none opType B
        = process_fields E rest cs Option.none opType
            (processFieldsStep E cs Option.none opType B fv) := by
      simp [process_fields]
    rw [hstep, processFieldsStep_eq_fold E cs opType lop hop B fv h.1,
      ih _ h.2]
    simp [List.foldl_append]


theorem processBoth_eq_foldLeaves (n : Nat) :
    (∀ (E : RegexEngine) (cs : Bool) (op : PredOp) (B : FieldBuilders),
      sizeOf op ≤ n → opClean op = true →
      process_predicate_operation E cs Option.none op B
        = (leavesOfOp cs op).foldl insertLeaf B)
    ∧ (∀ (E : RegexEngine) (cs : Bool) (children : List Predicate)
        (B : FieldBuilders),
      sizeOf children ≤ n → childrenClean children = true →
      processChildren E cs Option.none children B
        = (leavesOfChildren cs children).foldl insertLeaf B) := by
  induction n with
  | zero =>
    constructor
    · intro E cs op B hn hcl
      exfalso
      cases op <;> simp at hn
    · intro E cs children B hn hcl
      exfalso
      cases children <;> simp at hn
  | succ n ih =>
    constructor
    · intro E cs op B hn hcl
      cases op with
      | equalsOp fields =>
        simp only [process_predicate_operation, leavesOfOp]
        exact process_fields_eq_fold E cs PredicateOperationType.Equals
          LeafOp.eqL rfl fields B (by simpa [opClean] using hcl)
      | containsOp fields =>
        simp only [process_predicate_operation, leavesOfOp]
        exact process_fields_eq_fold E cs PredicateOperationType.Contains
          LeafOp.containsL rfl fields B (by simpa [opClean] using hcl)
      | startsWithOp fields =>
        simp only [process_predicate_operation, leavesOfOp]
        exact process_fields_eq_fold E cs PredicateOperationType.StartsWith
          LeafOp.swL rfl fields B (by simpa [opClean] using hcl)
      | endsWithOp fields =>
        simp only [process_predicate_operation, leavesOfOp]
        exact process_fields_eq_fold E cs PredicateOperationType.EndsWith
          LeafOp.ewL rfl fields B (by simpa [opClean] using hcl)
      | matchesOp fields =>
        simp only [process_predicate_operation, leavesOfOp]
        exact process_fields_eq_fold E cs PredicateOperationType.Matches
          LeafOp.matchesL rfl fields B (by simpa [opClean] using hcl)
      | andOp children =>
        simp only [process_predicate_operation, leavesOfOp]
        refine ih.2 E cs children B ?_ (by simpa [opClean] using hcl)
        simp at hn
        omega
      | orOp children => exact absurd hcl (by simp [opClean])
      | notOp inner => exact absurd hcl (by simp [opClean])
      | deepEqualsOp fields => exact absurd hcl (by simp [opClean])
      | existsOp fields => exact absurd hcl (by simp [opClean])
    · intro E cs children B hn hcl
      cases children with
      | nil => rfl
      | cons p rest =>
        obtain ⟨ccs, cexc, cop⟩ := p
        simp only [childrenClean, predClean, Bool.and_eq_true] at hcl
        obtain ⟨⟨hexc, hopc⟩, hrest⟩ := hcl
        have hres : resolveExcept cexc Option.none = Option.none := by
          simp [resolveExcept, hexc]
        simp only [processChildren, processChild, leavesOfChildren,
          leavesOfPred, hres, List.foldl_append]
        have hszc : sizeOf cop ≤ n := by
          simp at hn
          omega
        have hszr : sizeOf rest ≤ n := by
          simp at hn
          omega
        rw [ih.1 E (ccs.getD cs) cop B hszc hopc,
          ih.2 E cs rest _ hszr hrest]

theorem processOp_eq_foldLeaves (E : RegexEngine) (cs : Bool) (op : PredOp)
    (B : FieldBuilders) (h : opClean op = true) :
    process_predicate_operation E cs Option.none op B
      = (leavesOfOp cs op).foldl insertLeaf B :=
  (processBoth_eq_foldLeaves (sizeOf op)).1 E cs op B (Nat.le_refl _) h

theorem processChildren_eq_foldLeaves (E : RegexEngine) (cs : Bool)
    (children : List Predicate) (B : FieldBuilders)
    (h : childrenClean children = true) :
    processChildren E cs Option.none children B
      = (leavesOfChildren cs children).foldl insertLeaf B :=
  (processBoth_eq_foldLeaves (sizeOf children)).2 E cs children B
    (Nat.le_refl _) h

theorem processList_eq_foldLeaves (E : RegexEngine) (ps : List Predicate)
    (B : FieldBuilders) (h : predsClean ps = true) :
    ps.foldl (fun B p =>
      process_predicate_operation E (p.caseSensitive.getD false)
        (if p.exceptStr.isEmpty then Option.none
         else Option.some p.exceptStr) p.op B) B
      = (leavesOfList ps).foldl insertLeaf B := by
  induction ps generalizing B with
  | nil => rfl
  | cons p rest ih =>
    simp only [predsClean, List.all_cons, Bool.and_eq_true] at h
    obtain ⟨⟨hexc, hopc⟩, hrest⟩ := h
    have hrest' : predsClean rest = true := by
      simp only [predsClean]
      exact hrest
    simp only [List.foldl_cons]
    rw [show (if p.exceptStr.isEmpty then Option.none
        else Option.some p.exceptStr) = (Option.none : Option Str) from by
      simp [hexc]]
    rw [processOp_eq_foldLeaves E (p.caseSensitive.getD false) p.op B hopc,
      ih _ hrest']
    simp only [leavesOfList, List.flatMap_cons, List.foldl_append]

/-! ## Supporting lemmas for C2: the naive evaluator as a leaf
conjunction -/

theorem naiveMap_eq_leaves (E : RegexEngine) (req : RequestContext)
    (op : LeafOp) (cs : Bool) (mk : Str → Slot) (lowerName : Bool)
    (obj : List (Str × Json))
    (hall : obj.all (fun kv => !kv.2.isObjectValue) = true) :
    obj.all (fun kv =>
      if kv.2.isObjectValue then false
      else
        match slotValue req
            (mk (if lowerName then strLowerAscii kv.1 else kv.1)) with
        | Option.some v => leafOpSat E op kv.2.asStrOrEmpty cs v
        | Option.none => false)
      = (obj.filterMap (fun kv =>
          if kv.2.isObjectValue then Option.none
          else Option.some
            (⟨op, mk (if lowerName then strLowerAscii kv.1 else kv.1),
              kv.2.asStrOrEmpty, cs⟩ : Leaf))).all (leafSat E req) := by
  induction obj with
  | nil => rfl
  | cons kv rest ih =>
    rw [List.all_cons, Bool.and_eq_true] at hall
    have hkv : kv.2.isObjectValue = false := by
      cases hx : kv.2.isObjectValue
      · rfl
      · rw [hx] at hall
        simp at hall
    rw [List.all_cons, ih hall.2]
    simp [List.filterMap_cons, hkv, leafSat]

theorem naiveFieldSat_eq_leaves (E : RegexEngine) (req : RequestContext)
    (op : LeafOp) (cs : Bool) (fv : Str × Json)
    (h : fieldClean fv = true) :
    naiveFieldSat E req op cs fv
      = (fieldLeaves op cs fv).all (leafSat E req) := by
  by_cases h1 : fv.1 = fieldMethod
  · have hobj : fv.2.isObjectValue = false := by
      have hsc : isScalarField fv.1 = true := by rw [h1]; decide
      simpa [fieldClean, hsc] using h
    simp [naiveFieldSat, fieldMethod, fieldPath, fieldBody, fieldRequestFrom,
      fieldIp, fieldQuery, fieldHeaders, fieldForm, h1, fieldLeaves, hobj,
      naiveScalarFieldSat, leafSat]
  by_cases h2 : fv.1 = fieldPath
  · have hobj : fv.2.isObjectValue = false := by
      have hsc : isScalarField fv.1 = true := by rw [h2]; decide
      simpa [fieldClean, hsc] using h
    simp [naiveFieldSat, fieldMethod, fieldPath, fieldBody, fieldRequestFrom,
      fieldIp, fieldQuery, fieldHeaders, fieldForm, h1, h2, fieldLeaves,
      hobj, naiveScalarFieldSat, leafSat]
  by_cases h3 : fv.1 = fieldBody
  · have hobj : fv.2.isObjectValue = false := by
      have hsc : isScalarField fv.1 = true := by rw [h3]; decide
      simpa [fieldClean, hsc] using h
    simp [naiveFieldSat, fieldMethod, fieldPath, fieldBody, fieldRequestFrom,
      fieldIp, fieldQuery, fieldHeaders, fieldForm, h1, h2, h3, fieldLeaves,
      hobj, naiveScalarFieldSat, leafSat]
  by_cases h4 : fv.1 = fieldRequestFrom
  · have hobj : fv.2.isObjectValue = false := by
      have hsc : isScalarField fv.1 = true := by rw [h4]; decide
      simpa [fieldClean, hsc] using h
    simp [naiveFieldSat, fieldMethod, fieldPath, fieldBody, fieldRequestFrom,
      fieldIp, fieldQuery, fieldHeaders, fieldForm, h1, h2, h3, h4,
      fieldLeaves, hobj, naiveScalarFieldSat, leafSat]
  by_cases h5 : fv.1 = fieldIp
  · have hobj : fv.2.isObjectValue = false := by
      have hsc : isScalarField fv.1 = true := by rw [h5]; decide
      simpa [fieldClean, hsc] using h
    simp [naiveFieldSat, fieldMethod, fieldPath, fieldBody, fieldRequestFrom,
      fieldIp, fieldQuery, fieldHeaders, fieldForm, h1, h2, h3, h4, h5,
      fieldLeaves, hobj, naiveScalarFieldSat, leafSat]
  by_cases h6 : fv.1 = fieldQuery
  · have hsc : isScalarField fv.1 = false := by rw [h6]; decide
    have hmp : isMapField fv.1 = true := by rw [h6]; decide
    cases hA : fv.2.asObject with
    | none => simp [naiveFieldSat, fieldMethod, fieldPath, fieldBody, fieldRequestFrom, fieldIp, fieldQuery, fieldHeaders, fieldForm, h1, h2, h3, h4, h5, h6, hA, fieldLeaves,
        naiveMapFieldSat]
    | some obj =>
      have hall : obj.all (fun kv => !kv.2.isObjectValue) = true := by
        simpa [fieldClean, hsc, hmp, hA] using h
      have hmain := naiveMap_eq_leaves E req op cs Slot.queryS false obj hall
      simp only [naiveFieldSat, fieldMethod, fieldPath, fieldBody,
        fieldRequestFrom, fieldIp, fieldQuery, fieldHeaders, fieldForm,
        h1, h2, h3, h4, h5, h6, hA, fieldLeaves, naiveMapFieldSat]
      simpa [fieldMethod, fieldPath, fieldBody, fieldRequestFrom, fieldIp,
        fieldQuery, fieldHeaders, fieldForm] using hmain
  by_cases h7 : fv.1 = fieldHeaders
  · have hsc : isScalarField fv.1 = false := by rw [h7]; decide
    have hmp : isMapField fv.1 = true := by rw [h7]; decide
    cases hA : fv.2.asObject with
    | none => simp [naiveFieldSat, fieldMethod, fieldPath, fieldBody, fieldRequestFrom, fieldIp, fieldQuery, fieldHeaders, fieldForm, h1, h2, h3, h4, h5, h6, h7, hA,
        fieldLeaves, naiveMapFieldSat]
    | some obj =>
      have hall : obj.all (fun kv => !kv.2.isObjectValue) = true := by
        simpa [fieldClean, hsc, hmp, hA] using h
      have hmain := naiveMap_eq_leaves E req op cs Slot.headersS true obj hall
      simp only [naiveFieldSat, fieldMethod, fieldPath, fieldBody,
        fieldRequestFrom, fieldIp, fieldQuery, fieldHeaders, fieldForm,
        h1, h2, h3, h4, h5, h6, h7, hA, fieldLeaves, naiveMapFieldSat]
      simpa [fieldMethod, fieldPath, fieldBody, fieldRequestFrom, fieldIp,
        fieldQuery, fieldHeaders, fieldForm] using hmain
  by_cases h8 : fv.1 = fieldForm
  · have hsc : isScalarField fv.1 = false := by rw [h8]; decide
    have hmp : isMapField fv.1 = true := by rw [h8]; decide
    cases hA : fv.2.asObject with
    | none => simp [naiveFieldSat, fieldMethod, fieldPath, fieldBody, fieldRequestFrom, fieldIp, fieldQuery, fieldHeaders, fieldForm, h1, h2, h3, h4, h5, h6, h7, h8, hA,
        fieldLeaves, naiveMapFieldSat]
    | some obj =>
      have hall : obj.all (fun kv => !kv.2.isObjectValue) = true := by
        simpa [fieldClean, hsc, hmp, hA] using h
      have hmain := naiveMap_eq_leaves E req op cs Slot.formS false obj hall
      simp only [naiveFieldSat, fieldMethod, fieldPath, fieldBody,
        fieldRequestFrom, fieldIp, fieldQuery, fieldHeaders, fieldForm,
        h1, h2, h3, h4, h5, h6, h7, h8, hA, fieldLeaves, naiveMapFieldSat]
      simpa [fieldMethod, fieldPath, fieldBody, fieldRequestFrom, fieldIp,
        fieldQuery, fieldHeaders, fieldForm] using hmain
  simp [naiveFieldSat, h1, h2, h3, h4, h5, h6, h7, h8, fieldLeaves]

theorem naiveBoth_eq_leaves (n : Nat) :
    (∀ (E : RegexEngine) (req : RequestContext) (cs : Bool) (op : PredOp),
      sizeOf op ≤ n → opClean op = true →
      naiveOpMatches E req cs op = (leavesOfOp cs op).all (leafSat E req))
    ∧ (∀ (E : RegexEngine) (req : RequestContext) (cs : Bool)
        (children : List Predicate),
      sizeOf children ≤ n → childrenClean children = true →
      naiveChildrenAll E req cs children
        = (leavesOfChildren cs children).all (leafSat E req)) := by
  induction n with
  | zero =>
    constructor
    · intro E req cs op hn hcl
      exfalso
      cases op <;> simp at hn
    · intro E req cs children hn hcl
      exfalso
      cases children <;> simp at hn
  | succ n ih =>
    constructor
    · intro E req cs op hn hcl
      cases op with
      | equalsOp fields =>
        simp only [naiveOpMatches, leavesOfOp, all_flatMap]
        refine all_congr_mem _ _ _ ?_
        intro fv hfv
        exact naiveFieldSat_eq_leaves E req LeafOp.eqL cs fv
          (List.all_eq_true.mp (by simpa [opClean] using hcl) fv hfv)
      | containsOp fields =>
        simp only [naiveOpMatches, leavesOfOp, all_flatMap]
        refine all_congr_mem _ _ _ ?_
        intro fv hfv
        exact naiveFieldSat_eq_leaves E req LeafOp.containsL cs fv
          (List.all_eq_true.mp (by simpa [opClean] using hcl) fv hfv)
      | startsWithOp fields =>
        simp only [naiveOpMatches, leavesOfOp, all_flatMap]
        refine all_congr_mem _ _ _ ?_
        intro fv hfv
        exact naiveFieldSat_eq_leaves E req LeafOp.swL cs fv
          (List.all_eq_true.mp (by simpa [opClean] using hcl) fv hfv)
      | endsWithOp fields =>
        simp only [naiveOpMatches, leavesOfOp, all_flatMap]
        refine all_congr_mem _ _ _ ?_
        intro fv hfv
        exact naiveFieldSat_eq_leaves E req LeafOp.ewL cs fv
          (List.all_eq_true.mp (by simpa [opClean] using hcl) fv hfv)
      | matchesOp fields =>
        simp only [naiveOpMatches, leavesOfOp, all_flatMap]
        refine all_congr_mem _ _ _ ?_
        intro fv hfv
        exact naiveFieldSat_eq_leaves E req LeafOp.matchesL cs fv
          (List.all_eq_true.mp (by simpa [opClean] using hcl) fv hfv)
      | andOp children =>
        simp only [naiveOpMatches, leavesOfOp]
        refine ih.2 E req cs children ?_ (by simpa [opClean] using hcl)
        simp at hn
        omega
      | orOp children => exact absurd hcl (by simp [opClean])
      | notOp inner => exact absurd hcl (by simp [opClean])
      | deepEqualsOp fields => exact absurd hcl (by simp [opClean])
      | existsOp fields => exact absurd hcl (by simp [opClean])
    · intro E req cs children hn hcl
      cases children with
      | nil => rfl
      | cons p rest =>
        obtain ⟨ccs, cexc, cop⟩ := p
        simp only [childrenClean, predClean, Bool.and_eq_true] at hcl
        obtain ⟨⟨hexc, hopc⟩, hrest⟩ := hcl
        have hszc : sizeOf cop ≤ n := by
          simp at hn
          omega
        have hszr : sizeOf rest ≤ n := by
          simp at hn
          omega
        simp only [naiveChildrenAll, naivePredMatches, leavesOfChildren,
          leavesOfPred, List.all_append]
        rw [ih.1 E req (ccs.getD cs) cop hszc hopc,
          ih.2 E req cs rest hszr hrest]

theorem naiveOp_eq_leaves (E : RegexEngine) (req : RequestContext)
    (cs : Bool) (op : PredOp) (h : opClean op = true) :
    naiveOpMatches E req cs op = (leavesOfOp cs op).all (leafSat E req) :=
  (naiveBoth_eq_leaves (sizeOf op)).1 E req cs op (Nat.le_refl _) h

theorem naiveMatches_eq_leaves (E : RegexEngine) (ps : List Predicate)
    (req : RequestContext) (h : predsClean ps = true) :
    naiveMatches E ps req = (leavesOfList ps).all (leafSat E req) := by
  simp only [naiveMatches, leavesOfList, all_flatMap]
  refine all_congr_mem _ _ _ ?_
  intro p hp
  have h' : ps.all (fun p => p.exceptStr.isEmpty && opClean p.op) = true := h
  have hc := List.all_eq_true.mp h' p hp
  rw [Bool.and_eq_true] at hc
  exact naiveOp_eq_leaves E req (p.caseSensitive.getD false) p.op hc.2

/-! ## Supporting lemmas for C2: the optimized tree as a leaf
conjunction -/

theorem bool_eq_of_iff {x y : Bool} (h : x = true ↔ y = true) : x = y := by
  cases x with
  | true => exact (h.mp rfl).symm
  | false =>
    cases y with
    | true => exact absurd (h.mpr rfl) (by simp)
    | false => rfl

theorem all_partition_by_slot (L : List Leaf) (f : Leaf → Bool) :
    L.all f
      = ((L.filter (fun l => decide (l.slot = Slot.methodS))).all f
        && (L.filter (fun l => decide (l.slot = Slot.pathS))).all f
        && (L.filter (fun l => decide (l.slot = Slot.bodyS))).all f
        && (L.filter (fun l => decide (l.slot = Slot.requestFromS))).all f
        && (L.filter (fun l => decide (l.slot = Slot.ipS))).all f
        && (L.filter (fun l => (Slot.queryName l.slot).isSome)).all f
        && (L.filter (fun l => (Slot.headersName l.slot).isSome)).all f
        && (L.filter (fun l => (Slot.formName l.slot).isSome)).all f) := by
  refine bool_eq_of_iff ?_
  simp only [Bool.and_eq_true, List.all_eq_true]
  constructor
  · intro H
    refine ⟨⟨⟨⟨⟨⟨⟨?_, ?_⟩, ?_⟩, ?_⟩, ?_⟩, ?_⟩, ?_⟩, ?_⟩ <;>
      (intro l hl; exact H l (List.mem_filter.mp hl).1)
  · intro H l hl
    obtain ⟨⟨⟨⟨⟨⟨⟨H1, H2⟩, H3⟩, H4⟩, H5⟩, H6⟩, H7⟩, H8⟩ := H
    cases hsl : l.slot with
    | methodS => exact H1 l (List.mem_filter.mpr ⟨hl, by simp [hsl]⟩)
    | pathS => exact H2 l (List.mem_filter.mpr ⟨hl, by simp [hsl]⟩)
    | bodyS => exact H3 l (List.mem_filter.mpr ⟨hl, by simp [hsl]⟩)
    | requestFromS => exact H4 l (List.mem_filter.mpr ⟨hl, by simp [hsl]⟩)
    | ipS => exact H5 l (List.mem_filter.mpr ⟨hl, by simp [hsl]⟩)
    | queryS n =>
      exact H6 l (List.mem_filter.mpr ⟨hl, by simp [hsl, Slot.queryName]⟩)
    | headersS n =>
      exact H7 l (List.mem_filter.mpr ⟨hl, by simp [hsl, Slot.headersName]⟩)
    | formS n =>
      exact H8 l (List.mem_filter.mpr ⟨hl, by simp [hsl, Slot.formName]⟩)

theorem queryAll_group (L : List Leaf) (keys : List Str) (f : Leaf → Bool)
    (hpres : ∀ l ∈ L, ∀ n, l.slot = Slot.queryS n → n ∈ keys) :
    keys.all (fun n =>
        (L.filter (fun l => decide (l.slot = Slot.queryS n))).all f)
      = (L.filter (fun l => (Slot.queryName l.slot).isSome)).all f := by
  refine bool_eq_of_iff ?_
  simp only [List.all_eq_true]
  constructor
  · intro H l hl
    have h2 := List.mem_filter.mp hl
    cases hcn : Slot.queryName l.slot with
    | none => rw [hcn] at h2; simp at h2
    | some n =>
      have hslot : l.slot = Slot.queryS n := by
        cases hls : l.slot <;> rw [hls] at hcn <;>
          simp [Slot.queryName] at hcn
        rw [hcn]
      exact H n (hpres l h2.1 n hslot) l
        (List.mem_filter.mpr ⟨h2.1, by simp [hslot]⟩)
  · intro H n _ l hl
    have h2 := List.mem_filter.mp hl
    have hslot : l.slot = Slot.queryS n := of_decide_eq_true h2.2
    exact H l (List.mem_filter.mpr ⟨h2.1, by simp [hslot, Slot.queryName]⟩)

theorem headersAll_group (L : List Leaf) (keys : List Str) (f : Leaf → Bool)
    (hpres : ∀ l ∈ L, ∀ n, l.slot = Slot.headersS n → n ∈ keys) :
    keys.all (fun n =>
        (L.filter (fun l => decide (l.slot = Slot.headersS n))).all f)
      = (L.filter (fun l => (Slot.headersName l.slot).isSome)).all f := by
  refine bool_eq_of_iff ?_
  simp only [List.all_eq_true]
  constructor
  · intro H l hl
    have h2 := List.mem_filter.mp hl
    cases hcn : Slot.headersName l.slot with
    | none => rw [hcn] at h2; simp at h2
    | some n =>
      have hslot : l.slot = Slot.headersS n := by
        cases hls : l.slot <;> rw [hls] at hcn <;>
          simp [Slot.headersName] at hcn
        rw [hcn]
      exact H n (hpres l h2.1 n hslot) l
        (List.mem_filter.mpr ⟨h2.1, by simp [hslot]⟩)
  · intro H n _ l hl
    have h2 := List.mem_filter.mp hl
    have hslot : l.slot = Slot.headersS n := of_decide_eq_true h2.2
    exact H l (List.mem_filter.mpr ⟨h2.1, by simp [hslot, Slot.headersName]⟩)

theorem formAll_group (L : List Leaf) (keys : List Str) (f : Leaf → Bool)
    (hpres : ∀ l ∈ L, ∀ n, l.slot = Slot.formS n → n ∈ keys) :
    keys.all (fun n =>
        (L.filter (fun l => decide (l.slot = Slot.formS n))).all f)
      = (L.filter (fun l => (Slot.formName l.slot).isSome)).all f := by
  refine bool_eq_of_iff ?_
  simp only [List.all_eq_true]
  constructor
  · intro H l hl
    have h2 := List.mem_filter.mp hl
    cases hcn : Slot.formName l.slot with
    | none => rw [hcn] at h2; simp at h2
    | some n =>
      have hslot : l.slot = Slot.formS n := by
        cases hls : l.slot <;> rw [hls] at hcn <;>
          simp [Slot.formName] at hcn
        rw [hcn]
      exact H n (hpres l h2.1 n hslot) l
        (List.mem_filter.mpr ⟨h2.1, by simp [hslot]⟩)
  · intro H n _ l hl
    have h2 := List.mem_filter.mp hl
    have hslot : l.slot = Slot.formS n := of_decide_eq_true h2.2
    exact H l (List.mem_filter.mpr ⟨h2.1, by simp [hslot, Slot.formName]⟩)

theorem buildMapField_all (E : RegexEngine)
    (m : List (Str × FieldPredicateBuilder))
    (P : Str × List FieldPredicate → Bool) :
    (buildMapField E m).all P
      = m.all (fun kv =>
          if kv.2.is_empty then true else P (kv.1, [kv.2.build E])) := by
  induction m with
  | nil => rfl
  | cons kv rest ih =>
    simp only [buildMapField] at ih ⊢
    cases hie : kv.2.is_empty <;> simp [hie, ih]

theorem slotCore_eq_leaves (E : RegexEngine) (req : RequestContext)
    (L : List Leaf) (s : Slot)
    (hone : atMostOneReplacing L = true)
    (hcompiles : ∀ l ∈ L, l.op = LeafOp.matchesL →
      E.compiles l.pattern = true)
    (hciC : ∀ m : Str, E.compiles (ciContainsPattern m) = true)
    (hciM : ∀ m w : Str, E.rmatch (ciContainsPattern m) w
      = containsIgnoreAsciiCase m w) :
    (if (builderAtSlot (L.foldl insertLeaf FieldBuilders.empty) s).is_empty
     then true
     else requireEntry E (slotValue req s)
       [(builderAtSlot (L.foldl insertLeaf FieldBuilders.empty) s).build E])
      = (L.filter (fun l => decide (l.slot = s))).all (leafSat E req) := by
  rw [builderAtSlot_foldl, builderAtSlot_empty]
  have hsub : ∀ l ∈ L.filter (fun l => decide (l.slot = s)),
      l ∈ L ∧ l.slot = s := by
    intro l hl
    have h2 := List.mem_filter.mp hl
    exact ⟨h2.1, of_decide_eq_true h2.2⟩
  cases hE : ((L.filter (fun l => decide (l.slot = s))).foldl
      (fun fb l => insertLeafFPB l fb) FieldPredicateBuilder.empty).is_empty with
  | true =>
    have hnil : L.filter (fun l => decide (l.slot = s)) = [] :=
      (foldFPB_is_empty_iff _).mp hE
    simp [hE, hnil]
  | false =>
    rw [if_neg (by simp [hE])]
    have hsp : FieldPredicateBuilder.empty.string_pred
        = StringPredicateBuilder.empty := rfl
    have hobj : ((L.filter (fun l => decide (l.slot = s))).foldl
        (fun fb l => insertLeafFPB l fb)
        FieldPredicateBuilder.empty).object_pred = Option.none := by
      rw [foldFPB_object_pred]
      rfl
    have hexc : ((L.filter (fun l => decide (l.slot = s))).foldl
        (fun fb l => insertLeafFPB l fb)
        FieldPredicateBuilder.empty).except_pattern = Option.none := by
      rw [foldFPB_except_pattern]
      rfl
    have hregs : ((L.filter (fun l => decide (l.slot = s))).foldl
        (fun fb l => insertLeafFPB l fb)
        FieldPredicateBuilder.empty).string_pred.regexes.all E.compiles
        = true := by
      rw [foldFPB_string_pred, hsp, foldSPB_regexes]
      rw [show StringPredicateBuilder.empty.regexes = ([] : List Str)
        from rfl, List.nil_append, List.all_eq_true]
      intro p hp
      obtain ⟨l, hl, rfl⟩ := List.mem_map.mp hp
      have hlf := List.mem_filter.mp hl
      exact hcompiles l (hsub l hlf.1).1 (of_decide_eq_true hlf.2)
    have hne : L.filter (fun l => decide (l.slot = s)) ≠ [] := by
      intro h0
      rw [(foldFPB_is_empty_iff _).mpr h0] at hE
      exact absurd hE (by decide)
    cases hsv : slotValue req s with
    | none =>
      cases hF : L.filter (fun l => decide (l.slot = s)) with
      | nil => exact absurd hF hne
      | cons l0 tail =>
        have hl0 := hsub l0 (by rw [hF]; exact List.mem_cons_self _ _)
        simp [List.all_cons, leafSat, hl0.2, hsv, requireEntry]
    | some v =>
      simp only [requireEntry, List.all_cons, List.all_nil, Bool.and_true]
      rw [fpbBuild_matchesB_eq_builderSem E _ v hobj hexc hregs hciC hciM,
        foldFPB_string_pred, hsp,
        builderSem_foldSPB E v _
          (replacing_bound L hone s LeafOp.eqL (Or.inl rfl))
          (replacing_bound L hone s LeafOp.swL (Or.inr (Or.inl rfl)))
          (replacing_bound L hone s LeafOp.ewL (Or.inr (Or.inr rfl)))]
      refine all_congr_mem _ _ _ ?_
      intro l hl
      simp [leafSat, (hsub l hl).2, hsv]

theorem buildScalarField_conj (E : RegexEngine) (req : RequestContext)
    (L : List Leaf) (s : Slot) (val : Str)
    (hval : slotValue req s = Option.some val)
    (hone : atMostOneReplacing L = true)
    (hcompiles : ∀ l ∈ L, l.op = LeafOp.matchesL →
      E.compiles l.pattern = true)
    (hciC : ∀ m : Str, E.compiles (ciContainsPattern m) = true)
    (hciM : ∀ m w : Str, E.rmatch (ciContainsPattern m) w
      = containsIgnoreAsciiCase m w) :
    (buildScalarField E
        (builderAtSlot (L.foldl insertLeaf FieldBuilders.empty) s)).all
      (fun p => p.matchesB E val)
      = (L.filter (fun l => decide (l.slot = s))).all (leafSat E req) := by
  rw [← slotCore_eq_leaves E req L s hone hcompiles hciC hciM, hval]
  cases hE : (builderAtSlot (L.foldl insertLeaf
      FieldBuilders.empty) s).is_empty with
  | true => simp [buildScalarField, hE]
  | false => simp [buildScalarField, hE, requireEntry]

/-- C2, counterexample to the unrestricted claim: two `equals` predicates
on `method` (`"GET"` and `"POST"`, case-sensitive) use only operators the
optimizer handles, yet the optimizer's `equals` bucket keeps only the
last pattern (`add_equals` replaces), so the optimized tree accepts a
`POST` request while the naive per-predicate loop rejects it (the first
predicate fails). -/
theorem C2_counterexample_second_equals_overwrites :
    (optimize_predicates refEngine
      [Predicate.mk (Option.some true) []
        (PredOp.equalsOp [(fieldMethod, Json.str [71, 69, 84])]),
       Predicate.mk (Option.some true) []
        (PredOp.equalsOp [(fieldMethod, Json.str [80, 79, 83, 84])])]).matchesB
      refEngine
      ⟨[80, 79, 83, 84], [47], [], [], Option.none, Option.none,
        Option.none, Option.none⟩ = true ∧
    naiveMatches refEngine
      [Predicate.mk (Option.some true) []
        (PredOp.equalsOp [(fieldMethod, Json.str [71, 69, 84])]),
       Predicate.mk (Option.some true) []
        (PredOp.equalsOp [(fieldMethod, Json.str [80, 79, 83, 84])])]
      ⟨[80, 79, 83, 84], [47], [], [], Option.none, Option.none,
        Option.none, Option.none⟩ = false := by
  decide

/-- C2, amended: on the fragment the optimizer actually refines — only
`equals` / `contains` / `startsWith` / `endsWith` / `matches` and
`and`-composition, string-valued leaves, no `except` parameters — and
with no field slot receiving more than one `equals`, `startsWith` or
`endsWith` constraint (the builder keeps only the last of each), with
every explicit `matches` pattern compiling, and on an engine whose
inline-`(?i)` escaped-literal patterns accept exactly
ASCII-case-insensitive containment, the optimized per-field tree of
`optimize_predicates` matches a request exactly when the naive
per-predicate loop (each predicate evaluated individually under the
reference leaf semantics, `case_sensitive` defaulting to false) accepts
it. -/
theorem C2_optimized_tree_equals_naive_loop_on_clean_fragment
    (E : RegexEngine) (ps : List Predicate) (req : RequestContext)
    (hclean : predsClean ps = true)
    (hone : atMostOneReplacing (leavesOfList ps) = true)
    (hcompiles : ∀ l ∈ leavesOfList ps, l.op = LeafOp.matchesL →
      E.compiles l.pattern = true)
    (hciC : ∀ m : Str, E.compiles (ciContainsPattern m) = true)
    (hciM : ∀ m w : Str, E.rmatch (ciContainsPattern m) w
      = containsIgnoreAsciiCase m w) :
    (optimize_predicates E ps).matchesB E req = naiveMatches E ps req := by
  rw [naiveMatches_eq_leaves E ps req hclean]
  have hBL := processList_eq_foldLeaves E ps FieldBuilders.empty hclean
  simp only [optimize_predicates, OptimizedPredicates.matchesB]
  rw [hBL]
  have hm : (buildScalarField E
      ((leavesOfList ps).foldl insertLeaf FieldBuilders.empty).method).all
      (fun p => p.matchesB E req.method)
      = ((leavesOfList ps).filter
          (fun l => decide (l.slot = Slot.methodS))).all (leafSat E req) :=
    buildScalarField_conj E req (leavesOfList ps) Slot.methodS req.method
      rfl hone hcompiles hciC hciM
  have hp : (buildScalarField E
      ((leavesOfList ps).foldl insertLeaf FieldBuilders.empty).path).all
      (fun p => p.matchesB E req.path)
      = ((leavesOfList ps).filter
          (fun l => decide (l.slot = Slot.pathS))).all (leafSat E req) :=
    buildScalarField_conj E req (leavesOfList ps) Slot.pathS req.path
      rfl hone hcompiles hciC hciM
  have hb : (buildScalarField E
      ((leavesOfList ps).foldl insertLeaf FieldBuilders.empty).body).all
      (fun p => p.matchesB E (req.body.getD []))
      = ((leavesOfList ps).filter
          (fun l => decide (l.slot = Slot.bodyS))).all (leafSat E req) :=
    buildScalarField_conj E req (leavesOfList ps) Slot.bodyS
      (req.body.getD []) rfl hone hcompiles hciC hciM
  have hrf : (buildScalarField E
      ((leavesOfList ps).foldl insertLeaf
        FieldBuilders.empty).request_from).all
      (fun p => p.matchesB E (req.request_from.getD []))
      = ((leavesOfList ps).filter
          (fun l => decide (l.slot = Slot.requestFromS))).all
          (leafSat E req) :=
    buildScalarField_conj E req (leavesOfList ps) Slot.requestFromS
      (req.request_from.getD []) rfl hone hcompiles hciC hciM
  have hip : (buildScalarField E
      ((leavesOfList ps).foldl insertLeaf FieldBuilders.empty).ip).all
      (fun p => p.matchesB E (req.client_ip.getD []))
      = ((leavesOfList ps).filter
          (fun l => decide (l.slot = Slot.ipS))).all (leafSat E req) :=
    buildScalarField_conj E req (leavesOfList ps) Slot.ipS
      (req.client_ip.getD []) rfl hone hcompiles hciC hciM
  have hnodupq : ((((leavesOfList ps).foldl insertLeaf
      FieldBuilders.empty).query).map Prod.fst).Nodup :=
    query_keys_nodup_foldl _ FieldBuilders.empty (by simp [FieldBuilders.empty])
  have hnoduph : ((((leavesOfList ps).foldl insertLeaf
      FieldBuilders.empty).headers).map Prod.fst).Nodup :=
    headers_keys_nodup_foldl _ FieldBuilders.empty
      (by simp [FieldBuilders.empty])
  have hnodupf : ((((leavesOfList ps).foldl insertLeaf
      FieldBuilders.empty).form).map Prod.fst).Nodup :=
    form_keys_nodup_foldl _ FieldBuilders.empty (by simp [FieldBuilders.empty])
  have hq : (buildMapField E
      (((leavesOfList ps).foldl insertLeaf FieldBuilders.empty).query)).all
      (fun nps => requireEntry E (lookupStr nps.1 req.query) nps.2)
      = ((leavesOfList ps).filter
          (fun l => (Slot.queryName l.slot).isSome)).all (leafSat E req) := by
    rw [buildMapField_all]
    have hstep := all_congr_mem
      (((leavesOfList ps).foldl insertLeaf FieldBuilders.empty).query)
      (fun kv => if kv.2.is_empty then true
        else requireEntry E (lookupStr kv.1 req.query) [kv.2.build E])
      (fun kv => ((leavesOfList ps).filter
        (fun l => decide (l.slot = Slot.queryS kv.1))).all (leafSat E req))
      (by
        intro kv hkv
        have hlk := lookupFPB_eq_some_of_mem_nodup kv.1 kv.2 _ hnodupq hkv
        have hcore := slotCore_eq_leaves E req (leavesOfList ps)
          (Slot.queryS kv.1) hone hcompiles hciC hciM
        rw [show builderAtSlot ((leavesOfList ps).foldl insertLeaf
            FieldBuilders.empty) (Slot.queryS kv.1) = kv.2 from by
          simp [builderAtSlot, hlk]] at hcore
        exact hcore)
    rw [hstep, ← all_map_beta
      (((leavesOfList ps).foldl insertLeaf FieldBuilders.empty).query)
      Prod.fst
      (fun n => ((leavesOfList ps).filter
        (fun l => decide (l.slot = Slot.queryS n))).all (leafSat E req))]
    refine queryAll_group (leavesOfList ps) _ (leafSat E req) ?_
    intro l hl n hslot
    have hsome := (query_isSome_foldl (leavesOfList ps)
      FieldBuilders.empty n).mpr (Or.inr ⟨l, hl, hslot⟩)
    by_contra hmem
    rw [(lookupFPB_none_iff_not_mem_keys n _).mpr hmem] at hsome
    simp at hsome
  have hh : (buildMapField E
      (((leavesOfList ps).foldl insertLeaf FieldBuilders.empty).headers)).all
      (fun nps => requireEntry E (lookupStr nps.1 req.headers) nps.2)
      = ((leavesOfList ps).filter
          (fun l => (Slot.headersName l.slot).isSome)).all
          (leafSat E req) := by
    rw [buildMapField_all]
    have hstep := all_congr_mem
      (((leavesOfList ps).foldl insertLeaf FieldBuilders.empty).headers)
      (fun kv => if kv.2.is_empty then true
        else requireEntry E (lookupStr kv.1 req.headers) [kv.2.build E])
      (fun kv => ((leavesOfList ps).filter
        (fun l => decide (l.slot = Slot.headersS kv.1))).all (leafSat E req))
      (by
        intro kv hkv
        have hlk := lookupFPB_eq_some_of_mem_nodup kv.1 kv.2 _ hnoduph hkv
        have hcore := slotCore_eq_leaves E req (leavesOfList ps)
          (Slot.headersS kv.1) hone hcompiles hciC hciM
        rw [show builderAtSlot ((leavesOfList ps).foldl insertLeaf
            FieldBuilders.empty) (Slot.headersS kv.1) = kv.2 from by
          simp [builderAtSlot, hlk]] at hcore
        exact hcore)
    rw [hstep, ← all_map_beta
      (((leavesOfList ps).foldl insertLeaf FieldBuilders.empty).headers)
      Prod.fst
      (fun n => ((leavesOfList ps).filter
        (fun l => decide (l.slot = Slot.headersS n))).all (leafSat E req))]
    refine headersAll_group (leavesOfList ps) _ (leafSat E req) ?_
    intro l hl n hslot
    have hsome := (headers_isSome_foldl (leavesOfList ps)
      FieldBuilders.empty n).mpr (Or.inr ⟨l, hl, hslot⟩)
    by_contra hmem
    rw [(lookupFPB_none_iff_not_mem_keys n _).mpr hmem] at hsome
    simp at hsome
  have hf : (buildMapField E
      (((leavesOfList ps).foldl insertLeaf FieldBuilders.empty).form)).all
      (fun nps => requireEntry E (req.form.bind (lookupStr nps.1)) nps.2)
      = ((leavesOfList ps).filter
          (fun l => (Slot.formName l.slot).isSome)).all (leafSat E req) := by
    rw [buildMapField_all]
    have hstep := all_congr_mem
      (((leavesOfList ps).foldl insertLeaf FieldBuilders.empty).form)
      (fun kv => if kv.2.is_empty then true
        else requireEntry E (req.form.bind (lookupStr kv.1)) [kv.2.build E])
      (fun kv => ((leavesOfList ps).filter
        (fun l => decide (l.slot = Slot.formS kv.1))).all (leafSat E req))
      (by
        intro kv hkv
        have hlk := lookupFPB_eq_some_of_mem_nodup kv.1 kv.2 _ hnodupf hkv
        have hcore := slotCore_eq_leaves E req (leavesOfList ps)
          (Slot.formS kv.1) hone hcompiles hciC hciM
        rw [show builderAtSlot ((leavesOfList ps).foldl insertLeaf
            FieldBuilders.empty) (Slot.formS kv.1) = kv.2 from by
          simp [builderAtSlot, hlk]] at hcore
        exact hcore)
    rw [hstep, ← all_map_beta
      (((leavesOfList ps).foldl insertLeaf FieldBuilders.empty).form)
      Prod.fst
      (fun n => ((leavesOfList ps).filter
        (fun l => decide (l.slot = Slot.formS n))).all (leafSat E req))]
    refine formAll_group (leavesOfList ps) _ (leafSat E req) ?_
    intro l hl n hslot
    have hsome := (form_isSome_foldl (leavesOfList ps)
      FieldBuilders.empty n).mpr (Or.inr ⟨l, hl, hslot⟩)
    by_contra hmem
    rw [(lookupFPB_none_iff_not_mem_keys n _).mpr hmem] at hsome
    simp at hsome
  rw [all_partition_by_slot (leavesOfList ps) (leafSat E req),
    hm, hp, hb, hrf, hip, hq, hh, hf]

/-- Witness for the amended C2 at a concrete input: one case-sensitive
`equals` predicate on `method` (`"GET"`), evaluated on a `GET` request
over the reference engine; the optimized tree and the naive loop agree. -/
theorem C2_witness :
    (optimize_predicates refEngine
      [Predicate.mk (Option.some true) []
        (PredOp.equalsOp [(fieldMethod, Json.str [71, 69, 84])])]).matchesB
      refEngine
      ⟨[71, 69, 84], [47], [], [], Option.none, Option.none, Option.none,
        Option.none⟩
      = naiveMatches refEngine
        [Predicate.mk (Option.some true) []
          (PredOp.equalsOp [(fieldMethod, Json.str [71, 69, 84])])]
        ⟨[71, 69, 84], [47], [], [], Option.none, Option.none, Option.none,
          Option.none⟩ :=
  C2_optimized_tree_equals_naive_loop_on_clean_fragment refEngine
    [Predicate.mk (Option.some true) []
      (PredOp.equalsOp [(fieldMethod, Json.str [71, 69, 84])])]
    ⟨[71, 69, 84], [47], [], [], Option.none, Option.none, Option.none,
      Option.none⟩
    (by decide) (by decide) (by decide)
    refEngine_ciContains_compiles refEngine_ciContains_matches

end Rift
